import Mathlib

/-!
# Verification of the gridai automatic diagram layout engine

Shallow embedding of the layout engine of the gridai repository
(`src/lib/diagramConverter.ts`, `src/lib/elkLayout.ts`, and the variant of
`diagramConverter.ts` preserved in `src/unnamed/part_011`), together with
proofs and refutations of the specification claims.

Modelling conventions:
* JavaScript numbers are modelled as rationals (`ℚ`); the trigonometric
  functions `Math.cos` / `Math.sin` used by the circular layouts are taken
  as opaque parameters `(cos sin : ℚ → ℚ)`, and `Math.PI` as the exact
  rational value of the IEEE-754 double `Math.PI`.
* A JavaScript `Map` is modelled as an insertion-ordered association list
  (`List (String × α)`): `Map.set` updates an existing key in place
  (keeping its insertion position) or appends a new binding, exactly as in
  JavaScript; iteration order is insertion order.
* A JavaScript runtime error (the `nodes[0].id` access on an empty node
  list in `assignLayers`) is modelled by an `Option` result, `none`
  standing for the thrown `TypeError`.
* The recursive DFS helpers (`assignLayer`, `positionNode`, `assignLevel`)
  share one generic fuelled DFS engine `dfsA`; the wrappers run it with
  fuel `nodes.length + edges.length + 1`, which is proved sufficient
  (the result is unchanged by any larger fuel).
-/

/-- A node of a diagram, from `src/types/index.ts` (`DiagramNode`).
The `kind` enumeration is opaque to the layout engine, so it is kept as a
string. -/
structure DiagramNode where
  id : String
  label : String
  kind : String
deriving DecidableEq, Repr

/-- A directed edge, from `src/types/index.ts` (`DiagramEdge`).  The field
`from` is a Lean keyword and is rendered `efrom`; `to` is rendered `eto`
for symmetry. -/
structure DiagramEdge where
  efrom : String
  eto : String
  label : Option String := none
deriving DecidableEq, Repr

/-- A diagram specification, from `src/types/index.ts` (`DiagramSpec`). -/
structure DiagramSpec where
  type : String
  title : String
  nodes : List DiagramNode
  edges : List DiagramEdge
deriving DecidableEq, Repr

/-- A 2D layout position (`LayoutPosition` in `diagramConverter.ts`). -/
abbrev LayoutPosition := ℚ × ℚ

/-! ## JavaScript `Map` model -/

/-- `JsMap κ α` models a JavaScript `Map<κ, α>`: an association list in
insertion order with unique keys. -/
abbrev JsMap (κ α : Type) := List (κ × α)

/-- `Map.prototype.get`. -/
def mapGet {κ α : Type} [DecidableEq κ] (m : JsMap κ α) (k : κ) : Option α :=
  (m.find? (fun p => decide (p.1 = k))).map (·.2)

/-- `Map.prototype.has`. -/
def mapHas {κ α : Type} [DecidableEq κ] (m : JsMap κ α) (k : κ) : Bool :=
  m.any (fun p => decide (p.1 = k))

/-- `Map.prototype.set`: update an existing binding in place (keeping its
insertion position), or append a new binding.  A JavaScript `Map` never
holds a key twice, so updating the first occurrence is the same as
updating the occurrence. -/
def mapSet {κ α : Type} [DecidableEq κ] (m : JsMap κ α) (k : κ) (v : α) : JsMap κ α :=
  match m with
  | [] => [(k, v)]
  | p :: m => if p.1 = k then (k, v) :: m else p :: mapSet m k v

/-- The key list of a map, in insertion order. -/
def mapKeys {κ α : Type} (m : JsMap κ α) : List κ := m.map (·.1)

section MapLemmas

variable {κ α : Type} [DecidableEq κ]

theorem mapHas_iff (m : JsMap κ α) (k : κ) :
    mapHas m k = true ↔ k ∈ mapKeys m := by
  induction m with
  | nil => simp [mapHas, mapKeys]
  | cons p m ih =>
    simp only [mapHas, mapKeys] at *
    simp only [List.any_cons, List.map_cons, List.mem_cons, Bool.or_eq_true,
      decide_eq_true_eq]
    rw [← ih]
    constructor
    · rintro (h | h)
      · exact Or.inl h.symm
      · exact Or.inr h
    · rintro (h | h)
      · exact Or.inl h.symm
      · exact Or.inr h

theorem mapGet_eq_none_iff (m : JsMap κ α) (k : κ) :
    mapGet m k = none ↔ k ∉ mapKeys m := by
  induction m with
  | nil => simp [mapGet, mapKeys]
  | cons p m ih =>
    by_cases hp : p.1 = k
    · simp [mapGet, mapKeys, List.find?_cons, hp]
    · simp only [mapGet, mapKeys, List.map_cons, List.mem_cons, List.find?_cons] at *
      simp only [show (decide (p.1 = k)) = false by simp [hp]]
      rw [ih]
      constructor
      · intro h hc
        rcases hc with hc | hc
        · exact hp hc.symm
        · exact h hc
      · intro h hc
        exact h (Or.inr hc)

theorem mapGet_isSome_iff (m : JsMap κ α) (k : κ) :
    (mapGet m k).isSome = true ↔ k ∈ mapKeys m := by
  constructor
  · intro h
    by_contra hc
    rw [← mapGet_eq_none_iff] at hc
    rw [hc] at h
    simp at h
  · intro h
    cases hg : mapGet m k with
    | none => exact absurd ((mapGet_eq_none_iff m k).mp hg) (not_not_intro h)
    | some v => simp

theorem mapKeys_mapSet (m : JsMap κ α) (k : κ) (v : α) :
    mapKeys (mapSet m k v) = if k ∈ mapKeys m then mapKeys m else mapKeys m ++ [k] := by
  induction m with
  | nil => simp [mapSet, mapKeys]
  | cons p m ih =>
    by_cases hp : p.1 = k
    · simp [mapSet, hp, mapKeys]
    · simp only [mapSet, if_neg hp, mapKeys, List.map_cons] at *
      rw [ih]
      by_cases hm : k ∈ List.map (fun p => p.1) m
      · rw [if_pos hm, if_pos (by simp [hm])]
      · rw [if_neg hm, if_neg (by
          simp only [List.mem_cons]
          rintro (h | h)
          · exact hp h.symm
          · exact hm h)]
        simp

theorem mem_mapKeys_mapSet (m : JsMap κ α) (k k' : κ) (v : α) :
    k' ∈ mapKeys (mapSet m k v) ↔ k' = k ∨ k' ∈ mapKeys m := by
  rw [mapKeys_mapSet]
  by_cases h : k ∈ mapKeys m
  · rw [if_pos h]
    constructor
    · exact Or.inr
    · rintro (rfl | hm)
      · exact h
      · exact hm
  · rw [if_neg h]
    simp [or_comm]

theorem mapKeys_mapSet_nodup (m : JsMap κ α) (k : κ) (v : α)
    (h : (mapKeys m).Nodup) : (mapKeys (mapSet m k v)).Nodup := by
  rw [mapKeys_mapSet]
  by_cases hk : k ∈ mapKeys m
  · rwa [if_pos hk]
  · rw [if_neg hk]
    simpa [List.nodup_append] using ⟨h, hk⟩

theorem mapGet_mapSet_self (m : JsMap κ α) (k : κ) (v : α) :
    mapGet (mapSet m k v) k = some v := by
  induction m with
  | nil => simp [mapSet, mapGet]
  | cons p m ih =>
    by_cases hp : p.1 = k
    · simp [mapSet, hp, mapGet, List.find?_cons]
    · simp only [mapSet, if_neg hp, mapGet, List.find?_cons] at *
      simp only [show (decide (p.1 = k)) = false by simp [hp]]
      exact ih

theorem mapGet_mapSet_ne (m : JsMap κ α) (k k' : κ) (v : α) (h : k' ≠ k) :
    mapGet (mapSet m k v) k' = mapGet m k' := by
  induction m with
  | nil =>
    simp [mapSet, mapGet, List.find?_cons,
      show (decide (k = k')) = false by simp; exact fun hc => h hc.symm]
  | cons p m ih =>
    by_cases hp : p.1 = k
    · simp only [mapSet, if_pos hp, mapGet, List.find?_cons]
      simp only [show (decide (k = k')) = false by simp; exact fun hc => h hc.symm,
        show (decide (p.1 = k')) = false by simp [hp]; exact fun hc => h hc.symm]
    · simp only [mapSet, if_neg hp, mapGet, List.find?_cons] at *
      cases hpk : (decide (p.1 = k')) with
      | true => simp
      | false => simpa using ih

end MapLemmas

/-! ## Generic fuelled DFS engine

The three recursive helpers of the source (`assignLayer` inside
`assignLayers`, `positionNode` inside `layoutSequence`, `assignLevel`
inside `layoutTree`) share one shape: a mutable `visited` set, immediate
return on a visited id (with an optional state update), and otherwise
recording the id and recursing into its children with depth `d + 1`. -/

section Dfs

variable {σ : Type}

/-- The shared depth-first traversal.  `onEnter` also receives the updated
visited set because `positionNode` reads `visited` when placing a node.
`fuel` bounds the recursion depth; the wrappers use a fuel that is proved
sufficient (`dfsA_stable`). -/
def dfsA (children : String → List String) (onRevisit : String → ℕ → σ → σ)
    (onEnter : String → ℕ → List String → σ → σ) :
    ℕ → String → ℕ → List String × σ → List String × σ
  | 0, _, _, st => st
  | fuel + 1, x, d, (vis, s) =>
    if x ∈ vis then (vis, onRevisit x d s)
    else (children x).foldl
      (fun st c => dfsA children onRevisit onEnter fuel c (d + 1) st)
      (x :: vis, onEnter x d (x :: vis) s)

theorem dfsA_zero (children : String → List String) (onRevisit : String → ℕ → σ → σ)
    (onEnter : String → ℕ → List String → σ → σ) (x : String) (d : ℕ)
    (st : List String × σ) :
    dfsA children onRevisit onEnter 0 x d st = st := rfl

theorem dfsA_succ (children : String → List String) (onRevisit : String → ℕ → σ → σ)
    (onEnter : String → ℕ → List String → σ → σ) (fuel : ℕ) (x : String) (d : ℕ)
    (vis : List String) (s : σ) :
    dfsA children onRevisit onEnter (fuel + 1) x d (vis, s) =
      if x ∈ vis then (vis, onRevisit x d s)
      else (children x).foldl
        (fun st c => dfsA children onRevisit onEnter fuel c (d + 1) st)
        (x :: vis, onEnter x d (x :: vis) s) := rfl

/-- Fold preservation of a predicate. -/
theorem foldl_pres {β σT : Type} (P : σT → Prop) (g : σT → β → σT) :
    ∀ (l : List β) (s : σT), P s → (∀ s x, P s → x ∈ l → P (g s x)) →
      P (l.foldl g s) := by
  intro l
  induction l with
  | nil => intro s hs _; exact hs
  | cons c l ih =>
    intro s hs hg
    exact ih (g s c) (hg s c hs (List.mem_cons_self c l))
      (fun s' x h hx => hg s' x h (List.mem_cons_of_mem c hx))

/-- Fold extension of a reflexive transitive relation. -/
theorem foldl_chain {β σT : Type} (R : σT → σT → Prop)
    (hrefl : ∀ s, R s s) (htrans : ∀ a b c, R a b → R b c → R a c)
    (g : σT → β → σT) (hg : ∀ s x, R s (g s x)) :
    ∀ (l : List β) (s : σT), R s (l.foldl g s) := by
  intro l
  induction l with
  | nil => intro s; exact hrefl s
  | cons c l ih => intro s; exact htrans _ _ _ (hg s c) (ih (g s c))

/-- The visited set only grows. -/
theorem dfsA_vis_mono (children : String → List String)
    (onRevisit : String → ℕ → σ → σ) (onEnter : String → ℕ → List String → σ → σ) :
    ∀ (fuel : ℕ) (x : String) (d : ℕ) (st : List String × σ),
      st.1 ⊆ (dfsA children onRevisit onEnter fuel x d st).1 := by
  intro fuel
  induction fuel with
  | zero => intro x d st; exact fun a ha => ha
  | succ fuel ih =>
    intro x d st
    obtain ⟨vis, s⟩ := st
    rw [dfsA_succ]
    by_cases hx : x ∈ vis
    · rw [if_pos hx]; exact fun a ha => ha
    · rw [if_neg hx]
      have base : vis ⊆ (x :: vis, onEnter x d (x :: vis) s).1 :=
        fun a ha => List.mem_cons_of_mem x ha
      refine fun a ha => ?_
      refine (foldl_chain (fun st st' : List String × σ => st.1 ⊆ st'.1)
        (fun _ a ha => ha) (fun _ _ _ h1 h2 a ha => h2 (h1 ha))
        _ (fun st' c => ih c (d + 1) st') (children x) _) (base ha)

/-- After a call with positive fuel, the argument id is visited. -/
theorem dfsA_mem_arg (children : String → List String)
    (onRevisit : String → ℕ → σ → σ) (onEnter : String → ℕ → List String → σ → σ)
    (fuel : ℕ) (x : String) (d : ℕ) (vis : List String) (s : σ) :
    x ∈ (dfsA children onRevisit onEnter (fuel + 1) x d (vis, s)).1 := by
  rw [dfsA_succ]
  by_cases hx : x ∈ vis
  · rw [if_pos hx]; exact hx
  · rw [if_neg hx]
    have base : x ∈ (x :: vis, onEnter x d (x :: vis) s).1 := List.mem_cons_self x vis
    exact foldl_pres (fun st : List String × σ => x ∈ st.1) _ (children x) _ base
      (fun st' c h _ => dfsA_vis_mono children onRevisit onEnter fuel c (d + 1) st' h)

/-- Generic invariant preservation along a DFS run. -/
theorem dfsA_pres (children : String → List String)
    (onRevisit : String → ℕ → σ → σ) (onEnter : String → ℕ → List String → σ → σ)
    (P : List String × σ → Prop)
    (hR : ∀ x d vis s, x ∈ vis → P (vis, s) → P (vis, onRevisit x d s))
    (hE : ∀ x d vis s, x ∉ vis → P (vis, s) → P (x :: vis, onEnter x d (x :: vis) s)) :
    ∀ (fuel : ℕ) (x : String) (d : ℕ) (st : List String × σ),
      P st → P (dfsA children onRevisit onEnter fuel x d st) := by
  intro fuel
  induction fuel with
  | zero => intro x d st h; exact h
  | succ fuel ih =>
    intro x d st h
    obtain ⟨vis, s⟩ := st
    rw [dfsA_succ]
    by_cases hx : x ∈ vis
    · rw [if_pos hx]; exact hR x d vis s hx h
    · rw [if_neg hx]
      exact foldl_pres P _ (children x) _ (hE x d vis s hx h)
        (fun st' c hP _ => ih c (d + 1) st' hP)

/-- `visCard U vis` is the number of ids in the universe `U` not yet
visited: the termination measure of the DFS. -/
def visCard (U : Finset String) (vis : List String) : ℕ :=
  (U.filter (fun x => x ∉ vis)).card

theorem visCard_mono (U : Finset String) {vis vis' : List String}
    (h : vis ⊆ vis') : visCard U vis' ≤ visCard U vis := by
  apply Finset.card_le_card
  intro a ha
  rw [Finset.mem_filter] at ha ⊢
  exact ⟨ha.1, fun hc => ha.2 (h hc)⟩

theorem visCard_lt (U : Finset String) {vis : List String} {x : String}
    (hU : x ∈ U) (hx : x ∉ vis) : visCard U (x :: vis) < visCard U vis := by
  apply Finset.card_lt_card
  constructor
  · intro a ha
    rw [Finset.mem_filter] at ha ⊢
    exact ⟨ha.1, fun hc => ha.2 (List.mem_cons_of_mem x hc)⟩
  · intro hsub
    have hxmem : x ∈ U.filter (fun a => a ∉ vis) := by
      rw [Finset.mem_filter]; exact ⟨hU, hx⟩
    have := hsub hxmem
    rw [Finset.mem_filter] at this
    exact this.2 (List.mem_cons_self x vis)

/-- With enough fuel the DFS result no longer depends on the fuel: the
source's unbounded recursion terminates, and the fuelled model computes
its value. -/
theorem dfsA_stable (children : String → List String)
    (onRevisit : String → ℕ → σ → σ) (onEnter : String → ℕ → List String → σ → σ)
    (U : Finset String) (hcl : ∀ x c, c ∈ children x → c ∈ U) (k : ℕ) :
    ∀ (f₁ f₂ : ℕ) (x : String) (d : ℕ) (vis : List String) (s : σ), x ∈ U →
      visCard U vis ≤ k → k < f₁ → k < f₂ →
      dfsA children onRevisit onEnter f₁ x d (vis, s) =
        dfsA children onRevisit onEnter f₂ x d (vis, s) := by
  induction k using Nat.strong_induction_on with
  | _ k IH =>
    intro f₁ f₂ x d vis s hx hk h1 h2
    obtain ⟨g₁, rfl⟩ : ∃ g, f₁ = g + 1 := ⟨f₁ - 1, by omega⟩
    obtain ⟨g₂, rfl⟩ : ∃ g, f₂ = g + 1 := ⟨f₂ - 1, by omega⟩
    rw [dfsA_succ, dfsA_succ]
    by_cases hxv : x ∈ vis
    · rw [if_pos hxv, if_pos hxv]
    · rw [if_neg hxv, if_neg hxv]
      have hmeas : visCard U (x :: vis) < k + 1 := by
        have := visCard_lt U hx hxv
        omega
      have hcongr : ∀ (l : List String), (∀ c ∈ l, c ∈ U) →
          ∀ (st : List String × σ), (x :: vis) ⊆ st.1 →
          l.foldl (fun st c => dfsA children onRevisit onEnter g₁ c (d + 1) st) st =
          l.foldl (fun st c => dfsA children onRevisit onEnter g₂ c (d + 1) st) st := by
        intro l
        induction l with
        | nil => intro _ st _; rfl
        | cons c l ihl =>
          intro hlU st hst
          obtain ⟨vis', s'⟩ := st
          have hc : visCard U vis' < k := by
            have h1' := visCard_mono U hst
            have h2' := visCard_lt U hx hxv
            simp only at h1'
            omega
          have hhead : dfsA children onRevisit onEnter g₁ c (d + 1) (vis', s') =
              dfsA children onRevisit onEnter g₂ c (d + 1) (vis', s') := by
            refine IH (visCard U vis') hc g₁ g₂ c (d + 1) vis' s'
              (hlU c (List.mem_cons_self c l)) (le_refl _) ?_ ?_ <;> omega
          rw [List.foldl_cons, List.foldl_cons, hhead]
          refine ihl (fun c' hc' => hlU c' (List.mem_cons_of_mem c hc')) _ ?_
          refine fun a ha => ?_
          exact dfsA_vis_mono children onRevisit onEnter g₂ c (d + 1) (vis', s') (hst ha)
      exact hcongr (children x) (fun c hc => hcl x c hc) _ (fun a ha => ha)

/-- `ReachD children start x n`: `x` is reachable from `start` in exactly
`n` forward steps along `children`. -/
inductive ReachD (children : String → List String) (start : String) : String → ℕ → Prop
  | refl : ReachD children start start 0
  | step {y z : String} {n : ℕ} :
      ReachD children start y n → z ∈ children y → ReachD children start z (n + 1)

/-- Reachability (in some number of steps). -/
def Reach (children : String → List String) (start x : String) : Prop :=
  ∃ n, ReachD children start x n

theorem Reach.refl (children : String → List String) (start : String) :
    Reach children start start := ⟨0, ReachD.refl⟩

theorem ReachD.append {children : String → List String} {a b c : String} {n m : ℕ}
    (h1 : ReachD children a b n) (h2 : ReachD children b c m) :
    ReachD children a c (n + m) := by
  induction h2 with
  | refl => exact h1
  | step hy hz ih => exact ReachD.step ih hz

theorem Reach.trans {children : String → List String} {a b c : String}
    (h1 : Reach children a b) (h2 : Reach children b c) : Reach children a c := by
  obtain ⟨n, h1⟩ := h1
  obtain ⟨m, h2⟩ := h2
  exact ⟨n + m, h1.append h2⟩

theorem reachD_zero_inv {children : String → List String} {x z : String}
    (h : ReachD children x z 0) : z = x := by
  cases h; rfl

theorem reachD_succ_inv {children : String → List String} {x : String} :
    ∀ (n : ℕ) (z : String), ReachD children x z (n + 1) →
      ∃ y, y ∈ children x ∧ ReachD children y z n := by
  intro n
  induction n with
  | zero =>
    intro z h
    cases h with
    | step hy hz =>
      have := reachD_zero_inv hy
      subst this
      exact ⟨z, hz, ReachD.refl⟩
  | succ m ih =>
    intro z h
    cases h with
    | step hy hz =>
      obtain ⟨w, hw, hwy⟩ := ih _ hy
      exact ⟨w, hw, ReachD.step hwy hz⟩

theorem reach_via_child {children : String → List String} {x c y : String}
    (hc : c ∈ children x) (h : Reach children c y) : Reach children x y := by
  obtain ⟨n, h⟩ := h
  exact ⟨1 + n, (ReachD.step ReachD.refl hc).append h⟩

/-- Everything newly visited by a DFS call on `x` is reachable from `x`. -/
theorem dfsA_sound (children : String → List String)
    (onRevisit : String → ℕ → σ → σ) (onEnter : String → ℕ → List String → σ → σ) :
    ∀ (fuel : ℕ) (x : String) (d : ℕ) (vis : List String) (s : σ) (y : String),
      y ∈ (dfsA children onRevisit onEnter fuel x d (vis, s)).1 →
      y ∈ vis ∨ Reach children x y := by
  intro fuel
  induction fuel with
  | zero => intro x d vis s y hy; exact Or.inl hy
  | succ fuel ih =>
    intro x d vis s y hy
    rw [dfsA_succ] at hy
    by_cases hx : x ∈ vis
    · rw [if_pos hx] at hy; exact Or.inl hy
    · rw [if_neg hx] at hy
      have := foldl_pres
        (fun st : List String × σ => ∀ y ∈ st.1, y ∈ vis ∨ Reach children x y)
        (fun st c => dfsA children onRevisit onEnter fuel c (d + 1) st)
        (children x) (x :: vis, onEnter x d (x :: vis) s)
        (by
          intro y hy
          rcases List.mem_cons.mp hy with rfl | hy
          · exact Or.inr (Reach.refl children y)
          · exact Or.inl hy)
        (by
          intro st c hP hcmem y hy
          obtain ⟨vis', s'⟩ := st
          rcases ih c (d + 1) vis' s' y hy with hy' | hre
          · exact hP y hy'
          · exact Or.inr (reach_via_child hcmem hre))
      exact this y hy

/-- Every id in a fold of DFS calls over a list ends up visited. -/
theorem dfsList_mem (children : String → List String)
    (onRevisit : String → ℕ → σ → σ) (onEnter : String → ℕ → List String → σ → σ)
    (g : ℕ) (d : ℕ) :
    ∀ (l : List String) (st : List String × σ) (c : String), c ∈ l →
      c ∈ (l.foldl (fun st c => dfsA children onRevisit onEnter (g + 1) c d st) st).1 := by
  intro l
  induction l with
  | nil => intro st c hc; cases hc
  | cons c0 l ihl =>
    intro st c hc
    rw [List.foldl_cons]
    rcases List.mem_cons.mp hc with rfl | hc
    · obtain ⟨vis', s'⟩ := st
      have hmem := dfsA_mem_arg children onRevisit onEnter g c d vis' s'
      exact foldl_pres (fun st : List String × σ => c ∈ st.1) _ l _ hmem
        (fun st' c' h _ => dfsA_vis_mono children onRevisit onEnter (g + 1) c' d st' h)
    · exact ihl _ c hc

/-- With sufficient fuel, every visited id either was already visited or
has all its children visited in the result: the DFS fully expands every id
it enters. -/
theorem dfsA_closed (children : String → List String)
    (onRevisit : String → ℕ → σ → σ) (onEnter : String → ℕ → List String → σ → σ)
    (U : Finset String) (hcl : ∀ x c, c ∈ children x → c ∈ U) (k : ℕ) :
    ∀ (f : ℕ) (x : String) (d : ℕ) (vis : List String) (s : σ), x ∈ U →
      visCard U vis ≤ k → k < f →
      ∀ y, y ∈ (dfsA children onRevisit onEnter f x d (vis, s)).1 →
        y ∈ vis ∨ ∀ c, c ∈ children y →
          c ∈ (dfsA children onRevisit onEnter f x d (vis, s)).1 := by
  induction k using Nat.strong_induction_on with
  | _ k IH =>
    intro f x d vis s hxU hk hf y hy
    obtain ⟨g, rfl⟩ : ∃ g, f = g + 1 := ⟨f - 1, by omega⟩
    rw [dfsA_succ] at hy ⊢
    by_cases hxv : x ∈ vis
    · rw [if_pos hxv] at hy; exact Or.inl hy
    · rw [if_neg hxv] at hy ⊢
      have hk1 : 1 ≤ visCard U vis := by
        have : x ∈ U.filter (fun a => a ∉ vis) := by
          rw [Finset.mem_filter]; exact ⟨hxU, hxv⟩
        have := Finset.card_pos.mpr ⟨x, this⟩
        exact this
      obtain ⟨g', rfl⟩ : ∃ g', g = g' + 1 := ⟨g - 1, by omega⟩
      -- Invariant along the fold over the children of x.
      have hmain := foldl_pres
        (fun st : List String × σ => (x :: vis) ⊆ st.1 ∧
          ∀ y ∈ st.1, y ∈ x :: vis ∨ ∀ c, c ∈ children y → c ∈ st.1)
        (fun st c => dfsA children onRevisit onEnter (g' + 1) c (d + 1) st)
        (children x) (x :: vis, onEnter x d (x :: vis) s)
        (by
          refine ⟨fun a ha => ha, ?_⟩
          intro y hy
          exact Or.inl hy)
        (by
          intro st c hP hcmem
          obtain ⟨vis', s'⟩ := st
          obtain ⟨hsub, hcls⟩ := hP
          have hmono := dfsA_vis_mono children onRevisit onEnter (g' + 1) c (d + 1) (vis', s')
          constructor
          · exact fun a ha => hmono (hsub ha)
          · intro y hy
            have hmeas : visCard U vis' < k := by
              have h1 : visCard U vis' ≤ visCard U (x :: vis) := visCard_mono U hsub
              have h2 := visCard_lt U hxU hxv
              omega
            rcases IH (visCard U vis') hmeas (g' + 1) c (d + 1) vis' s'
              (hcl x c hcmem) (le_refl _) (by omega) y hy with hy' | hsub' 
            · rcases hcls y hy' with h | h
              · exact Or.inl h
              · exact Or.inr (fun c' hc' => hmono (h c' hc'))
            · exact Or.inr hsub')
      obtain ⟨hsub, hcls⟩ := hmain
      rcases hcls y hy with hymem | hsub'
      · rcases List.mem_cons.mp hymem with rfl | hyv
        · -- y = x: all children of x are visited by the fold itself.
          refine Or.inr (fun c hc => ?_)
          exact dfsList_mem children onRevisit onEnter g' (d + 1) (children y) _ c hc
        · exact Or.inl hyv
      · exact Or.inr hsub'

end Dfs

/-! ## Folding `mapSet` over a list -/

section FoldMapSet

variable {κ α γ : Type} [DecidableEq κ]

theorem foldl_mapSet_get_not_mem (key : γ → κ) (val : γ → α) :
    ∀ (l : List γ) (m0 : JsMap κ α) (k : κ), k ∉ l.map key →
      mapGet (l.foldl (fun m q => mapSet m (key q) (val q)) m0) k = mapGet m0 k := by
  intro l
  induction l with
  | nil => intro m0 k _; rfl
  | cons q l ih =>
    intro m0 k hk
    rw [List.map_cons, List.mem_cons] at hk
    push_neg at hk
    rw [List.foldl_cons, ih _ k hk.2, mapGet_mapSet_ne _ _ _ _ hk.1]

theorem foldl_mapSet_get_of_nodup (key : γ → κ) (val : γ → α) :
    ∀ (l : List γ) (m0 : JsMap κ α) (q : γ), (l.map key).Nodup → q ∈ l →
      mapGet (l.foldl (fun m q => mapSet m (key q) (val q)) m0) (key q) = some (val q) := by
  intro l
  induction l with
  | nil => intro m0 q _ hq; cases hq
  | cons q0 l ih =>
    intro m0 q hnd hq
    rw [List.map_cons, List.nodup_cons] at hnd
    rw [List.foldl_cons]
    rcases List.mem_cons.mp hq with rfl | hq'
    · rw [foldl_mapSet_get_not_mem _ _ _ _ _ hnd.1, mapGet_mapSet_self]
    · exact ih _ q hnd.2 hq'

theorem foldl_mapSet_mem_keys (key : γ → κ) (val : γ → α) :
    ∀ (l : List γ) (m0 : JsMap κ α) (k : κ),
      k ∈ mapKeys (l.foldl (fun m q => mapSet m (key q) (val q)) m0) ↔
        k ∈ mapKeys m0 ∨ k ∈ l.map key := by
  intro l
  induction l with
  | nil => intro m0 k; simp
  | cons q l ih =>
    intro m0 k
    rw [List.foldl_cons, ih, mem_mapKeys_mapSet, List.map_cons, List.mem_cons]
    tauto

theorem foldl_mapSet_keys_nodup (key : γ → κ) (val : γ → α) :
    ∀ (l : List γ) (m0 : JsMap κ α), (mapKeys m0).Nodup →
      (mapKeys (l.foldl (fun m q => mapSet m (key q) (val q)) m0)).Nodup := by
  intro l
  induction l with
  | nil => intro m0 h; exact h
  | cons q l ih =>
    intro m0 h
    rw [List.foldl_cons]
    exact ih _ (mapKeys_mapSet_nodup _ _ _ h)

end FoldMapSet

/-! ## The source embedding: graph primitives -/

/-- The forward adjacency list: `assignLayers` and `layoutSequence` build
`graph : Map<string, string[]>` by pushing `edge.to` onto `graph[edge.from]`
in edge order, and `layoutTree` computes
`edges.filter(e => e.from === nodeId).map(e => e.to)` directly — both give
the targets of the edges leaving `x`, in edge order (`[]` for absent keys). -/
def graphChildren (edges : List DiagramEdge) (x : String) : List String :=
  (edges.filter (fun e => decide (e.efrom = x))).map (·.eto)

/-- `new Set(edges.map(e => e.to))`: the ids with an incoming edge. -/
def incomingIds (edges : List DiagramEdge) : List String := edges.map (·.eto)

/-- `nodes.filter(n => !hasIncoming.has(n.id))`: the root (or start) nodes. -/
def rootNodes (nodes : List DiagramNode) (edges : List DiagramEdge) : List DiagramNode :=
  nodes.filter (fun n => decide (n.id ∉ incomingIds edges))

theorem mem_rootNodes (nodes : List DiagramNode) (edges : List DiagramEdge)
    (n : DiagramNode) :
    n ∈ rootNodes nodes edges ↔ n ∈ nodes ∧ n.id ∉ incomingIds edges := by
  simp [rootNodes, List.mem_filter]

/-- Fuel used by all DFS wrappers: strictly more than the number of ids a
traversal can ever visit (roots are node ids; every recursive call's
argument is the target of some edge). -/
def dfsFuel (nodes : List DiagramNode) (edges : List DiagramEdge) : ℕ :=
  nodes.length + edges.length + 1

/-- The universe of ids a traversal can encounter. -/
def idUniverse (nodes : List DiagramNode) (edges : List DiagramEdge) : Finset String :=
  (nodes.map (·.id)).toFinset ∪ (edges.map (·.eto)).toFinset

theorem graphChildren_mem_universe (nodes : List DiagramNode) (edges : List DiagramEdge)
    (x c : String) (hc : c ∈ graphChildren edges x) : c ∈ idUniverse nodes edges := by
  simp only [graphChildren, List.mem_map, List.mem_filter] at hc
  obtain ⟨e, ⟨he, _⟩, rfl⟩ := hc
  simp only [idUniverse, Finset.mem_union, List.mem_toFinset, List.mem_map]
  exact Or.inr ⟨e, he, rfl⟩

theorem node_mem_universe (nodes : List DiagramNode) (edges : List DiagramEdge)
    (n : DiagramNode) (hn : n ∈ nodes) : n.id ∈ idUniverse nodes edges := by
  simp only [idUniverse, Finset.mem_union, List.mem_toFinset, List.mem_map]
  exact Or.inl ⟨n, hn, rfl⟩

theorem visCard_le_fuel (nodes : List DiagramNode) (edges : List DiagramEdge)
    (vis : List String) : visCard (idUniverse nodes edges) vis < dfsFuel nodes edges := by
  have h1 : visCard (idUniverse nodes edges) vis ≤ (idUniverse nodes edges).card :=
    Finset.card_le_card (Finset.filter_subset _ _)
  have h2 : (idUniverse nodes edges).card ≤
      (nodes.map (·.id)).toFinset.card + (edges.map (·.eto)).toFinset.card :=
    Finset.card_union_le _ _
  have h3 : (nodes.map (·.id)).toFinset.card ≤ nodes.length := by
    calc (nodes.map (·.id)).toFinset.card ≤ (nodes.map (·.id)).length :=
          List.toFinset_card_le _
      _ = nodes.length := List.length_map _ _
  have h4 : (edges.map (·.eto)).toFinset.card ≤ edges.length := by
    calc (edges.map (·.eto)).toFinset.card ≤ (edges.map (·.eto)).length :=
          List.toFinset_card_le _
      _ = edges.length := List.length_map _ _
  unfold dfsFuel
  omega

/-! ## `assignLayers` (identical in `diagramConverter.ts` and `part_011`) -/

/-- The revisit branch of `assignLayer`: read the current layer
(`layers.get(nodeId) || 0`) and raise it if the new layer is deeper. -/
def layerRaise (x : String) (d : ℕ) (m : JsMap String ℕ) : JsMap String ℕ :=
  let currentLayer := (mapGet m x).getD 0
  if d > currentLayer then mapSet m x d else m

/-- The first-visit branch of `assignLayer`: record the layer. -/
def layerEnter (x : String) (d : ℕ) (_vis : List String) (m : JsMap String ℕ) :
    JsMap String ℕ := mapSet m x d

/-- The DFS phase of `assignLayers`: run `assignLayer(root.id, 0)` for
every root, or `assignLayer(nodes[0].id, 0)` when there is no root.
`none` models the `TypeError` thrown when `roots` and `nodes` are both
empty (`nodes[0]` is `undefined`). -/
def layersDfsState (fuel : ℕ) (nodes : List DiagramNode) (edges : List DiagramEdge) :
    Option (List String × JsMap String ℕ) :=
  let dfs := dfsA (graphChildren edges) layerRaise layerEnter fuel
  let st0 : List String × JsMap String ℕ := ([], [])
  let roots := rootNodes nodes edges
  if roots.length > 0 then
    some (roots.foldl (fun st r => dfs r.id 0 st) st0)
  else
    match nodes with
    | [] => none
    | n :: _ => some (dfs n.id 0 st0)

/-- The final loop of `assignLayers`:
`nodes.forEach(node => { if (!layers.has(node.id)) layers.set(node.id, 0) })`. -/
def layersFill (nodes : List DiagramNode) (m : JsMap String ℕ) : JsMap String ℕ :=
  nodes.foldl (fun m n => if mapHas m n.id then m else mapSet m n.id 0) m

/-- `assignLayers` with explicit fuel. -/
def assignLayersFuel (fuel : ℕ) (nodes : List DiagramNode) (edges : List DiagramEdge) :
    Option (JsMap String ℕ) :=
  (layersDfsState fuel nodes edges).map (fun st1 => layersFill nodes st1.2)

/-- `assignLayers(nodes, edges)`, run with sufficient fuel. -/
def assignLayers (nodes : List DiagramNode) (edges : List DiagramEdge) :
    Option (JsMap String ℕ) :=
  assignLayersFuel (dfsFuel nodes edges) nodes edges

/-! ## `anchorOnRect` (`diagramConverter.ts`, lines 16–39) -/

/-- `Math.sign`. -/
def mathSign (q : ℚ) : ℚ := if q > 0 then 1 else if q < 0 then -1 else 0

/-- `anchorOnRect(a, b, w, h)`: the point on the boundary of the
(width `w`, height `h`) box anchored at top-left `a` where the segment to
the centre of the box at `b` exits.  Over `ℚ` no NaN can arise; the
source's `|| 1` guards on `absDx`/`absDy` and `Math.sign(..) || 1` are
modelled by explicit `if`s. -/
def anchorOnRect (a b : LayoutPosition) (w h : ℚ) : LayoutPosition :=
  let ax := a.1 + w / 2
  let ay := a.2 + h / 2
  let bx := b.1 + w / 2
  let byy := b.2 + h / 2
  let dx := bx - ax
  let dy := byy - ay
  if dx = 0 ∧ dy = 0 then (ax, ay)
  else
    let rx := w / 2
    let ry := h / 2
    let absDx := |dx|
    let absDy := |dy|
    if absDx * ry > absDy * rx then
      let sign := if mathSign dx = 0 then 1 else mathSign dx
      (ax + sign * rx, ay + dy * (rx / (if absDx = 0 then 1 else absDx)))
    else
      let sign := if mathSign dy = 0 then 1 else mathSign dy
      (ax + dx * (ry / (if absDy = 0 then 1 else absDy)), ay + sign * ry)

/-! ## Layout strategies

The four strategies present in `src/lib/diagramConverter.ts` reappear in
`src/unnamed/part_011` with identical code except for the numeric spacing
constants, so each is defined once with the constants as parameters and
instantiated twice (namespaces `DC` for `diagramConverter.ts` and `P11`
for `part_011`). -/

/-- The body of `positionNode` in `layoutSequence`: count the already
placed nodes of this column (`Array.from(visited).filter(...)`, where the
freshly visited id itself has no position yet), then place the node. -/
def seqEnter (startX startY hSpace vSpace : ℚ) (x : String) (column : ℕ)
    (vis : List String) (positions : JsMap String LayoutPosition) :
    JsMap String LayoutPosition :=
  let columnOffset := (column : ℚ) * hSpace
  let nodesInColumn := (vis.filter (fun i =>
    match mapGet positions i with
    | none => false
    | some pos => decide (|pos.1 - (startX + columnOffset)| < 50))).length
  mapSet positions x (startX + columnOffset, startY + (nodesInColumn : ℚ) * vSpace)

/-- `layoutSequence(nodes, edges)` with the spacing constants abstracted. -/
def layoutSequenceC (startX startY hSpace vSpace : ℚ) (nodes : List DiagramNode)
    (edges : List DiagramEdge) : JsMap String LayoutPosition :=
  let startNodes := rootNodes nodes edges
  if startNodes.length = 0 then
    nodes.enum.foldl (fun m p =>
      mapSet m p.2.id (startX + (p.1 : ℚ) * hSpace, startY)) []
  else
    let dfs := dfsA (graphChildren edges) (fun _ _ m => m)
      (seqEnter startX startY hSpace vSpace) (dfsFuel nodes edges)
    let st1 := startNodes.foldl (fun st r => dfs r.id 0 st) ([], [])
    nodes.enum.foldl (fun m p =>
      if p.2.id ∈ st1.1 then m
      else mapSet m p.2.id (startX + 2 * hSpace, startY + (p.1 : ℚ) * vSpace)) st1.2

/-- `layoutDirectedGraph(nodes, edges)` with the constants abstracted.
`Math.max(...values)` is modelled as a fold of `max` from `0`; the layers
map is non-empty whenever `assignLayers` succeeds on a non-empty node
list, and its values are naturals, so this agrees with the source. -/
def layoutDirectedGraphC (centerX centerY hSpace vSpace : ℚ)
    (nodes : List DiagramNode) (edges : List DiagramEdge) :
    Option (JsMap String LayoutPosition) :=
  (assignLayers nodes edges).map (fun layers =>
    let maxLayer := (layers.map (·.2)).foldl max 0
    layers.foldl (fun pos p =>
      let nodesInLayer := layers.filter (fun q => decide (q.2 = p.2))
      let indexInLayer := nodesInLayer.findIdx (fun q => decide (q.1 = p.1))
      let layerSize := nodesInLayer.length
      mapSet pos p.1
        (centerX + ((p.2 : ℚ) - (maxLayer : ℚ) / 2) * hSpace,
         centerY + ((indexInLayer : ℚ) - (layerSize : ℚ) / 2) * vSpace)) [])

/-- `layoutFlowchart(nodes, edges)` with the constants abstracted. -/
def layoutFlowchartC (startX startY vSpace hSpace : ℚ)
    (nodes : List DiagramNode) (edges : List DiagramEdge) :
    Option (JsMap String LayoutPosition) :=
  (assignLayers nodes edges).map (fun layers =>
    layers.foldl (fun pos p =>
      let nodesInLayer := layers.filter (fun q => decide (q.2 = p.2))
      let indexInLayer := nodesInLayer.findIdx (fun q => decide (q.1 = p.1))
      let layerSize := nodesInLayer.length
      mapSet pos p.1
        (startX + ((indexInLayer : ℚ) - (layerSize : ℚ) / 2) * hSpace,
         startY + (p.2 : ℚ) * vSpace)) [])

/-- `levels[level]` creation and push of `assignLevel` in `layoutTree`:
`if (!levels[level]) levels[level] = []; levels[level].push(node)` —
append to the list at index `l`, padding with empty levels if the index
is past the end.  (The DFS fills levels contiguously, so the padding case
only matters for the model's totality.) -/
def pushAtLevel : List (List DiagramNode) → ℕ → DiagramNode → List (List DiagramNode)
  | [], 0, node => [[node]]
  | [], l + 1, node => [] :: pushAtLevel [] l node
  | lvl :: rest, 0, node => (lvl ++ [node]) :: rest
  | lvl :: rest, l + 1, node => lvl :: pushAtLevel rest l node

/-- `assignLevel`'s children: computed only after the node lookup
succeeds; a nonexistent id is recorded as visited but not expanded. -/
def treeChildren (nodes : List DiagramNode) (edges : List DiagramEdge) (x : String) :
    List String :=
  if (nodes.find? (fun n => decide (n.id = x))).isSome then graphChildren edges x else []

/-- `assignLevel`'s first-visit action: push the node (if it exists) onto
its level. -/
def treeEnter (nodes : List DiagramNode) (x : String) (level : ℕ) (_vis : List String)
    (levels : List (List DiagramNode)) : List (List DiagramNode) :=
  match nodes.find? (fun n => decide (n.id = x)) with
  | none => levels
  | some node => pushAtLevel levels level node

/-- The DFS phase of `layoutTree`: `roots.forEach(root =>
assignLevel(root.id, 0))`, returning the visited set and the levels. -/
def treeDfsState (nodes : List DiagramNode) (edges : List DiagramEdge) :
    List String × List (List DiagramNode) :=
  (rootNodes nodes edges).foldl
    (fun st r => dfsA (treeChildren nodes edges) (fun _ _ lv => lv) (treeEnter nodes)
      (dfsFuel nodes edges) r.id 0 st) ([], [])

/-- The levels after `layoutTree`'s trailing loop appends each unvisited
node on its own fresh level. -/
def treeLevels (nodes : List DiagramNode) (edges : List DiagramEdge) :
    List (List DiagramNode) :=
  let st1 := treeDfsState nodes edges
  nodes.foldl (fun lv n => if n.id ∈ st1.1 then lv else lv ++ [[n]]) st1.2

/-- `layoutTree(nodes, edges)` with the constants abstracted (the first
four are the `layoutDirectedGraph` constants used by the no-root
fallback). -/
def layoutTreeC (dgCenterX dgCenterY dgH dgV startX startY levelHeight nodeWidth : ℚ)
    (nodes : List DiagramNode) (edges : List DiagramEdge) :
    Option (JsMap String LayoutPosition) :=
  let roots := rootNodes nodes edges
  if roots.length = 0 then layoutDirectedGraphC dgCenterX dgCenterY dgH dgV nodes edges
  else some (
    let levels := treeLevels nodes edges
    levels.enum.foldl (fun pos lp =>
      let levelNodes := lp.2
      let levelWidth := (levelNodes.length : ℚ) * nodeWidth
      let startXForLevel := startX - levelWidth / 2
      levelNodes.enum.foldl (fun pos np =>
        mapSet pos np.2.id
          (startXForLevel + (np.1 : ℚ) * nodeWidth,
           startY + (lp.1 : ℚ) * levelHeight)) pos) [])

/-- The exact rational value of the IEEE-754 double `Math.PI`. -/
def mathPI : ℚ := 884279719003555 / 281474976710656

/-- `layoutStateMachine` (`part_011` only): nodes evenly spaced on a
circle of radius 350 around (600, 400), in input order. -/
def layoutStateMachine (cos sin : ℚ → ℚ) (nodes : List DiagramNode)
    (_edges : List DiagramEdge) : JsMap String LayoutPosition :=
  nodes.enum.foldl (fun m p =>
    let angle := ((p.1 : ℚ) / (nodes.length : ℚ)) * 2 * mathPI
    mapSet m p.2.id (600 + 350 * cos angle, 400 + 350 * sin angle)) []

/-- Grid layout shared by `layoutEntityRelationship` and
`layoutClassDiagram` (`part_011` only): `ceil(sqrt(n))` columns,
row-major.  `Math.ceil(Math.sqrt(n))` is exact for any realistic `n`. -/
def ceilSqrt (n : ℕ) : ℕ :=
  if Nat.sqrt n * Nat.sqrt n = n then Nat.sqrt n else Nat.sqrt n + 1

/-- The grid strategy with the constants abstracted. -/
def layoutGridC (startX startY hSpace vSpace : ℚ) (nodes : List DiagramNode)
    (_edges : List DiagramEdge) : JsMap String LayoutPosition :=
  let cols := ceilSqrt nodes.length
  nodes.enum.foldl (fun m p =>
    let col := p.1 % cols
    let row := p.1 / cols
    mapSet m p.2.id (startX + (col : ℚ) * hSpace, startY + (row : ℚ) * vSpace)) []

/-- `connectionCount`: for each edge, bump the count of its `from` and
then of its `to` (a self-loop counts twice). -/
def connectionCount (edges : List DiagramEdge) : JsMap String ℕ :=
  edges.foldl (fun m e =>
    let m1 := mapSet m e.efrom ((mapGet m e.efrom).getD 0 + 1)
    mapSet m1 e.eto ((mapGet m1 e.eto).getD 0 + 1)) []

/-- `connectionCount.get(id) || 0`: the ranking key of `layoutNetwork`. -/
def networkDegree (edges : List DiagramEdge) (i : String) : ℕ :=
  (mapGet (connectionCount edges) i).getD 0

/-- `[...nodes].sort((a, b) => (count(b) || 0) - (count(a) || 0))`: nodes
in descending order of degree.  The JS comparator is total and
transitive, so the engine's stable merge sort agrees with the stable
`List.insertionSort` on the non-strict descending comparator. -/
def networkSorted (nodes : List DiagramNode) (edges : List DiagramEdge) :
    List DiagramNode :=
  List.insertionSort (fun a b => networkDegree edges b.id ≤ networkDegree edges a.id) nodes

/-- `Math.min(3, Math.floor(nodes.length * 0.3))` (exact for doubles:
`floor(n * 0.3)` agrees with `3 * n / 10` wherever the `min` looks at it). -/
def networkHubCount (nodes : List DiagramNode) : ℕ := min 3 (nodes.length * 3 / 10)

/-- `layoutNetwork` (`part_011` only): the top `networkHubCount` nodes of
the degree-sorted list on an inner circle of radius 250, the rest on an
outer circle of radius 500, both centred at (600, 400). -/
def layoutNetwork (cos sin : ℚ → ℚ) (nodes : List DiagramNode)
    (edges : List DiagramEdge) : JsMap String LayoutPosition :=
  let sortedNodes := networkSorted nodes edges
  let hubCount := networkHubCount nodes
  let hubs := sortedNodes.take hubCount
  let m1 := hubs.enum.foldl (fun m p =>
    let angle := ((p.1 : ℚ) / (hubCount : ℚ)) * 2 * mathPI
    mapSet m p.2.id (600 + 250 * cos angle, 400 + 250 * sin angle)) []
  let peripheralNodes := sortedNodes.drop hubCount
  peripheralNodes.enum.foldl (fun m p =>
    let angle := ((p.1 : ℚ) / (peripheralNodes.length : ℚ)) * 2 * mathPI
    mapSet m p.2.id (600 + 500 * cos angle, 400 + 500 * sin angle)) m1

/-- `layoutTimeline` (`part_011` only): one horizontal row in input
order. -/
def layoutTimeline (nodes : List DiagramNode) (_edges : List DiagramEdge) :
    JsMap String LayoutPosition :=
  nodes.enum.foldl (fun m p => mapSet m p.2.id (200 + (p.1 : ℚ) * 600, 400)) []

/-- `layoutDeployment` (`part_011` only): group nodes by their layer,
then lay each group out as a horizontally centred row. -/
def layoutDeployment (nodes : List DiagramNode) (edges : List DiagramEdge) :
    Option (JsMap String LayoutPosition) :=
  (assignLayers nodes edges).map (fun layers =>
    let layerGroups : JsMap ℕ (List DiagramNode) := nodes.foldl (fun g n =>
      let layer := (mapGet layers n.id).getD 0
      mapSet g layer ((mapGet g layer).getD [] ++ [n])) []
    layerGroups.foldl (fun pos g =>
      let nodesInLayer := g.2
      let layerWidth := (nodesInLayer.length : ℚ) * 550
      let layerStartX := 700 - layerWidth / 2
      nodesInLayer.enum.foldl (fun pos np =>
        mapSet pos np.2.id
          (layerStartX + (np.1 : ℚ) * 550, 200 + (g.1 : ℚ) * 400)) pos) [])

namespace DC

/-- `layoutSequence` of `src/lib/diagramConverter.ts`. -/
def layoutSequence : List DiagramNode → List DiagramEdge → JsMap String LayoutPosition :=
  layoutSequenceC 150 300 400 250

/-- `layoutDirectedGraph` of `src/lib/diagramConverter.ts`. -/
def layoutDirectedGraph :
    List DiagramNode → List DiagramEdge → Option (JsMap String LayoutPosition) :=
  layoutDirectedGraphC 600 400 450 280

/-- `layoutFlowchart` of `src/lib/diagramConverter.ts`. -/
def layoutFlowchart :
    List DiagramNode → List DiagramEdge → Option (JsMap String LayoutPosition) :=
  layoutFlowchartC 600 100 250 400

/-- `layoutTree` of `src/lib/diagramConverter.ts`. -/
def layoutTree :
    List DiagramNode → List DiagramEdge → Option (JsMap String LayoutPosition) :=
  layoutTreeC 600 400 450 280 400 100 250 350

/-- `calculateLayout` of `src/lib/diagramConverter.ts` (four strategy
cases).  The `Option.getD []` extractions are unreachable: after the
`nodeCount === 0` guard every dispatched strategy succeeds. -/
def calculateLayout (spec : DiagramSpec) : JsMap String LayoutPosition :=
  if spec.nodes.length = 0 then []
  else if spec.type = "sequence" then layoutSequence spec.nodes spec.edges
  else if spec.type = "tree" then (layoutTree spec.nodes spec.edges).getD []
  else if spec.type = "flowchart" then (layoutFlowchart spec.nodes spec.edges).getD []
  else (layoutDirectedGraph spec.nodes spec.edges).getD []

end DC

namespace P11

/-- `layoutSequence` of `src/unnamed/part_011`. -/
def layoutSequence : List DiagramNode → List DiagramEdge → JsMap String LayoutPosition :=
  layoutSequenceC 200 350 750 450

/-- `layoutDirectedGraph` of `src/unnamed/part_011`. -/
def layoutDirectedGraph :
    List DiagramNode → List DiagramEdge → Option (JsMap String LayoutPosition) :=
  layoutDirectedGraphC 700 450 600 380

/-- `layoutFlowchart` of `src/unnamed/part_011`. -/
def layoutFlowchart :
    List DiagramNode → List DiagramEdge → Option (JsMap String LayoutPosition) :=
  layoutFlowchartC 700 150 350 550

/-- `layoutTree` of `src/unnamed/part_011`. -/
def layoutTree :
    List DiagramNode → List DiagramEdge → Option (JsMap String LayoutPosition) :=
  layoutTreeC 700 450 600 380 500 150 350 500

/-- `layoutEntityRelationship` of `src/unnamed/part_011`. -/
def layoutEntityRelationship :
    List DiagramNode → List DiagramEdge → JsMap String LayoutPosition :=
  layoutGridC 300 200 600 400

/-- `layoutClassDiagram` of `src/unnamed/part_011`. -/
def layoutClassDiagram :
    List DiagramNode → List DiagramEdge → JsMap String LayoutPosition :=
  layoutGridC 300 200 500 350

/-- `calculateLayout` of `src/unnamed/part_011` (ten strategy cases). -/
def calculateLayout (cos sin : ℚ → ℚ) (spec : DiagramSpec) :
    JsMap String LayoutPosition :=
  if spec.nodes.length = 0 then []
  else if spec.type = "sequence" then layoutSequence spec.nodes spec.edges
  else if spec.type = "tree" then (layoutTree spec.nodes spec.edges).getD []
  else if spec.type = "flowchart" then (layoutFlowchart spec.nodes spec.edges).getD []
  else if spec.type = "state-machine" then layoutStateMachine cos sin spec.nodes spec.edges
  else if spec.type = "entity-relationship" then
    layoutEntityRelationship spec.nodes spec.edges
  else if spec.type = "network" then layoutNetwork cos sin spec.nodes spec.edges
  else if spec.type = "timeline" then layoutTimeline spec.nodes spec.edges
  else if spec.type = "class-diagram" then layoutClassDiagram spec.nodes spec.edges
  else if spec.type = "deployment" then (layoutDeployment spec.nodes spec.edges).getD []
  else (layoutDirectedGraph spec.nodes spec.edges).getD []

end P11

/-! ## The ELK adapter call in `applyDiagramToEditor`
(`diagramConverter.ts`, lines 52–67)

`computeElkLayout` delegates to the external `elkjs` library, which is not
part of this repository; its outcome is a parameter: `some m` models a
successful resolution with position map `m`, `none` models a rejection
(throw/timeout). -/

/-- The `try/catch` of `applyDiagramToEditor`: use the ELK positions on
success, fall back to `calculateLayout(spec)` only when the ELK call
throws. -/
def chooseNodePositions (elkResult : Option (JsMap String LayoutPosition))
    (spec : DiagramSpec) : JsMap String LayoutPosition :=
  match elkResult with
  | some m => m
  | none => DC.calculateLayout spec

/-- The node-creation loop of `applyDiagramToEditor`: a node with no
position in the chosen map is skipped (`if (!pos) continue`).  Returns the
ids for which a shape is created. -/
def renderedNodeIds (elkResult : Option (JsMap String LayoutPosition))
    (spec : DiagramSpec) : List String :=
  (spec.nodes.filter (fun n =>
    (mapGet (chooseNodePositions elkResult spec) n.id).isSome)).map (·.id)

/-! ## Concrete fixtures used by counterexamples and witnesses -/

/-- A node with the given id (label = id, kind `service`). -/
def exNode (s : String) : DiagramNode := ⟨s, s, "service"⟩

/-- An unlabelled edge. -/
def exEdge (a b : String) : DiagramEdge := ⟨a, b, none⟩

/-- The spec's own cycle example `A→B→C→A`. -/
def cycNodes : List DiagramNode := [exNode "A", exNode "B", exNode "C"]

/-- Edges of the cycle example. -/
def cycEdges : List DiagramEdge := [exEdge "A" "B", exEdge "B" "C", exEdge "C" "A"]

/-- A triangle network: every node has total degree 2. -/
def netNodes : List DiagramNode := cycNodes

/-- A two-node flowchart spec used for the partial-ELK-result example. -/
def specAB : DiagramSpec := ⟨"flowchart", "t", [exNode "A", exNode "B"], [exEdge "A" "B"]⟩

/-- C2, counterexample.  On the spec's own cycle example `A→B→C→A` (no
root exists, so the first input node `A` is the designated root), the
returned layers are `A ↦ 3, B ↦ 1, C ↦ 2`: the revisit of `A` raises its
layer to 3 without re-expanding its children, so the edge `A→B` — both
endpoints reachable from the root `A` — violates
`layer(B) ≥ layer(A) + 1` (`1 < 3 + 1`). -/
theorem assignLayers_cycle_not_monotone :
    rootNodes cycNodes cycEdges = [] ∧
    (cycNodes.head?.map (·.id)) = some "A" ∧
    Reach (graphChildren cycEdges) "A" "A" ∧
    Reach (graphChildren cycEdges) "A" "B" ∧
    exEdge "A" "B" ∈ cycEdges ∧
    assignLayers cycNodes cycEdges = some [("A", 3), ("B", 1), ("C", 2)] ∧
    ¬(1 ≥ 3 + 1) := by
  refine ⟨by decide, by decide, ⟨0, ReachD.refl⟩,
    ⟨1, ReachD.step ReachD.refl (by decide)⟩, by decide, by decide, by decide⟩

/-- C3, counterexample.  With the single node `A` and the dangling edge
`A→X` (`X` not a node), `assignLayers` records a layer entry keyed by the
nonexistent id `X` — the edge is traversed, not skipped. -/
theorem assignLayers_dangling_edge_not_skipped :
    ("X" ∉ cycNodes.map (·.id)) ∧
    assignLayers [exNode "A"] [exEdge "A" "X"] = some [("A", 0), ("X", 1)] ∧
    mapGet ((assignLayers [exNode "A"] [exEdge "A" "X"]).getD []) "X" = some 1 ∧
    assignLayers [exNode "A"] [] = some [("A", 0)] := by
  decide

/-- C4, counterexample.  Called directly on an empty node list, the
layer-based strategies throw (`assignLayer(nodes[0].id, 0)` dereferences
`undefined`), modelled as `none` — they do not return an empty map. -/
theorem layer_strategies_throw_on_empty :
    DC.layoutDirectedGraph [] [] = none ∧
    DC.layoutFlowchart [] [] = none ∧
    DC.layoutTree [] [] = none ∧
    layoutDeployment [] [] = none := by
  decide

/-- C5, counterexample.  `assignLayers` itself throws on an empty node
list (with empty edges, `roots` is empty and `nodes[0]` is `undefined`),
so it does not return a complete layer assignment for *every* node list. -/
theorem assignLayers_throws_on_empty :
    assignLayers [] [] = none := by
  decide

/-- C7, counterexample.  On a triangle network of three nodes of equal
degree 2, the hub count is `min(3, floor(3 * 0.3)) = 0`: *no* node is
placed on the inner circle (radius 250) — all three land on the outer
circle (radius 500), refuting "top ~30%, at minimum enough nodes to form
an inner ring".  (`cos`/`sin` are instantiated with constants 1 and 0, so
an inner-circle node would sit at x = 850, an outer one at x = 1100.) -/
theorem layoutNetwork_small_has_no_inner_ring :
    netNodes.length = 3 ∧
    min 3 (netNodes.length * 3 / 10) = 0 ∧
    layoutNetwork (fun _ => 1) (fun _ => 0) netNodes cycEdges =
      [("A", (1100, 400)), ("B", (1100, 400)), ("C", (1100, 400))] := by
  refine ⟨by decide, by decide, ?_⟩
  norm_num +decide [layoutNetwork, networkSorted, networkDegree, networkHubCount,
    connectionCount, netNodes, cycNodes, cycEdges, exNode, exEdge,
    mapSet, mapGet, mapHas, List.insertionSort, List.orderedInsert,
    List.enum, List.enumFrom, List.foldl, List.find?]

/-- C1, counterexample.  If the ELK call resolves successfully but its
position map omits node `B`, `applyDiagramToEditor` uses the map as-is:
`B` gets no position and no shape (`if (!pos) continue`) — it is dropped,
not positioned by `calculateLayout` and merged. -/
theorem elk_partial_result_drops_nodes :
    chooseNodePositions (some [("A", (0, 0))]) specAB = [("A", (0, 0))] ∧
    "B" ∈ specAB.nodes.map (·.id) ∧
    mapGet (chooseNodePositions (some [("A", (0, 0))]) specAB) "B" = none ∧
    renderedNodeIds (some [("A", (0, 0))]) specAB = ["A"] ∧
    (mapGet (DC.calculateLayout specAB) "B").isSome = true := by
  decide

/-! ## Coverage of `assignLayers` -/

/-- Along the layers DFS, the visited set and the key set of the layers
map coincide, and the keys stay duplicate-free. -/
theorem layersDfs_sync (edges : List DiagramEdge) (fuel : ℕ) (x : String) (d : ℕ)
    (st : List String × JsMap String ℕ)
    (h : (∀ y, y ∈ st.1 ↔ y ∈ mapKeys st.2) ∧ (mapKeys st.2).Nodup) :
    (∀ y, y ∈ (dfsA (graphChildren edges) layerRaise layerEnter fuel x d st).1 ↔
        y ∈ mapKeys (dfsA (graphChildren edges) layerRaise layerEnter fuel x d st).2) ∧
    (mapKeys (dfsA (graphChildren edges) layerRaise layerEnter fuel x d st).2).Nodup := by
  refine dfsA_pres _ _ _
    (fun st => (∀ y, y ∈ st.1 ↔ y ∈ mapKeys st.2) ∧ (mapKeys st.2).Nodup)
    ?_ ?_ fuel x d st h
  · intro x d vis s hx hP
    obtain ⟨hiff, hnd⟩ := hP
    have hxk : x ∈ mapKeys s := (hiff x).mp hx
    simp only [layerRaise]
    by_cases hgt : d > (mapGet s x).getD 0
    · rw [if_pos hgt]
      have hkeys : mapKeys (mapSet s x d) = mapKeys s := by
        rw [mapKeys_mapSet, if_pos hxk]
      exact ⟨by simpa [hkeys] using hiff, by simpa [hkeys] using hnd⟩
    · rw [if_neg hgt]
      exact ⟨hiff, hnd⟩
  · intro x d vis s hx hP
    obtain ⟨hiff, hnd⟩ := hP
    have hxk : x ∉ mapKeys s := fun hc => hx ((hiff x).mpr hc)
    simp only [layerEnter]
    constructor
    · intro y
      rw [List.mem_cons, mem_mapKeys_mapSet, hiff y]
    · exact mapKeys_mapSet_nodup _ _ _ hnd

/-- The DFS phase of `assignLayers` keeps visited ids and layer keys in
sync, with duplicate-free keys. -/
theorem layersDfsState_sync (fuel : ℕ) (nodes : List DiagramNode)
    (edges : List DiagramEdge) (st1 : List String × JsMap String ℕ)
    (h : layersDfsState fuel nodes edges = some st1) :
    (∀ y, y ∈ st1.1 ↔ y ∈ mapKeys st1.2) ∧ (mapKeys st1.2).Nodup := by
  unfold layersDfsState at h
  by_cases hr : (rootNodes nodes edges).length > 0
  · rw [if_pos hr, Option.some_inj] at h
    subst h
    refine foldl_pres
      (fun st : List String × JsMap String ℕ =>
        (∀ y, y ∈ st.1 ↔ y ∈ mapKeys st.2) ∧ (mapKeys st.2).Nodup)
      _ (rootNodes nodes edges) _ ⟨by simp [mapKeys], by simp [mapKeys]⟩ ?_
    intro st r hP _
    exact layersDfs_sync edges fuel r.id 0 st hP
  · rw [if_neg hr] at h
    cases nodes with
    | nil => cases h
    | cons n ns =>
      rw [Option.some_inj] at h
      subst h
      exact layersDfs_sync edges fuel n.id 0 ([], [])
        ⟨by simp [mapKeys], by simp [mapKeys]⟩

/-- Everything the layers DFS visits is reachable from a node id. -/
theorem layersDfsState_sound (fuel : ℕ) (nodes : List DiagramNode)
    (edges : List DiagramEdge) (st1 : List String × JsMap String ℕ)
    (h : layersDfsState fuel nodes edges = some st1) (y : String) (hy : y ∈ st1.1) :
    ∃ s, s ∈ nodes.map (·.id) ∧ Reach (graphChildren edges) s y := by
  unfold layersDfsState at h
  by_cases hr : (rootNodes nodes edges).length > 0
  · rw [if_pos hr, Option.some_inj] at h
    subst h
    refine foldl_pres
      (fun st : List String × JsMap String ℕ =>
        ∀ y ∈ st.1, ∃ s, s ∈ nodes.map (·.id) ∧ Reach (graphChildren edges) s y)
      _ (rootNodes nodes edges) _ (by intro y hy; cases hy) ?_ y hy
    intro st r hP hr'
    obtain ⟨vis', s'⟩ := st
    intro y hy
    rcases dfsA_sound _ _ _ fuel r.id 0 vis' s' y hy with hy' | hre
    · exact hP y hy'
    · exact ⟨r.id, by
        rw [List.mem_map]
        exact ⟨r, ((mem_rootNodes nodes edges r).mp hr').1, rfl⟩, hre⟩
  · rw [if_neg hr] at h
    cases nodes with
    | nil => cases h
    | cons n ns =>
      rw [Option.some_inj] at h
      subst h
      rcases dfsA_sound _ _ _ fuel n.id 0 [] [] y hy with hy' | hre
      · cases hy'
      · exact ⟨n.id, by simp, hre⟩

/-- A reachable id is the start id or the target of some edge. -/
theorem reach_target (edges : List DiagramEdge) (s y : String)
    (h : Reach (graphChildren edges) s y) : y = s ∨ y ∈ edges.map (·.eto) := by
  obtain ⟨n, hd⟩ := h
  cases hd with
  | refl => exact Or.inl rfl
  | step hu hz =>
    right
    simp only [graphChildren, List.mem_map, List.mem_filter] at hz
    obtain ⟨e, ⟨he, _⟩, rfl⟩ := hz
    exact List.mem_map.mpr ⟨e, he, rfl⟩

theorem layersFill_mem_keys (nodes : List DiagramNode) :
    ∀ (m : JsMap String ℕ) (k : String),
      k ∈ mapKeys (layersFill nodes m) ↔ k ∈ mapKeys m ∨ k ∈ nodes.map (·.id) := by
  induction nodes with
  | nil => intro m k; simp [layersFill]
  | cons n ns ih =>
    intro m k
    simp only [layersFill, List.foldl_cons] at *
    by_cases hn : mapHas m n.id
    · rw [if_pos hn, ih]
      have hnk : n.id ∈ mapKeys m := (mapHas_iff m n.id).mp hn
      constructor
      · rintro (h | h)
        · exact Or.inl h
        · exact Or.inr (List.mem_map.mpr ⟨_, List.mem_cons_of_mem n (List.mem_map.mp h).choose_spec.1, (List.mem_map.mp h).choose_spec.2⟩)
      · rintro (h | h)
        · exact Or.inl h
        · rcases List.mem_map.mp h with ⟨n', hn', rfl⟩
          rcases List.mem_cons.mp hn' with rfl | hn''
          · exact Or.inl hnk
          · exact Or.inr (List.mem_map.mpr ⟨n', hn'', rfl⟩)
    · rw [if_neg hn, ih]
      rw [mem_mapKeys_mapSet]
      simp only [List.map_cons, List.mem_cons]
      tauto

theorem layersFill_nodup (nodes : List DiagramNode) :
    ∀ (m : JsMap String ℕ), (mapKeys m).Nodup → (mapKeys (layersFill nodes m)).Nodup := by
  induction nodes with
  | nil => intro m h; exact h
  | cons n ns ih =>
    intro m h
    simp only [layersFill, List.foldl_cons] at *
    by_cases hn : mapHas m n.id
    · rw [if_pos hn]; exact ih m h
    · rw [if_neg hn]; exact ih _ (mapKeys_mapSet_nodup _ _ _ h)

theorem layersFill_get_present (nodes : List DiagramNode) :
    ∀ (m : JsMap String ℕ) (k : String) (v : ℕ), mapGet m k = some v →
      mapGet (layersFill nodes m) k = some v := by
  induction nodes with
  | nil => intro m k v h; exact h
  | cons n ns ih =>
    intro m k v h
    simp only [layersFill, List.foldl_cons] at *
    by_cases hn : mapHas m n.id
    · rw [if_pos hn]; exact ih m k v h
    · rw [if_neg hn]
      refine ih _ k v ?_
      have hne : k ≠ n.id := by
        intro he
        rw [he] at h
        have hmem : n.id ∈ mapKeys m := by
          rw [← mapGet_isSome_iff, h]; rfl
        exact hn ((mapHas_iff m n.id).mpr hmem)
      rw [mapGet_mapSet_ne _ _ _ _ hne]
      exact h

/-- `assignLayers` succeeds exactly on non-empty node lists. -/
theorem assignLayersFuel_isSome (fuel : ℕ) (nodes : List DiagramNode)
    (edges : List DiagramEdge) (hne : nodes ≠ []) :
    ∃ L, assignLayersFuel fuel nodes edges = some L := by
  unfold assignLayersFuel layersDfsState
  by_cases hr : (rootNodes nodes edges).length > 0
  · rw [if_pos hr]
    exact ⟨_, rfl⟩
  · rw [if_neg hr]
    cases nodes with
    | nil => exact absurd rfl hne
    | cons n ns => exact ⟨_, rfl⟩

/-- Every input node receives a layer. -/
theorem assignLayersFuel_covers (fuel : ℕ) (nodes : List DiagramNode)
    (edges : List DiagramEdge) (L : JsMap String ℕ)
    (h : assignLayersFuel fuel nodes edges = some L) (n : DiagramNode) (hn : n ∈ nodes) :
    (mapGet L n.id).isSome = true := by
  unfold assignLayersFuel at h
  cases hst : layersDfsState fuel nodes edges with
  | none => rw [hst] at h; cases h
  | some st1 =>
    rw [hst] at h
    have h' : layersFill nodes st1.2 = L := by simpa using h
    subst h'
    rw [mapGet_isSome_iff, layersFill_mem_keys]
    exact Or.inr (List.mem_map.mpr ⟨n, hn, rfl⟩)

/-- Under the DiagramSpec invariant (edge targets reference existing
nodes), the key set of the returned layer map is exactly the node ids. -/
theorem assignLayersFuel_keys (fuel : ℕ) (nodes : List DiagramNode)
    (edges : List DiagramEdge) (L : JsMap String ℕ)
    (h : assignLayersFuel fuel nodes edges = some L)
    (hval : ∀ e ∈ edges, e.eto ∈ nodes.map (·.id)) :
    (∀ k, k ∈ mapKeys L ↔ k ∈ nodes.map (·.id)) ∧ (mapKeys L).Nodup := by
  unfold assignLayersFuel at h
  cases hst : layersDfsState fuel nodes edges with
  | none => rw [hst] at h; cases h
  | some st1 =>
    rw [hst] at h
    have h' : layersFill nodes st1.2 = L := by simpa using h
    subst h'
    obtain ⟨hsync, hnd⟩ := layersDfsState_sync fuel nodes edges st1 hst
    constructor
    · intro k
      rw [layersFill_mem_keys]
      constructor
      · rintro (hk | hk)
        · have hkv : k ∈ st1.1 := (hsync k).mpr hk
          obtain ⟨s, hs, hre⟩ := layersDfsState_sound fuel nodes edges st1 hst k hkv
          rcases reach_target edges s k hre with rfl | hk'
          · exact hs
          · rcases List.mem_map.mp hk' with ⟨e, he, rfl⟩
            exact hval e he
        · exact hk
      · intro hk
        exact Or.inr hk
    · exact layersFill_nodup nodes st1.2 hnd

/-- The chosen fuel is sufficient: any larger fuel computes the same DFS
state.  This is the termination argument for the source's unbounded
recursion. -/
theorem layersDfsState_stable (nodes : List DiagramNode) (edges : List DiagramEdge)
    (f : ℕ) (hf : dfsFuel nodes edges ≤ f) :
    layersDfsState f nodes edges = layersDfsState (dfsFuel nodes edges) nodes edges := by
  have hstep : ∀ (x : String), x ∈ idUniverse nodes edges →
      ∀ (st : List String × JsMap String ℕ),
      dfsA (graphChildren edges) layerRaise layerEnter f x 0 st =
      dfsA (graphChildren edges) layerRaise layerEnter (dfsFuel nodes edges) x 0 st := by
    intro x hx st
    obtain ⟨vis, s⟩ := st
    refine dfsA_stable _ _ _ (idUniverse nodes edges)
      (fun a c hc => graphChildren_mem_universe nodes edges a c hc)
      (visCard (idUniverse nodes edges) vis) f (dfsFuel nodes edges) x 0 vis s hx
      (le_refl _) ?_ ?_
    · have := visCard_le_fuel nodes edges vis
      omega
    · exact visCard_le_fuel nodes edges vis
  have hfold : ∀ (rs : List DiagramNode), (∀ r ∈ rs, r ∈ nodes) →
      ∀ (st : List String × JsMap String ℕ),
      rs.foldl (fun st r => dfsA (graphChildren edges) layerRaise layerEnter f r.id 0 st) st =
      rs.foldl (fun st r =>
        dfsA (graphChildren edges) layerRaise layerEnter (dfsFuel nodes edges) r.id 0 st) st := by
    intro rs
    induction rs with
    | nil => intro _ st; rfl
    | cons r rs ih =>
      intro hrs st
      rw [List.foldl_cons, List.foldl_cons,
        hstep r.id (node_mem_universe nodes edges r (hrs r (List.mem_cons_self r rs))) st]
      exact ih (fun r' hr' => hrs r' (List.mem_cons_of_mem r hr')) _
  unfold layersDfsState
  by_cases hr : (rootNodes nodes edges).length > 0
  · rw [if_pos hr, if_pos hr]
    rw [hfold (rootNodes nodes edges)
      (fun r hr' => ((mem_rootNodes nodes edges r).mp hr').1) _]
  · rw [if_neg hr, if_neg hr]
    cases nodes with
    | nil => rfl
    | cons n ns =>
      show some (dfsA (graphChildren edges) layerRaise layerEnter f n.id 0 ([], [])) =
        some (dfsA (graphChildren edges) layerRaise layerEnter
          (dfsFuel (n :: ns) edges) n.id 0 ([], []))
      rw [hstep n.id (node_mem_universe _ edges n (List.mem_cons_self n ns)) ([], [])]

/-- Any fuel at least `dfsFuel` computes `assignLayers`. -/
theorem assignLayersFuel_stable (nodes : List DiagramNode) (edges : List DiagramEdge)
    (f : ℕ) (hf : dfsFuel nodes edges ≤ f) :
    assignLayersFuel f nodes edges = assignLayers nodes edges := by
  unfold assignLayersFuel assignLayers assignLayersFuel
  rw [layersDfsState_stable nodes edges f hf]

/-- C6.  `anchorOnRect` anchoring correctness: for boxes of equal width
`w ≥ 0` and height `h ≥ 0` with centres `C1 = a + (w/2, h/2)` and
`C2 = b + (w/2, h/2)` (so `C2 - C1 = b - a`):
* identical centres return the centre of box 1;
* a zero-size box returns the centre (no NaN can arise: over `ℚ` the
  guarded divisions are total and every denominator the source divides by
  is made non-zero by its `|| 1` guards);
* when `|dx|·(h/2) > |dy|·(w/2)` the x-coordinate is `C1.x ± w/2` with
  the sign of `dx`, and the y-coordinate stays within `h/2` of `C1.y`;
* otherwise the y-coordinate is `C1.y ± h/2` (sign of `dy`, `+` when
  `dy = 0` — in that degenerate case `h/2 = 0`, so both readings agree),
  and the x-coordinate stays within `w/2` of `C1.x`. -/
theorem anchorOnRect_boundary (a b : LayoutPosition) (w h : ℚ)
    (hw : 0 ≤ w) (hh : 0 ≤ h) :
    (a = b → anchorOnRect a b w h = (a.1 + w / 2, a.2 + h / 2)) ∧
    (w = 0 ∧ h = 0 → anchorOnRect a b w h = (a.1 + w / 2, a.2 + h / 2)) ∧
    (a ≠ b → |b.1 - a.1| * (h / 2) > |b.2 - a.2| * (w / 2) →
      (anchorOnRect a b w h).1 =
        (a.1 + w / 2) + (if 0 < b.1 - a.1 then 1 else -1) * (w / 2) ∧
      |(anchorOnRect a b w h).2 - (a.2 + h / 2)| ≤ h / 2) ∧
    (a ≠ b → ¬(|b.1 - a.1| * (h / 2) > |b.2 - a.2| * (w / 2)) →
      (anchorOnRect a b w h).2 =
        (a.2 + h / 2) +
          (if 0 < b.2 - a.2 then 1 else if b.2 - a.2 < 0 then -1 else 1) * (h / 2) ∧
      |(anchorOnRect a b w h).1 - (a.1 + w / 2)| ≤ w / 2) := by
  have e1 : b.1 + w / 2 - (a.1 + w / 2) = b.1 - a.1 := by ring
  have e2 : b.2 + h / 2 - (a.2 + h / 2) = b.2 - a.2 := by ring
  have hab_iff : (b.1 - a.1 = 0 ∧ b.2 - a.2 = 0) ↔ a = b := by
    rw [Prod.ext_iff]
    constructor
    · rintro ⟨h1, h2⟩
      constructor
      · linarith
      · linarith
    · rintro ⟨h1, h2⟩
      constructor
      · rw [h1]; ring
      · rw [h2]; ring
  refine ⟨?_, ?_, ?_, ?_⟩
  · -- identical positions (hence identical centres)
    intro hab
    subst hab
    simp [anchorOnRect]
  · -- zero-size box
    rintro ⟨hw0, hh0⟩
    subst hw0
    subst hh0
    simp only [anchorOnRect, e1, e2]
    by_cases hz : b.1 - a.1 = 0 ∧ b.2 - a.2 = 0
    · rw [if_pos hz]
    · rw [if_neg hz]
      have hc : ¬(|b.1 - a.1| * ((0 : ℚ) / 2) > |b.2 - a.2| * ((0 : ℚ) / 2)) := by
        norm_num
      rw [if_neg hc]
      simp only [Prod.mk.injEq]
      constructor
      · norm_num
      · norm_num
  · -- more horizontal than vertical
    intro hab hgt
    have hz : ¬(b.1 - a.1 = 0 ∧ b.2 - a.2 = 0) := fun hc => hab (hab_iff.mp hc)
    have hdxpos : 0 < |b.1 - a.1| := by
      rcases abs_nonneg (b.1 - a.1) |>.lt_or_eq with hlt | heq
      · exact hlt
      · exfalso
        have h0 : |b.1 - a.1| = 0 := heq.symm
        rw [h0] at hgt
        have := abs_nonneg (b.2 - a.2)
        nlinarith [mul_nonneg (abs_nonneg (b.2 - a.2)) (by linarith : (0:ℚ) ≤ w / 2)]
    have hdxne : b.1 - a.1 ≠ 0 := fun hc => by
      rw [hc] at hdxpos; simp at hdxpos
    have habs : ¬(|b.1 - a.1| = 0) := by
      intro hc; rw [hc] at hdxpos; exact lt_irrefl 0 hdxpos
    simp only [anchorOnRect, e1, e2]
    rw [if_neg hz, if_pos hgt, if_neg habs]
    constructor
    · -- x lands on the left or right edge
      rcases lt_trichotomy (b.1 - a.1) 0 with hlt | heq | hgt'
      · rw [if_neg (by linarith : ¬(0 < b.1 - a.1))]
        have : mathSign (b.1 - a.1) = -1 := by
          unfold mathSign
          rw [if_neg (by linarith : ¬(b.1 - a.1 > 0)), if_pos hlt]
        rw [this]
        norm_num
      · exact absurd heq hdxne
      · rw [if_pos hgt']
        have : mathSign (b.1 - a.1) = 1 := by
          unfold mathSign
          rw [if_pos hgt']
        rw [this]
        norm_num
    · -- y interpolated within the edge
      rw [add_sub_cancel_left, abs_mul]
      have hq : abs (w / 2 / abs (b.1 - a.1)) = w / 2 / abs (b.1 - a.1) :=
        abs_of_nonneg (div_nonneg (by linarith) (le_of_lt hdxpos))
      rw [hq, ← mul_div_assoc, div_le_iff₀ hdxpos]
      nlinarith [hgt]
  · -- more vertical than horizontal (or tied)
    intro hab hle
    have hz : ¬(b.1 - a.1 = 0 ∧ b.2 - a.2 = 0) := fun hc => hab (hab_iff.mp hc)
    simp only [anchorOnRect, e1, e2]
    rw [if_neg hz, if_neg hle]
    by_cases hdy : b.2 - a.2 = 0
    · -- dy = 0: forced degenerate (|dx|·h/2 = 0), the default sign is +1
      have hdx0 : |b.1 - a.1| * (h / 2) = 0 := by
        rw [hdy] at hle
        simp only [abs_zero, zero_mul] at hle
        have h1 : 0 ≤ |b.1 - a.1| * (h / 2) :=
          mul_nonneg (abs_nonneg _) (by linarith)
        linarith [not_lt.mp hle]
      have habs : |b.2 - a.2| = 0 := by rw [hdy]; exact abs_zero
      rw [if_pos habs]
      constructor
      · have hs : mathSign (b.2 - a.2) = 0 := by
          unfold mathSign
          rw [hdy]
          norm_num
        rw [hs, if_pos rfl, if_neg (by rw [hdy]; exact lt_irrefl 0),
          if_neg (by rw [hdy]; exact lt_irrefl 0)]
      · rw [add_sub_cancel_left, abs_mul]
        have h1 : abs (h / 2 / 1) = h / 2 := by
          rw [div_one]
          exact abs_of_nonneg (by linarith)
        rw [h1]
        linarith [hdx0, hw]
    · -- dy ≠ 0
      have hdypos : 0 < |b.2 - a.2| := abs_pos.mpr hdy
      have habs : ¬(|b.2 - a.2| = 0) := fun hc => by
        rw [hc] at hdypos; exact lt_irrefl 0 hdypos
      rw [if_neg habs]
      constructor
      · rcases lt_trichotomy (b.2 - a.2) 0 with hlt | heq | hgt'
        · rw [if_neg (by linarith : ¬(0 < b.2 - a.2)), if_pos hlt]
          have hs : mathSign (b.2 - a.2) = -1 := by
            unfold mathSign
            rw [if_neg (by linarith : ¬(b.2 - a.2 > 0)), if_pos hlt]
          rw [hs]
          norm_num
        · exact absurd heq hdy
        · rw [if_pos hgt']
          have hs : mathSign (b.2 - a.2) = 1 := by
            unfold mathSign
            rw [if_pos hgt']
          rw [hs]
          norm_num
      · rw [add_sub_cancel_left, abs_mul]
        have hq : abs (h / 2 / abs (b.2 - a.2)) = h / 2 / abs (b.2 - a.2) :=
          abs_of_nonneg (div_nonneg (by linarith) (le_of_lt hdypos))
        rw [hq, ← mul_div_assoc, div_le_iff₀ hdypos]
        nlinarith [not_lt.mp hle]

/-- Witness for `anchorOnRect_boundary` at boxes `20 × 10` anchored at
`(0,0)` and `(100,0)`. -/
theorem anchorOnRect_boundary_witness :
    ((((0 : ℚ), (0 : ℚ)) : LayoutPosition) = (((100 : ℚ), (0 : ℚ)) : LayoutPosition) →
      anchorOnRect ((0 : ℚ), (0 : ℚ)) ((100 : ℚ), (0 : ℚ)) 20 10 =
        ((((0 : ℚ), (0 : ℚ)) : LayoutPosition).1 + 20 / 2,
         (((0 : ℚ), (0 : ℚ)) : LayoutPosition).2 + 10 / 2)) ∧
    ((20 : ℚ) = 0 ∧ (10 : ℚ) = 0 →
      anchorOnRect ((0 : ℚ), (0 : ℚ)) ((100 : ℚ), (0 : ℚ)) 20 10 =
        ((((0 : ℚ), (0 : ℚ)) : LayoutPosition).1 + 20 / 2,
         (((0 : ℚ), (0 : ℚ)) : LayoutPosition).2 + 10 / 2)) ∧
    ((((0 : ℚ), (0 : ℚ)) : LayoutPosition) ≠ (((100 : ℚ), (0 : ℚ)) : LayoutPosition) →
      |(((100 : ℚ), (0 : ℚ)) : LayoutPosition).1 - (((0 : ℚ), (0 : ℚ)) : LayoutPosition).1| * (10 / 2) >
        |(((100 : ℚ), (0 : ℚ)) : LayoutPosition).2 - (((0 : ℚ), (0 : ℚ)) : LayoutPosition).2| * (20 / 2) →
      (anchorOnRect ((0 : ℚ), (0 : ℚ)) ((100 : ℚ), (0 : ℚ)) 20 10).1 =
        ((((0 : ℚ), (0 : ℚ)) : LayoutPosition).1 + 20 / 2) +
          (if 0 < (((100 : ℚ), (0 : ℚ)) : LayoutPosition).1 - (((0 : ℚ), (0 : ℚ)) : LayoutPosition).1
            then 1 else -1) * (20 / 2) ∧
      |(anchorOnRect ((0 : ℚ), (0 : ℚ)) ((100 : ℚ), (0 : ℚ)) 20 10).2 -
        ((((0 : ℚ), (0 : ℚ)) : LayoutPosition).2 + 10 / 2)| ≤ 10 / 2) ∧
    ((((0 : ℚ), (0 : ℚ)) : LayoutPosition) ≠ (((100 : ℚ), (0 : ℚ)) : LayoutPosition) →
      ¬(|(((100 : ℚ), (0 : ℚ)) : LayoutPosition).1 - (((0 : ℚ), (0 : ℚ)) : LayoutPosition).1| * (10 / 2) >
        |(((100 : ℚ), (0 : ℚ)) : LayoutPosition).2 - (((0 : ℚ), (0 : ℚ)) : LayoutPosition).2| * (20 / 2)) →
      (anchorOnRect ((0 : ℚ), (0 : ℚ)) ((100 : ℚ), (0 : ℚ)) 20 10).2 =
        ((((0 : ℚ), (0 : ℚ)) : LayoutPosition).2 + 10 / 2) +
          (if 0 < (((100 : ℚ), (0 : ℚ)) : LayoutPosition).2 - (((0 : ℚ), (0 : ℚ)) : LayoutPosition).2
            then 1
            else if (((100 : ℚ), (0 : ℚ)) : LayoutPosition).2 - (((0 : ℚ), (0 : ℚ)) : LayoutPosition).2 < 0
              then -1 else 1) * (10 / 2) ∧
      |(anchorOnRect ((0 : ℚ), (0 : ℚ)) ((100 : ℚ), (0 : ℚ)) 20 10).1 -
        ((((0 : ℚ), (0 : ℚ)) : LayoutPosition).1 + 20 / 2)| ≤ 20 / 2) :=
  anchorOnRect_boundary ((0 : ℚ), (0 : ℚ)) ((100 : ℚ), (0 : ℚ)) 20 10
    (by norm_num) (by norm_num)

/-- C5 (amended: the node list must be non-empty — see
`assignLayers_throws_on_empty`).  For every non-empty node list and every
edge list — cycles included — `assignLayers` terminates and returns a
complete assignment: (i) it succeeds and every input node receives a
(`ℕ`-valued, hence finite and non-negative) layer; (ii) the chosen fuel
is sufficient — any larger fuel computes the same result, so the
source's unbounded recursion terminates with this value (a visited node
is never re-expanded); (iii) a revisit only ever raises a node's layer,
to the maximum of the old and new values. -/
theorem assignLayers_terminates_and_covers (nodes : List DiagramNode)
    (edges : List DiagramEdge) (hne : nodes ≠ []) :
    (∃ L, assignLayers nodes edges = some L ∧
      ∀ n ∈ nodes, ∃ l : ℕ, mapGet L n.id = some l) ∧
    (∀ f, dfsFuel nodes edges ≤ f →
      assignLayersFuel f nodes edges = assignLayers nodes edges) ∧
    (∀ (x : String) (d : ℕ) (m : JsMap String ℕ) (c : ℕ), mapGet m x = some c →
      mapGet (layerRaise x d m) x = some (max c d)) := by
  refine ⟨?_, ?_, ?_⟩
  · obtain ⟨L, hL⟩ := assignLayersFuel_isSome (dfsFuel nodes edges) nodes edges hne
    refine ⟨L, hL, ?_⟩
    intro n hn
    have := assignLayersFuel_covers (dfsFuel nodes edges) nodes edges L hL n hn
    cases hg : mapGet L n.id with
    | none => rw [hg] at this; cases this
    | some l => exact ⟨l, rfl⟩
  · intro f hf
    exact assignLayersFuel_stable nodes edges f hf
  · intro x d m c hc
    unfold layerRaise
    rw [hc]
    by_cases hgt : d > (some c).getD 0
    · rw [if_pos hgt, mapGet_mapSet_self]
      simp only [Option.getD_some] at hgt
      rw [Nat.max_eq_right (le_of_lt hgt)]
    · rw [if_neg hgt, hc]
      simp only [Option.getD_some] at hgt
      rw [Nat.max_eq_left (not_lt.mp hgt)]

/-- Witness for `assignLayers_terminates_and_covers` on the cycle
`A→B→C→A`. -/
theorem assignLayers_terminates_and_covers_witness :
    ((∃ L, assignLayers cycNodes cycEdges = some L ∧
      ∀ n ∈ cycNodes, ∃ l : ℕ, mapGet L n.id = some l) ∧
    (∀ f, dfsFuel cycNodes cycEdges ≤ f →
      assignLayersFuel f cycNodes cycEdges = assignLayers cycNodes cycEdges) ∧
    (∀ (x : String) (d : ℕ) (m : JsMap String ℕ) (c : ℕ), mapGet m x = some c →
      mapGet (layerRaise x d m) x = some (max c d))) :=
  assignLayers_terminates_and_covers cycNodes cycEdges (by decide)

/-! ## Indexed folds over `enum` -/

theorem enum_map_key (l : List DiagramNode) :
    l.enum.map (fun p => p.2.id) = l.map (·.id) := by
  have h : (fun p : ℕ × DiagramNode => p.2.id) =
      (fun n : DiagramNode => n.id) ∘ Prod.snd := rfl
  rw [h, ← List.map_map, List.enum_eq_enumFrom, List.enumFrom_map_snd]

theorem mem_enum_of_lt (l : List DiagramNode) (i : ℕ) (hi : i < l.length) :
    (i, l[i]) ∈ l.enum := by
  rw [List.enum_eq_enumFrom]
  have hlen : i < (l.enumFrom 0).length := by
    rw [List.enumFrom_length]; exact hi
  have hget := List.getElem_enumFrom l 0 i hlen
  have hmem := List.getElem_mem hlen
  rw [hget] at hmem
  simpa using hmem

/-- `ceilSqrt` is the ceiling of the square root. -/
theorem ceilSqrt_spec (n : ℕ) :
    n ≤ ceilSqrt n * ceilSqrt n ∧
    (1 ≤ n → (ceilSqrt n - 1) * (ceilSqrt n - 1) < n) := by
  unfold ceilSqrt
  by_cases hsq : Nat.sqrt n * Nat.sqrt n = n
  · rw [if_pos hsq]
    refine ⟨le_of_eq hsq.symm, ?_⟩
    intro hn
    have hs : 1 ≤ Nat.sqrt n := by
      rcases Nat.eq_zero_or_pos (Nat.sqrt n) with h0 | h1
      · rw [h0] at hsq; omega
      · exact h1
    obtain ⟨t, ht⟩ : ∃ t, Nat.sqrt n = t + 1 := ⟨Nat.sqrt n - 1, by omega⟩
    rw [ht] at hsq
    rw [ht]
    have hexp : (t + 1) * (t + 1) = t * t + 2 * t + 1 := by ring
    have hsub : t + 1 - 1 = t := by omega
    rw [hsub]
    omega
  · rw [if_neg hsq]
    have hlt := Nat.lt_succ_sqrt' n
    have hle := Nat.sqrt_le' n
    rw [pow_two, Nat.succ_eq_add_one] at hlt
    rw [pow_two] at hle
    have hsub : Nat.sqrt n + 1 - 1 = Nat.sqrt n := by omega
    constructor
    · omega
    · intro _
      rw [hsub]
      omega

/-- Positions of the grid strategy: row-major with `ceilSqrt n` columns. -/
theorem layoutGridC_get (startX startY hSpace vSpace : ℚ) (nodes : List DiagramNode)
    (edges : List DiagramEdge) (hnd : (nodes.map (·.id)).Nodup)
    (i : ℕ) (hi : i < nodes.length) :
    mapGet (layoutGridC startX startY hSpace vSpace nodes edges) (nodes[i].id) =
      some (startX + ((i % ceilSqrt nodes.length : ℕ) : ℚ) * hSpace,
            startY + ((i / ceilSqrt nodes.length : ℕ) : ℚ) * vSpace) := by
  have hnd' : (nodes.enum.map (fun p => p.2.id)).Nodup := by
    rw [enum_map_key]; exact hnd
  have hmem := mem_enum_of_lt nodes i hi
  simpa using foldl_mapSet_get_of_nodup (fun p : ℕ × DiagramNode => p.2.id)
    (fun p : ℕ × DiagramNode =>
      ((startX + ((p.1 % ceilSqrt nodes.length : ℕ) : ℚ) * hSpace,
        startY + ((p.1 / ceilSqrt nodes.length : ℕ) : ℚ) * vSpace) : LayoutPosition))
    nodes.enum [] (i, nodes[i]) hnd' hmem

/-- C8.  The entity-relationship and class-diagram layouts place the node
at input index `i` in a row-major grid of `ceilSqrt n` columns (the
ceiling of `√n`, third and fourth conjuncts), at the grid origin plus
`(i mod cols) · hSpace` in x and `(i div cols) · vSpace` in y
(cell spacing 600×400 for entity-relationship, 500×350 for
class-diagram), independent of the edge list (last two conjuncts). -/
theorem grid_layouts_row_major (nodes : List DiagramNode)
    (edges1 edges2 : List DiagramEdge) (hnd : (nodes.map (·.id)).Nodup)
    (i : ℕ) (hi : i < nodes.length) :
    mapGet (P11.layoutEntityRelationship nodes edges1) (nodes[i].id) =
      some (300 + ((i % ceilSqrt nodes.length : ℕ) : ℚ) * 600,
            200 + ((i / ceilSqrt nodes.length : ℕ) : ℚ) * 400) ∧
    mapGet (P11.layoutClassDiagram nodes edges1) (nodes[i].id) =
      some (300 + ((i % ceilSqrt nodes.length : ℕ) : ℚ) * 500,
            200 + ((i / ceilSqrt nodes.length : ℕ) : ℚ) * 350) ∧
    nodes.length ≤ ceilSqrt nodes.length * ceilSqrt nodes.length ∧
    (ceilSqrt nodes.length - 1) * (ceilSqrt nodes.length - 1) < nodes.length ∧
    P11.layoutEntityRelationship nodes edges1 = P11.layoutEntityRelationship nodes edges2 ∧
    P11.layoutClassDiagram nodes edges1 = P11.layoutClassDiagram nodes edges2 := by
  refine ⟨layoutGridC_get 300 200 600 400 nodes edges1 hnd i hi,
    layoutGridC_get 300 200 500 350 nodes edges1 hnd i hi,
    (ceilSqrt_spec nodes.length).1,
    (ceilSqrt_spec nodes.length).2 (by omega),
    rfl, rfl⟩

/-- Witness for `grid_layouts_row_major` on a five-node list (three
columns), at index 4 (row 1, column 1). -/
theorem grid_layouts_row_major_witness :
    mapGet (P11.layoutEntityRelationship
        [exNode "A", exNode "B", exNode "C", exNode "D", exNode "E"] []) (exNode "E").id =
      some (300 + ((4 % ceilSqrt 5 : ℕ) : ℚ) * 600,
            200 + ((4 / ceilSqrt 5 : ℕ) : ℚ) * 400) ∧
    mapGet (P11.layoutClassDiagram
        [exNode "A", exNode "B", exNode "C", exNode "D", exNode "E"] []) (exNode "E").id =
      some (300 + ((4 % ceilSqrt 5 : ℕ) : ℚ) * 500,
            200 + ((4 / ceilSqrt 5 : ℕ) : ℚ) * 350) ∧
    (5 : ℕ) ≤ ceilSqrt 5 * ceilSqrt 5 ∧
    (ceilSqrt 5 - 1) * (ceilSqrt 5 - 1) < 5 ∧
    P11.layoutEntityRelationship
        [exNode "A", exNode "B", exNode "C", exNode "D", exNode "E"] [] =
      P11.layoutEntityRelationship
        [exNode "A", exNode "B", exNode "C", exNode "D", exNode "E"] [exEdge "A" "B"] ∧
    P11.layoutClassDiagram
        [exNode "A", exNode "B", exNode "C", exNode "D", exNode "E"] [] =
      P11.layoutClassDiagram
        [exNode "A", exNode "B", exNode "C", exNode "D", exNode "E"] [exEdge "A" "B"] :=
  grid_layouts_row_major [exNode "A", exNode "B", exNode "C", exNode "D", exNode "E"]
    [] [exEdge "A" "B"] (by decide) 4 (by decide)

/-- C9.  When every node has an incoming edge (no start node, e.g. a pure
cycle), `layoutSequence` places all nodes in one horizontal row in input
order: the node at index `i` gets `x = startX + i · horizontalSpacing`
and every node shares `y = startY` (`diagramConverter.ts` constants:
`startX = 150`, `horizontalSpacing = 400`, `startY = 300`). -/
theorem layoutSequence_no_start_row (nodes : List DiagramNode)
    (edges : List DiagramEdge) (hnd : (nodes.map (·.id)).Nodup)
    (hall : ∀ n ∈ nodes, n.id ∈ incomingIds edges)
    (i : ℕ) (hi : i < nodes.length) :
    mapGet (DC.layoutSequence nodes edges) (nodes[i].id) =
      some (150 + (i : ℚ) * 400, 300) := by
  have hroots : (rootNodes nodes edges).length = 0 := by
    have hnil : rootNodes nodes edges = [] := by
      unfold rootNodes
      rw [List.filter_eq_nil_iff]
      intro n hn
      simp only [decide_eq_true_eq, Decidable.not_not]
      exact hall n hn
    rw [hnil]
    rfl
  unfold DC.layoutSequence layoutSequenceC
  rw [if_pos hroots]
  have hnd' : (nodes.enum.map (fun p => p.2.id)).Nodup := by
    rw [enum_map_key]; exact hnd
  have hmem := mem_enum_of_lt nodes i hi
  simpa using foldl_mapSet_get_of_nodup (fun p : ℕ × DiagramNode => p.2.id)
    (fun p : ℕ × DiagramNode => ((150 + (p.1 : ℚ) * 400, 300) : LayoutPosition))
    nodes.enum [] (i, nodes[i]) hnd' hmem

/-- Witness for `layoutSequence_no_start_row` on the cycle `A→B→C→A`. -/
theorem layoutSequence_no_start_row_witness :
    mapGet (DC.layoutSequence cycNodes cycEdges) (exNode "B").id =
      some (150 + ((1 : ℕ) : ℚ) * 400, 300) :=
  layoutSequence_no_start_row cycNodes cycEdges (by decide) (by decide) 1 (by decide)

/-! ## Key-set coverage of the remaining strategies -/

/-- Generic visited/keys synchronisation for map-valued DFS payloads. -/
theorem dfsA_sync {α : Type} (children : String → List String)
    (onRevisit : String → ℕ → JsMap String α → JsMap String α)
    (onEnter : String → ℕ → List String → JsMap String α → JsMap String α)
    (hR : ∀ x d s, x ∈ mapKeys s → mapKeys (onRevisit x d s) = mapKeys s)
    (hE : ∀ x d vis s, mapKeys (onEnter x d vis s) =
      if x ∈ mapKeys s then mapKeys s else mapKeys s ++ [x])
    (fuel : ℕ) (x : String) (d : ℕ) (st : List String × JsMap String α)
    (h : (∀ y, y ∈ st.1 ↔ y ∈ mapKeys st.2) ∧ (mapKeys st.2).Nodup) :
    (∀ y, y ∈ (dfsA children onRevisit onEnter fuel x d st).1 ↔
        y ∈ mapKeys (dfsA children onRevisit onEnter fuel x d st).2) ∧
    (mapKeys (dfsA children onRevisit onEnter fuel x d st).2).Nodup := by
  refine dfsA_pres _ _ _
    (fun st => (∀ y, y ∈ st.1 ↔ y ∈ mapKeys st.2) ∧ (mapKeys st.2).Nodup)
    ?_ ?_ fuel x d st h
  · intro x d vis s hx hP
    obtain ⟨hiff, hnd⟩ := hP
    have hk := hR x d s ((hiff x).mp hx)
    exact ⟨fun y => by rw [hk]; exact hiff y, by rw [hk]; exact hnd⟩
  · intro x d vis s hx hP
    obtain ⟨hiff, hnd⟩ := hP
    have hxk : x ∉ mapKeys s := fun hc => hx ((hiff x).mpr hc)
    have hk := hE x d (x :: vis) s
    rw [if_neg hxk] at hk
    constructor
    · intro y
      rw [List.mem_cons, hk, List.mem_append, List.mem_singleton, hiff y, or_comm]
    · rw [hk]
      simpa [List.nodup_append] using ⟨hnd, hxk⟩

/-- Everything visited by a fold of DFS calls over start nodes is
reachable from one of them. -/
theorem startFold_sound {σ : Type} (children : String → List String)
    (onRevisit : String → ℕ → σ → σ) (onEnter : String → ℕ → List String → σ → σ)
    (starts : List DiagramNode) (fuel : ℕ) (s0 : σ) (y : String)
    (hy : y ∈ (starts.foldl
      (fun st r => dfsA children onRevisit onEnter fuel r.id 0 st) ([], s0)).1) :
    ∃ r, r ∈ starts ∧ Reach children r.id y := by
  refine foldl_pres
    (fun st : List String × σ => ∀ y ∈ st.1, ∃ r, r ∈ starts ∧ Reach children r.id y)
    _ starts _ (by intro y hy; cases hy) ?_ y hy
  intro st r hP hr
  obtain ⟨vis', s'⟩ := st
  intro y hy
  rcases dfsA_sound _ _ _ fuel r.id 0 vis' s' y hy with hy' | hre
  · exact hP y hy'
  · exact ⟨r, hr, hre⟩

/-- Keys of a plain `mapSet` fold over `enum` are exactly the node ids. -/
theorem enumFold_mem_keys (val : ℕ × DiagramNode → LayoutPosition)
    (nodes : List DiagramNode) (k : String) :
    k ∈ mapKeys (nodes.enum.foldl (fun m p => mapSet m p.2.id (val p)) []) ↔
      k ∈ nodes.map (·.id) := by
  rw [foldl_mapSet_mem_keys (fun p : ℕ × DiagramNode => p.2.id) val nodes.enum [] k]
  rw [enum_map_key]
  simp [mapKeys]

theorem enumFold_keys_nodup (val : ℕ × DiagramNode → LayoutPosition)
    (nodes : List DiagramNode) :
    (mapKeys (nodes.enum.foldl (fun m p => mapSet m p.2.id (val p)) [])).Nodup :=
  foldl_mapSet_keys_nodup (fun p : ℕ × DiagramNode => p.2.id) val nodes.enum []
    (by simp [mapKeys])

/-- Keys of the trailing conditional fold of `layoutSequence`. -/
theorem seqFill_mem_keys (vis : List String) (val : ℕ × DiagramNode → LayoutPosition) :
    ∀ (l : List (ℕ × DiagramNode)) (m : JsMap String LayoutPosition) (k : String),
      k ∈ mapKeys (l.foldl
        (fun m p => if p.2.id ∈ vis then m else mapSet m p.2.id (val p)) m) ↔
      k ∈ mapKeys m ∨ (k ∈ l.map (fun p => p.2.id) ∧ k ∉ vis) := by
  intro l
  induction l with
  | nil => intro m k; simp
  | cons p l ih =>
    intro m k
    rw [List.foldl_cons]
    by_cases hp : p.2.id ∈ vis
    · rw [if_pos hp, ih]
      simp only [List.map_cons, List.mem_cons]
      constructor
      · rintro (h | ⟨h1, h2⟩)
        · exact Or.inl h
        · exact Or.inr ⟨Or.inr h1, h2⟩
      · rintro (h | ⟨h1 | h1, h2⟩)
        · exact Or.inl h
        · exact absurd (h1 ▸ hp) h2
        · exact Or.inr ⟨h1, h2⟩
    · rw [if_neg hp, ih]
      simp only [List.map_cons, List.mem_cons, mem_mapKeys_mapSet]
      constructor
      · rintro ((h | h) | ⟨h1, h2⟩)
        · exact Or.inr ⟨Or.inl h, h ▸ hp⟩
        · exact Or.inl h
        · exact Or.inr ⟨Or.inr h1, h2⟩
      · rintro (h | ⟨h1 | h1, h2⟩)
        · exact Or.inl (Or.inr h)
        · exact Or.inl (Or.inl h1)
        · exact Or.inr ⟨h1, h2⟩

theorem seqFill_keys_nodup (vis : List String) (val : ℕ × DiagramNode → LayoutPosition) :
    ∀ (l : List (ℕ × DiagramNode)) (m : JsMap String LayoutPosition),
      (mapKeys m).Nodup →
      (mapKeys (l.foldl
        (fun m p => if p.2.id ∈ vis then m else mapSet m p.2.id (val p)) m)).Nodup := by
  intro l
  induction l with
  | nil => intro m h; exact h
  | cons p l ih =>
    intro m h
    rw [List.foldl_cons]
    by_cases hp : p.2.id ∈ vis
    · rw [if_pos hp]; exact ih m h
    · rw [if_neg hp]; exact ih _ (mapKeys_mapSet_nodup _ _ _ h)

/-- Flattened membership through `pushAtLevel`. -/
theorem pushAtLevel_flatten_mem (x : DiagramNode) :
    ∀ (levels : List (List DiagramNode)) (l : ℕ) (node : DiagramNode),
      x ∈ (pushAtLevel levels l node).flatten ↔ x ∈ levels.flatten ∨ x = node := by
  intro levels
  induction levels with
  | nil =>
    intro l node
    induction l with
    | zero => simp [pushAtLevel]
    | succ l ihl => simpa [pushAtLevel] using ihl
  | cons lvl rest ih =>
    intro l node
    cases l with
    | zero =>
      simp only [pushAtLevel, List.flatten_cons, List.mem_append, List.mem_singleton]
      tauto
    | succ l =>
      simp only [pushAtLevel, List.flatten_cons, List.mem_append, ih l node]
      tauto

/-- An entry of `mapSet` is the new binding or an old entry. -/
theorem mapSet_entry_cases {κ α : Type} [DecidableEq κ] (m : JsMap κ α) (k : κ) (v : α)
    (p : κ × α) (hp : p ∈ mapSet m k v) : p = (k, v) ∨ p ∈ m := by
  induction m with
  | nil => simpa [mapSet] using hp
  | cons q m ih =>
    by_cases hq : q.1 = k
    · rw [mapSet, if_pos hq] at hp
      rcases List.mem_cons.mp hp with rfl | hp'
      · exact Or.inl rfl
      · exact Or.inr (List.mem_cons_of_mem q hp')
    · rw [mapSet, if_neg hq] at hp
      rcases List.mem_cons.mp hp with rfl | hp'
      · exact Or.inr (List.mem_cons_self _ _)
      · rcases ih hp' with h | h
        · exact Or.inl h
        · exact Or.inr (List.mem_cons_of_mem q h)

/-- A successful `mapGet` exhibits an entry. -/
theorem mapGet_some_mem {κ α : Type} [DecidableEq κ] (m : JsMap κ α) (k : κ) (v : α)
    (h : mapGet m k = some v) : (k, v) ∈ m := by
  unfold mapGet at h
  cases hf : m.find? (fun p => decide (p.1 = k)) with
  | none => rw [hf] at h; cases h
  | some p =>
    rw [hf] at h
    have hmem := List.mem_of_find?_eq_some hf
    have hkey := List.find?_some hf
    simp only [decide_eq_true_eq] at hkey
    simp only [Option.map_some', Option.some_inj] at h
    have : p = (k, v) := by
      obtain ⟨p1, p2⟩ := p
      simp only at hkey h
      rw [hkey, h]
    rw [this] at hmem
    exact hmem

/-- Key membership for the nested positioning folds of `layoutDeployment`
and `layoutTree` (outer fold over `(ℕ × List DiagramNode)` rows, inner
`mapSet` fold over each row's `enum`). -/
theorem nestedFold_mem_keys (val : ℕ × List DiagramNode → ℕ × DiagramNode → LayoutPosition) :
    ∀ (gs : List (ℕ × List DiagramNode)) (pos : JsMap String LayoutPosition) (k : String),
      k ∈ mapKeys (gs.foldl (fun pos g =>
        g.2.enum.foldl (fun pos np => mapSet pos np.2.id (val g np)) pos) pos) ↔
      k ∈ mapKeys pos ∨ ∃ g ∈ gs, k ∈ g.2.map (·.id) := by
  intro gs
  induction gs with
  | nil => intro pos k; simp
  | cons g gs ih =>
    intro pos k
    rw [List.foldl_cons, ih]
    rw [foldl_mapSet_mem_keys (fun np : ℕ × DiagramNode => np.2.id) (val g) g.2.enum pos k]
    rw [enum_map_key]
    constructor
    · rintro ((h | h) | ⟨g', hg', hk⟩)
      · exact Or.inl h
      · exact Or.inr ⟨g, List.mem_cons_self _ _, h⟩
      · exact Or.inr ⟨g', List.mem_cons_of_mem g hg', hk⟩
    · rintro (h | ⟨g', hg', hk⟩)
      · exact Or.inl (Or.inl h)
      · rcases List.mem_cons.mp hg' with rfl | hg''
        · exact Or.inl (Or.inr hk)
        · exact Or.inr ⟨g', hg'', hk⟩

theorem nestedFold_keys_nodup (val : ℕ × List DiagramNode → ℕ × DiagramNode → LayoutPosition) :
    ∀ (gs : List (ℕ × List DiagramNode)) (pos : JsMap String LayoutPosition),
      (mapKeys pos).Nodup →
      (mapKeys (gs.foldl (fun pos g =>
        g.2.enum.foldl (fun pos np => mapSet pos np.2.id (val g np)) pos) pos)).Nodup := by
  intro gs
  induction gs with
  | nil => intro pos h; exact h
  | cons g gs ih =>
    intro pos h
    rw [List.foldl_cons]
    exact ih _ (foldl_mapSet_keys_nodup (fun np : ℕ × DiagramNode => np.2.id)
      (val g) g.2.enum pos h)

/-- Key-set coverage of `layoutSequenceC`: exactly the node ids, when
edge targets reference existing nodes. -/
theorem layoutSequenceC_keys (startX startY hSpace vSpace : ℚ)
    (nodes : List DiagramNode) (edges : List DiagramEdge)
    (hval : ∀ e ∈ edges, e.eto ∈ nodes.map (·.id)) :
    (∀ k, k ∈ mapKeys (layoutSequenceC startX startY hSpace vSpace nodes edges) ↔
      k ∈ nodes.map (·.id)) ∧
    (mapKeys (layoutSequenceC startX startY hSpace vSpace nodes edges)).Nodup := by
  simp only [layoutSequenceC]
  by_cases hroots : (rootNodes nodes edges).length = 0
  · rw [if_pos hroots]
    exact ⟨fun k => enumFold_mem_keys _ nodes k, enumFold_keys_nodup _ nodes⟩
  · rw [if_neg hroots]
    set st1 := (rootNodes nodes edges).foldl
      (fun st r => dfsA (graphChildren edges) (fun _ _ m => m)
        (seqEnter startX startY hSpace vSpace) (dfsFuel nodes edges) r.id 0 st)
      (([], []) : List String × JsMap String LayoutPosition) with hst1
    have hsync : (∀ y, y ∈ st1.1 ↔ y ∈ mapKeys st1.2) ∧ (mapKeys st1.2).Nodup := by
      rw [hst1]
      refine foldl_pres
        (fun st : List String × JsMap String LayoutPosition =>
          (∀ y, y ∈ st.1 ↔ y ∈ mapKeys st.2) ∧ (mapKeys st.2).Nodup)
        _ (rootNodes nodes edges) _ ⟨by simp [mapKeys], by simp [mapKeys]⟩ ?_
      intro st r hP _
      refine dfsA_sync (graphChildren edges) _ _ ?_ ?_ (dfsFuel nodes edges) r.id 0 st hP
      · intro x d s hx; rfl
      · intro x d vis s
        simp only [seqEnter]
        rw [mapKeys_mapSet]
    have hsound : ∀ y ∈ st1.1, y ∈ nodes.map (·.id) := by
      intro y hy
      rw [hst1] at hy
      obtain ⟨r, hr, hre⟩ := startFold_sound _ _ _ (rootNodes nodes edges)
        (dfsFuel nodes edges) [] y hy
      rcases reach_target edges r.id y hre with rfl | hy'
      · exact List.mem_map.mpr ⟨r, ((mem_rootNodes nodes edges r).mp hr).1, rfl⟩
      · rcases List.mem_map.mp hy' with ⟨e, he, rfl⟩
        exact hval e he
    constructor
    · intro k
      rw [seqFill_mem_keys st1.1
        (fun p : ℕ × DiagramNode =>
          ((startX + 2 * hSpace, startY + (p.1 : ℚ) * vSpace) : LayoutPosition))
        nodes.enum st1.2 k, enum_map_key]
      constructor
      · rintro (h | ⟨h1, _⟩)
        · exact hsound k ((hsync.1 k).mpr h)
        · exact h1
      · intro hk
        by_cases hkv : k ∈ st1.1
        · exact Or.inl ((hsync.1 k).mp hkv)
        · exact Or.inr ⟨hk, hkv⟩
    · exact seqFill_keys_nodup st1.1 _ nodes.enum st1.2 hsync.2

/-- Key-set coverage of `layoutDirectedGraphC`. -/
theorem layoutDirectedGraphC_keys (centerX centerY hSpace vSpace : ℚ)
    (nodes : List DiagramNode) (edges : List DiagramEdge) (hne : nodes ≠ [])
    (hval : ∀ e ∈ edges, e.eto ∈ nodes.map (·.id)) :
    ∃ m, layoutDirectedGraphC centerX centerY hSpace vSpace nodes edges = some m ∧
      (∀ k, k ∈ mapKeys m ↔ k ∈ nodes.map (·.id)) ∧ (mapKeys m).Nodup := by
  obtain ⟨L, hL⟩ := assignLayersFuel_isSome (dfsFuel nodes edges) nodes edges hne
  have hkeys := assignLayersFuel_keys (dfsFuel nodes edges) nodes edges L hL hval
  unfold layoutDirectedGraphC
  rw [show assignLayers nodes edges = some L from hL]
  simp only [Option.map_some']
  refine ⟨_, rfl, ?_, ?_⟩
  · intro k
    rw [foldl_mapSet_mem_keys (fun p : String × ℕ => p.1) _ L [] k]
    rw [← hkeys.1 k]
    simp [mapKeys]
  · exact foldl_mapSet_keys_nodup (fun p : String × ℕ => p.1) _ L [] (by simp [mapKeys])

/-- Key-set coverage of `layoutFlowchartC`. -/
theorem layoutFlowchartC_keys (startX startY vSpace hSpace : ℚ)
    (nodes : List DiagramNode) (edges : List DiagramEdge) (hne : nodes ≠ [])
    (hval : ∀ e ∈ edges, e.eto ∈ nodes.map (·.id)) :
    ∃ m, layoutFlowchartC startX startY vSpace hSpace nodes edges = some m ∧
      (∀ k, k ∈ mapKeys m ↔ k ∈ nodes.map (·.id)) ∧ (mapKeys m).Nodup := by
  obtain ⟨L, hL⟩ := assignLayersFuel_isSome (dfsFuel nodes edges) nodes edges hne
  have hkeys := assignLayersFuel_keys (dfsFuel nodes edges) nodes edges L hL hval
  unfold layoutFlowchartC
  rw [show assignLayers nodes edges = some L from hL]
  simp only [Option.map_some']
  refine ⟨_, rfl, ?_, ?_⟩
  · intro k
    rw [foldl_mapSet_mem_keys (fun p : String × ℕ => p.1) _ L [] k]
    rw [← hkeys.1 k]
    simp [mapKeys]
  · exact foldl_mapSet_keys_nodup (fun p : String × ℕ => p.1) _ L [] (by simp [mapKeys])

/-- Key-set coverage of `layoutTimeline`. -/
theorem layoutTimeline_keys (nodes : List DiagramNode) (edges : List DiagramEdge) :
    (∀ k, k ∈ mapKeys (layoutTimeline nodes edges) ↔ k ∈ nodes.map (·.id)) ∧
    (mapKeys (layoutTimeline nodes edges)).Nodup := by
  unfold layoutTimeline
  exact ⟨fun k => enumFold_mem_keys _ nodes k, enumFold_keys_nodup _ nodes⟩

/-- Key-set coverage of `layoutStateMachine`. -/
theorem layoutStateMachine_keys (cos sin : ℚ → ℚ) (nodes : List DiagramNode)
    (edges : List DiagramEdge) :
    (∀ k, k ∈ mapKeys (layoutStateMachine cos sin nodes edges) ↔ k ∈ nodes.map (·.id)) ∧
    (mapKeys (layoutStateMachine cos sin nodes edges)).Nodup := by
  simp only [layoutStateMachine]
  exact ⟨fun k => enumFold_mem_keys _ nodes k, enumFold_keys_nodup _ nodes⟩

/-- Key-set coverage of `layoutGridC`. -/
theorem layoutGridC_keys (startX startY hSpace vSpace : ℚ) (nodes : List DiagramNode)
    (edges : List DiagramEdge) :
    (∀ k, k ∈ mapKeys (layoutGridC startX startY hSpace vSpace nodes edges) ↔
      k ∈ nodes.map (·.id)) ∧
    (mapKeys (layoutGridC startX startY hSpace vSpace nodes edges)).Nodup := by
  simp only [layoutGridC]
  exact ⟨fun k => enumFold_mem_keys _ nodes k, enumFold_keys_nodup _ nodes⟩

/-- Key-set coverage of `layoutNetwork`: the hub and peripheral folds
together cover exactly the (sorted, hence permuted) node ids. -/
theorem layoutNetwork_keys (cos sin : ℚ → ℚ) (nodes : List DiagramNode)
    (edges : List DiagramEdge) :
    (∀ k, k ∈ mapKeys (layoutNetwork cos sin nodes edges) ↔ k ∈ nodes.map (·.id)) ∧
    (mapKeys (layoutNetwork cos sin nodes edges)).Nodup := by
  simp only [layoutNetwork]
  constructor
  · intro k
    rw [foldl_mapSet_mem_keys (fun p : ℕ × DiagramNode => p.2.id) _ _ _ k,
      foldl_mapSet_mem_keys (fun p : ℕ × DiagramNode => p.2.id) _ _ _ k,
      enum_map_key, enum_map_key]
    have hperm : ∀ (l : List DiagramNode) (hc : ℕ), l.Perm nodes →
        (k ∈ (List.take hc l).map (·.id) ∨ k ∈ (List.drop hc l).map (·.id) ↔
          k ∈ nodes.map (·.id)) := by
      intro l hc hp
      rw [← List.mem_append, ← List.map_append, List.take_append_drop]
      exact (hp.map (·.id)).mem_iff
    have hnil : k ∈ mapKeys ([] : JsMap String LayoutPosition) ↔ False := by
      simp [mapKeys]
    rw [hnil, false_or]
    refine hperm _ _ ?_
    simp only [networkSorted]
    exact List.perm_insertionSort _ nodes
  · refine foldl_mapSet_keys_nodup (fun p : ℕ × DiagramNode => p.2.id) _ _ _ ?_
    exact foldl_mapSet_keys_nodup (fun p : ℕ × DiagramNode => p.2.id) _ _ []
      (by simp [mapKeys])

/-- Every processed node lands in some group of the deployment grouping
fold. -/
theorem groupsFold_mem (layers : JsMap String ℕ) :
    ∀ (ns : List DiagramNode) (g : JsMap ℕ (List DiagramNode)) (n : DiagramNode),
      ((∃ kk l, mapGet g kk = some l ∧ n ∈ l) ∨ n ∈ ns) →
      ∃ kk l, mapGet (ns.foldl (fun g n =>
        mapSet g ((mapGet layers n.id).getD 0)
          ((mapGet g ((mapGet layers n.id).getD 0)).getD [] ++ [n])) g) kk = some l ∧
        n ∈ l := by
  intro ns
  induction ns with
  | nil =>
    intro g n h
    rcases h with h | h
    · exact h
    · cases h
  | cons n0 ns ih =>
    intro g n h
    rw [List.foldl_cons]
    set lay := (mapGet layers n0.id).getD 0 with hlay
    refine ih _ n ?_
    rcases h with ⟨kk, l, hget, hn⟩ | hmem
    · by_cases hk : kk = lay
      · subst hk
        refine Or.inl ⟨lay, (mapGet g lay).getD [] ++ [n0], mapGet_mapSet_self _ _ _, ?_⟩
        rw [hget]
        simp only [Option.getD_some]
        exact List.mem_append_left _ hn
      · exact Or.inl ⟨kk, l, by rw [mapGet_mapSet_ne _ _ _ _ hk]; exact hget, hn⟩
    · rcases List.mem_cons.mp hmem with rfl | hmem'
      · exact Or.inl ⟨lay, (mapGet g lay).getD [] ++ [n], mapGet_mapSet_self _ _ _,
          List.mem_append_right _ (List.mem_singleton.mpr rfl)⟩
      · exact Or.inr hmem'

/-- Conversely, group members come from the initial groups or the
processed nodes. -/
theorem groupsFold_sub (layers : JsMap String ℕ) :
    ∀ (ns : List DiagramNode) (g : JsMap ℕ (List DiagramNode)) (P : DiagramNode → Prop),
      (∀ p ∈ g, ∀ n ∈ p.2, P n) → (∀ n ∈ ns, P n) →
      ∀ p ∈ (ns.foldl (fun g n =>
        mapSet g ((mapGet layers n.id).getD 0)
          ((mapGet g ((mapGet layers n.id).getD 0)).getD [] ++ [n])) g), ∀ n ∈ p.2, P n := by
  intro ns
  induction ns with
  | nil => intro g P hg _ p hp; exact hg p hp
  | cons n0 ns ih =>
    intro g P hg hns
    rw [List.foldl_cons]
    refine ih _ P ?_ (fun n hn => hns n (List.mem_cons_of_mem n0 hn))
    intro p hp n hn
    rcases mapSet_entry_cases _ _ _ p hp with rfl | hp'
    · rcases List.mem_append.mp hn with hn' | hn'
      · cases hget : mapGet g ((mapGet layers n0.id).getD 0) with
        | none => rw [hget] at hn'; cases hn'
        | some l0 =>
          rw [hget] at hn'
          exact hg _ (mapGet_some_mem _ _ _ hget) n hn'
      · rw [List.mem_singleton.mp hn']
        exact hns n0 (List.mem_cons_self _ _)
    · exact hg p hp' n hn

/-- Key-set coverage of `layoutDeployment`. -/
theorem layoutDeployment_keys (nodes : List DiagramNode) (edges : List DiagramEdge)
    (hne : nodes ≠ []) :
    ∃ m, layoutDeployment nodes edges = some m ∧
      (∀ k, k ∈ mapKeys m ↔ k ∈ nodes.map (·.id)) ∧ (mapKeys m).Nodup := by
  obtain ⟨L, hL⟩ := assignLayersFuel_isSome (dfsFuel nodes edges) nodes edges hne
  unfold layoutDeployment
  rw [show assignLayers nodes edges = some L from hL]
  simp only [Option.map_some']
  refine ⟨_, rfl, ?_, ?_⟩
  · intro k
    rw [nestedFold_mem_keys _ _ [] k]
    constructor
    · rintro (h | ⟨g, hg, hk⟩)
      · simp [mapKeys] at h
      · rcases List.mem_map.mp hk with ⟨n, hn, rfl⟩
        have := groupsFold_sub L nodes [] (fun n => n ∈ nodes) (by intro p hp; cases hp)
          (fun n hn => hn) g hg n hn
        exact List.mem_map.mpr ⟨n, this, rfl⟩
    · intro hk
      rcases List.mem_map.mp hk with ⟨n, hn, rfl⟩
      obtain ⟨kk, l, hget, hnl⟩ := groupsFold_mem L nodes [] n (by
        refine Or.inr hn)
      refine Or.inr ⟨(kk, l), mapGet_some_mem _ _ _ hget, List.mem_map.mpr ⟨n, hnl, rfl⟩⟩
  · exact nestedFold_keys_nodup _ _ [] (by simp [mapKeys])

/-- With duplicate-free ids, the node lookup of `assignLevel` finds
exactly the node with that id. -/
theorem tree_find_eq (nodes : List DiagramNode) (hnd : (nodes.map (·.id)).Nodup)
    (n : DiagramNode) (hn : n ∈ nodes) :
    nodes.find? (fun n' => decide (n'.id = n.id)) = some n := by
  cases hf : nodes.find? (fun n' => decide (n'.id = n.id)) with
  | none =>
    rw [List.find?_eq_none] at hf
    exact absurd (by simp : (fun n' : DiagramNode => decide (n'.id = n.id)) n = true)
      (hf n hn)
  | some m =>
    have hm := List.mem_of_find?_eq_some hf
    have hid := List.find?_some hf
    simp only [decide_eq_true_eq] at hid
    rw [List.inj_on_of_nodup_map hnd hm hn hid]

/-- Along the tree DFS, every level member is an input node, and every
input node whose id is visited occurs in some level. -/
theorem treeDfs_members (nodes : List DiagramNode) (edges : List DiagramEdge)
    (hnd : (nodes.map (·.id)).Nodup) (fuel : ℕ) (x : String) (d : ℕ)
    (st : List String × List (List DiagramNode))
    (h : (∀ n ∈ st.2.flatten, n ∈ nodes) ∧
      (∀ n ∈ nodes, n.id ∈ st.1 → n ∈ st.2.flatten)) :
    (∀ n ∈ (dfsA (treeChildren nodes edges) (fun _ _ lv => lv) (treeEnter nodes)
        fuel x d st).2.flatten, n ∈ nodes) ∧
    (∀ n ∈ nodes, n.id ∈ (dfsA (treeChildren nodes edges) (fun _ _ lv => lv)
        (treeEnter nodes) fuel x d st).1 →
      n ∈ (dfsA (treeChildren nodes edges) (fun _ _ lv => lv) (treeEnter nodes)
        fuel x d st).2.flatten) := by
  refine dfsA_pres _ _ _
    (fun st => (∀ n ∈ st.2.flatten, n ∈ nodes) ∧
      (∀ n ∈ nodes, n.id ∈ st.1 → n ∈ st.2.flatten))
    ?_ ?_ fuel x d st h
  · intro x d vis s hx hP
    exact hP
  · intro x d vis s hx hP
    obtain ⟨hsub, hcov⟩ := hP
    unfold treeEnter
    cases hf : nodes.find? (fun n' => decide (n'.id = x)) with
    | none =>
      refine ⟨hsub, ?_⟩
      intro n hn hnv
      rcases List.mem_cons.mp hnv with he | hnv'
      · exfalso
        rw [List.find?_eq_none] at hf
        exact hf n hn (by simp [he])
      · exact hcov n hn hnv'
    | some node0 =>
      have hmem0 := List.mem_of_find?_eq_some hf
      have hid0 := List.find?_some hf
      simp only [decide_eq_true_eq] at hid0
      constructor
      · intro n hn
        rcases (pushAtLevel_flatten_mem n s d node0).mp hn with hn' | rfl
        · exact hsub n hn'
        · exact hmem0
      · intro n hn hnv
        rcases List.mem_cons.mp hnv with he | hnv'
        · have : n = node0 := List.inj_on_of_nodup_map hnd hn hmem0 (he.trans hid0.symm)
          rw [this]
          exact (pushAtLevel_flatten_mem node0 s d node0).mpr (Or.inr rfl)
        · exact (pushAtLevel_flatten_mem n s d node0).mpr (Or.inl (hcov n hn hnv'))

/-- The trailing fill of `layoutTree` appends one singleton level per
unvisited node, in input order. -/
theorem treeFill_eq (vis : List String) :
    ∀ (ns : List DiagramNode) (levels : List (List DiagramNode)),
      ns.foldl (fun lv n => if n.id ∈ vis then lv else lv ++ [[n]]) levels =
        levels ++ (ns.filter (fun n => decide (n.id ∉ vis))).map (fun n => [n]) := by
  intro ns
  induction ns with
  | nil => intro levels; simp
  | cons n ns ih =>
    intro levels
    rw [List.foldl_cons]
    by_cases hn : n.id ∈ vis
    · rw [if_pos hn, ih]
      have : (List.filter (fun n => decide (n.id ∉ vis)) (n :: ns)) =
          List.filter (fun n => decide (n.id ∉ vis)) ns := by
        rw [List.filter_cons]
        rw [if_neg (by simp [hn])]
      rw [this]
    · rw [if_neg hn, ih]
      have : (List.filter (fun n => decide (n.id ∉ vis)) (n :: ns)) =
          n :: List.filter (fun n => decide (n.id ∉ vis)) ns := by
        rw [List.filter_cons]
        rw [if_pos (by simp [hn])]
      rw [this]
      simp

theorem exists_enum_iff (l : List (List DiagramNode)) (p : List DiagramNode → Prop) :
    (∃ g ∈ l.enum, p g.2) ↔ ∃ lvl ∈ l, p lvl := by
  constructor
  · rintro ⟨g, hg, hp⟩
    refine ⟨g.2, ?_, hp⟩
    have : g.2 ∈ l.enum.map Prod.snd := List.mem_map.mpr ⟨g, hg, rfl⟩
    rwa [List.enum_eq_enumFrom, List.enumFrom_map_snd] at this
  · rintro ⟨lvl, hlvl, hp⟩
    obtain ⟨i, hi, hget⟩ := List.mem_iff_getElem.mp hlvl
    refine ⟨(i, lvl), ?_, hp⟩
    rw [List.mk_mem_enum_iff_getElem?]
    rw [List.getElem?_eq_getElem hi, hget]

theorem flatten_singleton_map (l : List DiagramNode) :
    (l.map (fun n => [n])).flatten = l := by
  induction l with
  | nil => rfl
  | cons n l ih => simp [ih]

/-! ## Tree layout: reachability and the unreachable column -/

/-- A node id the tree DFS can reach: reachable from some root through
`assignLevel`'s recursion structure. -/
def TreeReachable (nodes : List DiagramNode) (edges : List DiagramEdge)
    (x : String) : Prop :=
  ∃ r ∈ rootNodes nodes edges, Reach (treeChildren nodes edges) r.id x

theorem treeChildren_mem_universe (nodes : List DiagramNode) (edges : List DiagramEdge)
    (x c : String) (hc : c ∈ treeChildren nodes edges x) : c ∈ idUniverse nodes edges := by
  unfold treeChildren at hc
  by_cases h : (nodes.find? (fun n => decide (n.id = x))).isSome = true
  · rw [if_pos h] at hc
    exact graphChildren_mem_universe nodes edges x c hc
  · rw [if_neg h] at hc
    cases hc

/-- Every start node's id ends up visited by the fold of DFS calls over
the start list. -/
theorem startFold_mem {σ : Type} (children : String → List String)
    (onRevisit : String → ℕ → σ → σ) (onEnter : String → ℕ → List String → σ → σ)
    (fuel : ℕ) (hf : 0 < fuel) :
    ∀ (starts : List DiagramNode) (st : List String × σ) (r : DiagramNode), r ∈ starts →
      r.id ∈ (starts.foldl
        (fun st r => dfsA children onRevisit onEnter fuel r.id 0 st) st).1 := by
  obtain ⟨g, rfl⟩ : ∃ g, fuel = g + 1 := ⟨fuel - 1, by omega⟩
  intro starts
  induction starts with
  | nil => intro st r hr; cases hr
  | cons r0 l ih =>
    intro st r hr
    rw [List.foldl_cons]
    rcases List.mem_cons.mp hr with rfl | hr
    · obtain ⟨vis0, s0⟩ := st
      have hmem := dfsA_mem_arg children onRevisit onEnter g r.id 0 vis0 s0
      exact foldl_pres (fun st : List String × σ => r.id ∈ st.1) _ l _ hmem
        (fun st0 c0 h _ => dfsA_vis_mono children onRevisit onEnter (g + 1) c0.id 0 st0 h)
    · exact ih _ r hr

/-- With sufficient fuel, the visited set of the start fold is closed
under `children`. -/
theorem startFold_closed {σ : Type} (children : String → List String)
    (onRevisit : String → ℕ → σ → σ) (onEnter : String → ℕ → List String → σ → σ)
    (U : Finset String) (hcl : ∀ x c, c ∈ children x → c ∈ U)
    (fuel : ℕ) (hfuel : ∀ vis : List String, visCard U vis < fuel)
    (starts : List DiagramNode) (hU : ∀ r ∈ starts, r.id ∈ U) (s0 : σ) :
    ∀ y ∈ (starts.foldl
        (fun st r => dfsA children onRevisit onEnter fuel r.id 0 st) ([], s0)).1,
      ∀ c ∈ children y,
        c ∈ (starts.foldl
          (fun st r => dfsA children onRevisit onEnter fuel r.id 0 st) ([], s0)).1 := by
  refine foldl_pres
    (fun st : List String × σ => ∀ y ∈ st.1, ∀ c ∈ children y, c ∈ st.1)
    _ starts _ (by intro y hy; cases hy) ?_
  intro st r hP hr
  obtain ⟨vis, s⟩ := st
  intro y hy c hc
  rcases dfsA_closed children onRevisit onEnter U hcl (visCard U vis)
    fuel r.id 0 vis s (hU r hr) (le_refl _) (hfuel vis) y hy with hyv | hcls
  · exact dfsA_vis_mono children onRevisit onEnter fuel r.id 0 (vis, s) (hP y hyv c hc)
  · exact hcls c hc

/-- The tree DFS visits exactly the ids reachable from some root. -/
theorem treeDfsState_visited_iff (nodes : List DiagramNode) (edges : List DiagramEdge) :
    ∀ y, y ∈ (treeDfsState nodes edges).1 ↔ TreeReachable nodes edges y := by
  intro y
  constructor
  · intro hy
    unfold treeDfsState at hy
    obtain ⟨r, hr, hre⟩ := startFold_sound (treeChildren nodes edges)
      (fun _ _ lv => lv) (treeEnter nodes) (rootNodes nodes edges)
      (dfsFuel nodes edges) [] y hy
    exact ⟨r, hr, hre⟩
  · rintro ⟨r, hr, hre⟩
    have hcl := startFold_closed (treeChildren nodes edges) (fun _ _ lv => lv)
      (treeEnter nodes) (idUniverse nodes edges)
      (treeChildren_mem_universe nodes edges) (dfsFuel nodes edges)
      (visCard_le_fuel nodes edges) (rootNodes nodes edges)
      (fun r0 hr0 => node_mem_universe nodes edges r0
        ((mem_rootNodes nodes edges r0).mp hr0).1) []
    have hroot : r.id ∈ (treeDfsState nodes edges).1 := by
      unfold treeDfsState
      exact startFold_mem (treeChildren nodes edges) (fun _ _ lv => lv)
        (treeEnter nodes) (dfsFuel nodes edges) (by unfold dfsFuel; omega)
        (rootNodes nodes edges) ([], []) r hr
    obtain ⟨n, hd⟩ := hre
    induction hd with
    | refl => exact hroot
    | step h1 h2 ih => exact hcl _ ih _ h2

/-- `pushAtLevel` appends the node to the flattened levels, up to
permutation. -/
theorem pushAtLevel_flatten_perm (node : DiagramNode) :
    ∀ (levels : List (List DiagramNode)) (l : ℕ),
      (pushAtLevel levels l node).flatten.Perm (levels.flatten ++ [node]) := by
  intro levels
  induction levels with
  | nil =>
    intro l
    induction l with
    | zero => simp [pushAtLevel]
    | succ l ihl => simpa [pushAtLevel] using ihl
  | cons lvl rest ih =>
    intro l
    cases l with
    | zero =>
      simp only [pushAtLevel, List.flatten_cons]
      rw [List.append_assoc, List.append_assoc]
      exact List.Perm.append_left lvl List.perm_append_comm
    | succ l =>
      simp only [pushAtLevel, List.flatten_cons]
      rw [List.append_assoc]
      exact List.Perm.append_left lvl (ih l)

/-- Along the tree DFS, the flattened levels hold only visited ids, each
at most once. -/
theorem treeDfs_ids (nodes : List DiagramNode) (edges : List DiagramEdge) :
    (∀ n ∈ (treeDfsState nodes edges).2.flatten, n.id ∈ (treeDfsState nodes edges).1) ∧
    ((treeDfsState nodes edges).2.flatten.map (·.id)).Nodup := by
  unfold treeDfsState
  refine foldl_pres
    (fun st : List String × List (List DiagramNode) =>
      (∀ n ∈ st.2.flatten, n.id ∈ st.1) ∧ (st.2.flatten.map (·.id)).Nodup)
    _ (rootNodes nodes edges) (([], []) : List String × List (List DiagramNode))
    ⟨(by intro n hn; cases hn), (by simp)⟩ ?_
  intro st r hP _
  refine dfsA_pres _ _ _
    (fun st : List String × List (List DiagramNode) =>
      (∀ n ∈ st.2.flatten, n.id ∈ st.1) ∧ (st.2.flatten.map (·.id)).Nodup)
    ?_ ?_ (dfsFuel nodes edges) r.id 0 st hP
  · intro x d vis s _ hQ
    exact hQ
  · intro x d vis s hx hQ
    obtain ⟨hsub, hnodup⟩ := hQ
    unfold treeEnter
    cases hf : nodes.find? (fun p => decide (p.id = x)) with
    | none =>
      exact ⟨fun n hn => List.mem_cons_of_mem x (hsub n hn), hnodup⟩
    | some node0 =>
      have hid0 : node0.id = x := by
        have := List.find?_some hf
        simpa using this
      have hperm := pushAtLevel_flatten_perm node0 s d
      constructor
      · intro n hn
        rcases List.mem_append.mp (hperm.mem_iff.mp hn) with hn0 | hn0
        · exact List.mem_cons_of_mem x (hsub n hn0)
        · have hn1 : n = node0 := by simpa using hn0
          rw [hn1, hid0]
          exact List.mem_cons_self x vis
      · rw [(hperm.map (fun n : DiagramNode => n.id)).nodup_iff]
        rw [List.map_append, List.nodup_append]
        refine ⟨hnodup, List.nodup_singleton _, fun a ha hb => ?_⟩
        rcases List.mem_map.mp ha with ⟨n, hn, rfl⟩
        have hax : n.id = x := by simpa [hid0] using hb
        exact hx (hax ▸ hsub n hn)

/-- An id absent from every row is untouched by the nested positioning
fold. -/
theorem nestedFold_get_not_mem (val : ℕ × List DiagramNode → ℕ × DiagramNode → LayoutPosition) :
    ∀ (gs : List (ℕ × List DiagramNode)) (pos : JsMap String LayoutPosition) (k : String),
      (∀ g ∈ gs, k ∉ g.2.map (·.id)) →
      mapGet (gs.foldl (fun pos g =>
        g.2.enum.foldl (fun pos np => mapSet pos np.2.id (val g np)) pos) pos) k =
      mapGet pos k := by
  intro gs
  induction gs with
  | nil => intro pos k _; rfl
  | cons g gs ih =>
    intro pos k hk
    rw [List.foldl_cons, ih _ k (fun g0 hg0 => hk g0 (List.mem_cons_of_mem g hg0))]
    refine foldl_mapSet_get_not_mem (fun np : ℕ × DiagramNode => np.2.id)
      (val g) g.2.enum pos k ?_
    rw [enum_map_key]
    exact hk g (List.mem_cons_self g gs)

/-- When all ids across all rows are distinct, the nested positioning fold
stores each row element's value. -/
theorem nestedFold_get_of_nodup (val : ℕ × List DiagramNode → ℕ × DiagramNode → LayoutPosition) :
    ∀ (gs : List (ℕ × List DiagramNode)) (pos : JsMap String LayoutPosition),
      (((gs.map Prod.snd).flatten.map (·.id)).Nodup) →
      ∀ g ∈ gs, ∀ np ∈ g.2.enum,
        mapGet (gs.foldl (fun pos g =>
          g.2.enum.foldl (fun pos np => mapSet pos np.2.id (val g np)) pos) pos) np.2.id =
        some (val g np) := by
  intro gs
  induction gs with
  | nil => intro pos _ g hg; cases hg
  | cons g0 gs ih =>
    intro pos hnd g hg np hnp
    rw [List.map_cons, List.flatten_cons, List.map_append, List.nodup_append] at hnd
    obtain ⟨hnd0, hndr, hdisj⟩ := hnd
    rw [List.foldl_cons]
    rcases List.mem_cons.mp hg with rfl | hg0
    · have hmem2 : np.2 ∈ g.2 := by
        have h2 : np.2 ∈ g.2.enum.map Prod.snd := List.mem_map.mpr ⟨np, hnp, rfl⟩
        rwa [List.enum_eq_enumFrom, List.enumFrom_map_snd] at h2
      have hmem : np.2.id ∈ g.2.map (·.id) := List.mem_map.mpr ⟨np.2, hmem2, rfl⟩
      have hnot : ∀ g1 ∈ gs, np.2.id ∉ g1.2.map (·.id) := by
        intro g1 hg1 hk
        refine hdisj hmem ?_
        rcases List.mem_map.mp hk with ⟨n, hn, he⟩
        refine List.mem_map.mpr ⟨n, ?_, he⟩
        exact List.mem_flatten.mpr ⟨g1.2, List.mem_map.mpr ⟨g1, hg1, rfl⟩, hn⟩
      rw [nestedFold_get_not_mem val gs _ np.2.id hnot]
      refine foldl_mapSet_get_of_nodup (fun np : ℕ × DiagramNode => np.2.id)
        (val g) g.2.enum pos np ?_ hnp
      rw [enum_map_key]
      exact hnd0
    · exact ih _ hndr g hg0 np hnp

/-- Key-set coverage of `layoutTreeC`. -/
theorem layoutTreeC_keys (dgX dgY dgH dgV sX sY lH nW : ℚ)
    (nodes : List DiagramNode) (edges : List DiagramEdge)
    (hne : nodes ≠ []) (hnd : (nodes.map (·.id)).Nodup)
    (hval : ∀ e ∈ edges, e.eto ∈ nodes.map (·.id)) :
    ∃ m, layoutTreeC dgX dgY dgH dgV sX sY lH nW nodes edges = some m ∧
      (∀ k, k ∈ mapKeys m ↔ k ∈ nodes.map (·.id)) ∧ (mapKeys m).Nodup := by
  simp only [layoutTreeC]
  by_cases hr : (rootNodes nodes edges).length = 0
  · rw [if_pos hr]
    exact layoutDirectedGraphC_keys dgX dgY dgH dgV nodes edges hne hval
  · rw [if_neg hr]
    set st1 := treeDfsState nodes edges with hst1
    have hmembers : (∀ n ∈ st1.2.flatten, n ∈ nodes) ∧
        (∀ n ∈ nodes, n.id ∈ st1.1 → n ∈ st1.2.flatten) := by
      rw [hst1]
      simp only [treeDfsState]
      refine foldl_pres
        (fun st : List String × List (List DiagramNode) =>
          (∀ n ∈ st.2.flatten, n ∈ nodes) ∧ (∀ n ∈ nodes, n.id ∈ st.1 → n ∈ st.2.flatten))
        _ (rootNodes nodes edges) _
        ⟨(by intro n hn; cases hn), (by intro n _ hv; cases hv)⟩ ?_
      intro st r hP _
      exact treeDfs_members nodes edges hnd (dfsFuel nodes edges) r.id 0 st hP
    set levels' := treeLevels nodes edges with hlv
    have hflat : ∀ n, n ∈ levels'.flatten ↔
        (n ∈ st1.2.flatten ∨ (n ∈ nodes ∧ n.id ∉ st1.1)) := by
      intro n
      rw [hlv]
      simp only [treeLevels]
      rw [← hst1, treeFill_eq st1.1 nodes st1.2, List.flatten_append, List.mem_append,
        flatten_singleton_map, List.mem_filter]
      simp only [decide_eq_true_eq]
    refine ⟨_, rfl, ?_, ?_⟩
    · intro k
      rw [nestedFold_mem_keys _ levels'.enum [] k]
      have hnilk : k ∈ mapKeys ([] : JsMap String LayoutPosition) ↔ False := by
        simp [mapKeys]
      rw [hnilk, false_or, exists_enum_iff levels' (fun lvl => k ∈ lvl.map (·.id))]
      constructor
      · rintro ⟨lvl, hlvl, hk⟩
        rcases List.mem_map.mp hk with ⟨n, hn, rfl⟩
        have hnf : n ∈ levels'.flatten := List.mem_flatten.mpr ⟨lvl, hlvl, hn⟩
        rcases (hflat n).mp hnf with h | ⟨h, _⟩
        · exact List.mem_map.mpr ⟨n, hmembers.1 n h, rfl⟩
        · exact List.mem_map.mpr ⟨n, h, rfl⟩
      · intro hk
        rcases List.mem_map.mp hk with ⟨n, hn, rfl⟩
        have hnf : n ∈ levels'.flatten := by
          rw [hflat n]
          by_cases hv : n.id ∈ st1.1
          · exact Or.inl (hmembers.2 n hn hv)
          · exact Or.inr ⟨hn, hv⟩
        obtain ⟨lvl, hlvl, hnl⟩ := List.mem_flatten.mp hnf
        exact ⟨lvl, hlvl, List.mem_map.mpr ⟨n, hnl, rfl⟩⟩
    · exact nestedFold_keys_nodup _ levels'.enum [] (by simp [mapKeys])

/-- A position map covers exactly the given nodes: its key set is the
node ids, without duplicates or omissions. -/
def coversExactly (nodes : List DiagramNode) (m : JsMap String LayoutPosition) : Prop :=
  (∀ k, k ∈ mapKeys m ↔ k ∈ nodes.map (·.id)) ∧ (mapKeys m).Nodup

/-- Coverage of `calculateLayout` (`diagramConverter.ts`). -/
theorem calculateLayoutDC_covers (spec : DiagramSpec)
    (hnd : (spec.nodes.map (·.id)).Nodup)
    (hval : ∀ e ∈ spec.edges, e.eto ∈ spec.nodes.map (·.id)) :
    coversExactly spec.nodes (DC.calculateLayout spec) := by
  unfold DC.calculateLayout
  by_cases h0 : spec.nodes.length = 0
  · rw [if_pos h0]
    have hnil : spec.nodes = [] := List.length_eq_zero.mp h0
    rw [hnil]
    exact ⟨fun k => by simp [mapKeys], by simp [mapKeys]⟩
  · rw [if_neg h0]
    have hne : spec.nodes ≠ [] := by
      intro hc; rw [hc] at h0; exact h0 rfl
    by_cases ht1 : spec.type = "sequence"
    · rw [if_pos ht1]
      exact layoutSequenceC_keys 150 300 400 250 spec.nodes spec.edges hval
    · rw [if_neg ht1]
      by_cases ht2 : spec.type = "tree"
      · rw [if_pos ht2]
        obtain ⟨m, hm, h1, h2⟩ := layoutTreeC_keys 600 400 450 280 400 100 250 350
          spec.nodes spec.edges hne hnd hval
        rw [show DC.layoutTree spec.nodes spec.edges = some m from hm]
        exact ⟨h1, h2⟩
      · rw [if_neg ht2]
        by_cases ht3 : spec.type = "flowchart"
        · rw [if_pos ht3]
          obtain ⟨m, hm, h1, h2⟩ := layoutFlowchartC_keys 600 100 250 400
            spec.nodes spec.edges hne hval
          rw [show DC.layoutFlowchart spec.nodes spec.edges = some m from hm]
          exact ⟨h1, h2⟩
        · rw [if_neg ht3]
          obtain ⟨m, hm, h1, h2⟩ := layoutDirectedGraphC_keys 600 400 450 280
            spec.nodes spec.edges hne hval
          rw [show DC.layoutDirectedGraph spec.nodes spec.edges = some m from hm]
          exact ⟨h1, h2⟩

/-- Coverage of `calculateLayout` (`part_011`). -/
theorem calculateLayoutP11_covers (cos sin : ℚ → ℚ) (spec : DiagramSpec)
    (hnd : (spec.nodes.map (·.id)).Nodup)
    (hval : ∀ e ∈ spec.edges, e.eto ∈ spec.nodes.map (·.id)) :
    coversExactly spec.nodes (P11.calculateLayout cos sin spec) := by
  unfold P11.calculateLayout
  by_cases h0 : spec.nodes.length = 0
  · rw [if_pos h0]
    have hnil : spec.nodes = [] := List.length_eq_zero.mp h0
    rw [hnil]
    exact ⟨fun k => by simp [mapKeys], by simp [mapKeys]⟩
  · rw [if_neg h0]
    have hne : spec.nodes ≠ [] := by
      intro hc; rw [hc] at h0; exact h0 rfl
    by_cases ht1 : spec.type = "sequence"
    · rw [if_pos ht1]
      exact layoutSequenceC_keys 200 350 750 450 spec.nodes spec.edges hval
    · rw [if_neg ht1]
      by_cases ht2 : spec.type = "tree"
      · rw [if_pos ht2]
        obtain ⟨m, hm, h1, h2⟩ := layoutTreeC_keys 700 450 600 380 500 150 350 500
          spec.nodes spec.edges hne hnd hval
        rw [show P11.layoutTree spec.nodes spec.edges = some m from hm]
        exact ⟨h1, h2⟩
      · rw [if_neg ht2]
        by_cases ht3 : spec.type = "flowchart"
        · rw [if_pos ht3]
          obtain ⟨m, hm, h1, h2⟩ := layoutFlowchartC_keys 700 150 350 550
            spec.nodes spec.edges hne hval
          rw [show P11.layoutFlowchart spec.nodes spec.edges = some m from hm]
          exact ⟨h1, h2⟩
        · rw [if_neg ht3]
          by_cases ht4 : spec.type = "state-machine"
          · rw [if_pos ht4]
            exact layoutStateMachine_keys cos sin spec.nodes spec.edges
          · rw [if_neg ht4]
            by_cases ht5 : spec.type = "entity-relationship"
            · rw [if_pos ht5]
              exact layoutGridC_keys 300 200 600 400 spec.nodes spec.edges
            · rw [if_neg ht5]
              by_cases ht6 : spec.type = "network"
              · rw [if_pos ht6]
                exact layoutNetwork_keys cos sin spec.nodes spec.edges
              · rw [if_neg ht6]
                by_cases ht7 : spec.type = "timeline"
                · rw [if_pos ht7]
                  exact layoutTimeline_keys spec.nodes spec.edges
                · rw [if_neg ht7]
                  by_cases ht8 : spec.type = "class-diagram"
                  · rw [if_pos ht8]
                    exact layoutGridC_keys 300 200 500 350 spec.nodes spec.edges
                  · rw [if_neg ht8]
                    by_cases ht9 : spec.type = "deployment"
                    · rw [if_pos ht9]
                      obtain ⟨m, hm, h1, h2⟩ := layoutDeployment_keys
                        spec.nodes spec.edges hne
                      rw [show layoutDeployment spec.nodes spec.edges = some m from hm]
                      exact ⟨h1, h2⟩
                    · rw [if_neg ht9]
                      obtain ⟨m, hm, h1, h2⟩ := layoutDirectedGraphC_keys 700 450 600 380
                        spec.nodes spec.edges hne hval
                      rw [show P11.layoutDirectedGraph spec.nodes spec.edges = some m from hm]
                      exact ⟨h1, h2⟩

/-- Even with dangling edges, every real node receives a sequence
position. -/
theorem layoutSequenceC_covers (startX startY hSpace vSpace : ℚ)
    (nodes : List DiagramNode) (edges : List DiagramEdge) :
    ∀ n ∈ nodes, n.id ∈ mapKeys (layoutSequenceC startX startY hSpace vSpace nodes edges) := by
  intro n hn
  simp only [layoutSequenceC]
  by_cases hroots : (rootNodes nodes edges).length = 0
  · rw [if_pos hroots]
    exact (enumFold_mem_keys _ nodes n.id).mpr (List.mem_map.mpr ⟨n, hn, rfl⟩)
  · rw [if_neg hroots]
    set st1 := (rootNodes nodes edges).foldl
      (fun st r => dfsA (graphChildren edges) (fun _ _ m => m)
        (seqEnter startX startY hSpace vSpace) (dfsFuel nodes edges) r.id 0 st)
      (([], []) : List String × JsMap String LayoutPosition) with hst1
    have hsync : (∀ y, y ∈ st1.1 ↔ y ∈ mapKeys st1.2) ∧ (mapKeys st1.2).Nodup := by
      rw [hst1]
      refine foldl_pres
        (fun st : List String × JsMap String LayoutPosition =>
          (∀ y, y ∈ st.1 ↔ y ∈ mapKeys st.2) ∧ (mapKeys st.2).Nodup)
        _ (rootNodes nodes edges) _ ⟨by simp [mapKeys], by simp [mapKeys]⟩ ?_
      intro st r hP _
      refine dfsA_sync (graphChildren edges) _ _ ?_ ?_ (dfsFuel nodes edges) r.id 0 st hP
      · intro x d s hx; rfl
      · intro x d vis s
        simp only [seqEnter]
        rw [mapKeys_mapSet]
    rw [seqFill_mem_keys st1.1
      (fun p : ℕ × DiagramNode =>
        ((startX + 2 * hSpace, startY + (p.1 : ℚ) * vSpace) : LayoutPosition))
      nodes.enum st1.2 n.id, enum_map_key]
    by_cases hv : n.id ∈ st1.1
    · exact Or.inl ((hsync.1 n.id).mp hv)
    · exact Or.inr ⟨List.mem_map.mpr ⟨n, hn, rfl⟩, hv⟩

/-- With at least one root, `layoutTreeC` keys positions only by real
node ids, dangling edges notwithstanding (`assignLevel` skips ids that
are not nodes). -/
theorem layoutTreeC_keys_subset (dgX dgY dgH dgV sX sY lH nW : ℚ)
    (nodes : List DiagramNode) (edges : List DiagramEdge)
    (hnd : (nodes.map (·.id)).Nodup) (hroots : rootNodes nodes edges ≠ []) :
    ∃ m, layoutTreeC dgX dgY dgH dgV sX sY lH nW nodes edges = some m ∧
      ∀ k ∈ mapKeys m, k ∈ nodes.map (·.id) := by
  simp only [layoutTreeC]
  have hr : ¬((rootNodes nodes edges).length = 0) := by
    intro hc
    exact hroots (List.length_eq_zero.mp hc)
  rw [if_neg hr]
  set st1 := treeDfsState nodes edges with hst1
  have hmembers : (∀ n ∈ st1.2.flatten, n ∈ nodes) ∧
      (∀ n ∈ nodes, n.id ∈ st1.1 → n ∈ st1.2.flatten) := by
    rw [hst1]
    simp only [treeDfsState]
    refine foldl_pres
      (fun st : List String × List (List DiagramNode) =>
        (∀ n ∈ st.2.flatten, n ∈ nodes) ∧ (∀ n ∈ nodes, n.id ∈ st.1 → n ∈ st.2.flatten))
      _ (rootNodes nodes edges) _
      ⟨(by intro n hn; cases hn), (by intro n _ hv; cases hv)⟩ ?_
    intro st r hP _
    exact treeDfs_members nodes edges hnd (dfsFuel nodes edges) r.id 0 st hP
  set levels' := treeLevels nodes edges with hlv
  refine ⟨_, rfl, ?_⟩
  intro k hk
  rw [nestedFold_mem_keys _ levels'.enum [] k] at hk
  rcases hk with hk | hk
  · simp [mapKeys] at hk
  · rw [exists_enum_iff levels' (fun lvl => k ∈ lvl.map (·.id))] at hk
    obtain ⟨lvl, hlvl, hkl⟩ := hk
    rcases List.mem_map.mp hkl with ⟨n, hnl, rfl⟩
    have hnf : n ∈ levels'.flatten := List.mem_flatten.mpr ⟨lvl, hlvl, hnl⟩
    rw [hlv] at hnf
    simp only [treeLevels] at hnf
    rw [← hst1, treeFill_eq st1.1 nodes st1.2, List.flatten_append, List.mem_append,
      flatten_singleton_map, List.mem_filter] at hnf
    rcases hnf with h | ⟨h, _⟩
    · exact List.mem_map.mpr ⟨n, hmembers.1 n h, rfl⟩
    · exact List.mem_map.mpr ⟨n, h, rfl⟩

/-- C1 (amended: a *successful* ELK result is used as-is, so node ids it
omits are dropped — see `elk_partial_result_drops_nodes`; only a
*rejected* ELK call falls back).  For every spec whose node ids are
unique and whose edges reference existing nodes: (i) a successful ELK
result map is used verbatim; (ii) when the ELK call throws, the whole
spec is laid out by `calculateLayout`; (iii) that fallback is total and
gives every node a position — the layout call never fails outright;
(iv) a node without a position in the chosen map is dropped by the
shape-creation loop. -/
theorem elk_fallback_spec (spec : DiagramSpec) (m : JsMap String LayoutPosition)
    (hnd : (spec.nodes.map (·.id)).Nodup)
    (hval : ∀ e ∈ spec.edges, e.eto ∈ spec.nodes.map (·.id)) :
    chooseNodePositions (some m) spec = m ∧
    chooseNodePositions none spec = DC.calculateLayout spec ∧
    (∀ n ∈ spec.nodes, (mapGet (chooseNodePositions none spec) n.id).isSome = true) ∧
    (∀ (elkResult : Option (JsMap String LayoutPosition)) (n : DiagramNode),
      n ∈ spec.nodes → mapGet (chooseNodePositions elkResult spec) n.id = none →
      n.id ∉ renderedNodeIds elkResult spec) := by
  refine ⟨rfl, rfl, ?_, ?_⟩
  · intro n hn
    have hcov := calculateLayoutDC_covers spec hnd hval
    rw [mapGet_isSome_iff]
    exact (hcov.1 n.id).mpr (List.mem_map.mpr ⟨n, hn, rfl⟩)
  · intro elkResult n hn hnone hmem
    unfold renderedNodeIds at hmem
    rcases List.mem_map.mp hmem with ⟨n', hn', hid⟩
    rw [List.mem_filter] at hn'
    rw [hid] at hn'
    rw [hnone] at hn'
    exact Bool.noConfusion hn'.2

/-- Witness for `elk_fallback_spec` on the two-node flowchart spec. -/
theorem elk_fallback_spec_witness :
    chooseNodePositions (some [("A", ((0 : ℚ), (0 : ℚ)))]) specAB = [("A", (0, 0))] ∧
    chooseNodePositions none specAB = DC.calculateLayout specAB ∧
    (∀ n ∈ specAB.nodes, (mapGet (chooseNodePositions none specAB) n.id).isSome = true) ∧
    (∀ (elkResult : Option (JsMap String LayoutPosition)) (n : DiagramNode),
      n ∈ specAB.nodes → mapGet (chooseNodePositions elkResult specAB) n.id = none →
      n.id ∉ renderedNodeIds elkResult specAB) :=
  elk_fallback_spec specAB [("A", (0, 0))] (by decide) (by decide)

/-- C3 (amended: a dangling edge is *not* skipped by `assignLayers` and
`positionNode` — it is traversed, may key an entry by the nonexistent id
(see `assignLayers_dangling_edge_not_skipped`), and can change real
nodes' layers.  What holds: every real node still receives a layer and a
position, and the strategies that look nodes up (`layoutTree` when a
root exists) or iterate over the node list (`state-machine`, the grids,
`network`, `timeline`) never key a position by a nonexistent id). -/
theorem dangling_edges_spec (nodes : List DiagramNode) (edges : List DiagramEdge)
    (hnd : (nodes.map (·.id)).Nodup) (hne : nodes ≠ []) :
    (∃ L, assignLayers nodes edges = some L ∧
      ∀ n ∈ nodes, (mapGet L n.id).isSome = true) ∧
    (∀ n ∈ nodes, n.id ∈ mapKeys (DC.layoutSequence nodes edges)) ∧
    (∀ k ∈ mapKeys (layoutTimeline nodes edges), k ∈ nodes.map (·.id)) ∧
    (∀ (cos sin : ℚ → ℚ),
      ∀ k ∈ mapKeys (layoutStateMachine cos sin nodes edges), k ∈ nodes.map (·.id)) ∧
    (∀ k ∈ mapKeys (P11.layoutEntityRelationship nodes edges), k ∈ nodes.map (·.id)) ∧
    (∀ k ∈ mapKeys (P11.layoutClassDiagram nodes edges), k ∈ nodes.map (·.id)) ∧
    (∀ (cos sin : ℚ → ℚ),
      ∀ k ∈ mapKeys (layoutNetwork cos sin nodes edges), k ∈ nodes.map (·.id)) ∧
    (rootNodes nodes edges ≠ [] →
      ∃ m, DC.layoutTree nodes edges = some m ∧ ∀ k ∈ mapKeys m, k ∈ nodes.map (·.id)) := by
  refine ⟨?_, ?_, ?_, ?_, ?_, ?_, ?_, ?_⟩
  · obtain ⟨L, hL⟩ := assignLayersFuel_isSome (dfsFuel nodes edges) nodes edges hne
    exact ⟨L, hL, fun n hn =>
      assignLayersFuel_covers (dfsFuel nodes edges) nodes edges L hL n hn⟩
  · exact layoutSequenceC_covers 150 300 400 250 nodes edges
  · intro k hk
    exact ((layoutTimeline_keys nodes edges).1 k).mp hk
  · intro cos sin k hk
    exact ((layoutStateMachine_keys cos sin nodes edges).1 k).mp hk
  · intro k hk
    exact ((layoutGridC_keys 300 200 600 400 nodes edges).1 k).mp hk
  · intro k hk
    exact ((layoutGridC_keys 300 200 500 350 nodes edges).1 k).mp hk
  · intro cos sin k hk
    exact ((layoutNetwork_keys cos sin nodes edges).1 k).mp hk
  · intro hroots
    exact layoutTreeC_keys_subset 600 400 450 280 400 100 250 350 nodes edges hnd hroots

/-- Witness for `dangling_edges_spec` on the single node `A` with the
dangling edge `A→X`. -/
theorem dangling_edges_spec_witness :
    (∃ L, assignLayers [exNode "A"] [exEdge "A" "X"] = some L ∧
      ∀ n ∈ [exNode "A"], (mapGet L n.id).isSome = true) ∧
    (∀ n ∈ [exNode "A"], n.id ∈ mapKeys (DC.layoutSequence [exNode "A"] [exEdge "A" "X"])) ∧
    (∀ k ∈ mapKeys (layoutTimeline [exNode "A"] [exEdge "A" "X"]),
      k ∈ [exNode "A"].map (·.id)) ∧
    (∀ (cos sin : ℚ → ℚ),
      ∀ k ∈ mapKeys (layoutStateMachine cos sin [exNode "A"] [exEdge "A" "X"]),
        k ∈ [exNode "A"].map (·.id)) ∧
    (∀ k ∈ mapKeys (P11.layoutEntityRelationship [exNode "A"] [exEdge "A" "X"]),
      k ∈ [exNode "A"].map (·.id)) ∧
    (∀ k ∈ mapKeys (P11.layoutClassDiagram [exNode "A"] [exEdge "A" "X"]),
      k ∈ [exNode "A"].map (·.id)) ∧
    (∀ (cos sin : ℚ → ℚ),
      ∀ k ∈ mapKeys (layoutNetwork cos sin [exNode "A"] [exEdge "A" "X"]),
        k ∈ [exNode "A"].map (·.id)) ∧
    (rootNodes [exNode "A"] [exEdge "A" "X"] ≠ [] →
      ∃ m, DC.layoutTree [exNode "A"] [exEdge "A" "X"] = some m ∧
        ∀ k ∈ mapKeys m, k ∈ [exNode "A"].map (·.id)) :=
  dangling_edges_spec [exNode "A"] [exEdge "A" "X"] (by decide) (by decide)

/-- C4 (amended: the assignLayers-based strategies and `layoutTree` throw
on an empty node list when called directly — see
`layer_strategies_throw_on_empty`; `calculateLayout`'s `nodeCount === 0`
guard prevents this).  For every spec with unique node ids whose edges
reference existing nodes: both files' `calculateLayout` return a position
map keyed by exactly the node ids (the empty node list yields the empty
map), the total strategies cover exactly the node ids for any node list,
and the `Option`-valued strategies do so whenever the node list is
non-empty. -/
theorem calculateLayout_coverage (spec : DiagramSpec) (cos sin : ℚ → ℚ)
    (hnd : (spec.nodes.map (·.id)).Nodup)
    (hval : ∀ e ∈ spec.edges, e.eto ∈ spec.nodes.map (·.id)) :
    coversExactly spec.nodes (DC.calculateLayout spec) ∧
    coversExactly spec.nodes (P11.calculateLayout cos sin spec) ∧
    (spec.nodes = [] →
      DC.calculateLayout spec = [] ∧ P11.calculateLayout cos sin spec = []) ∧
    coversExactly spec.nodes (DC.layoutSequence spec.nodes spec.edges) ∧
    coversExactly spec.nodes (P11.layoutSequence spec.nodes spec.edges) ∧
    coversExactly spec.nodes (layoutTimeline spec.nodes spec.edges) ∧
    coversExactly spec.nodes (layoutStateMachine cos sin spec.nodes spec.edges) ∧
    coversExactly spec.nodes (P11.layoutEntityRelationship spec.nodes spec.edges) ∧
    coversExactly spec.nodes (P11.layoutClassDiagram spec.nodes spec.edges) ∧
    coversExactly spec.nodes (layoutNetwork cos sin spec.nodes spec.edges) ∧
    (spec.nodes ≠ [] →
      (∃ m, DC.layoutDirectedGraph spec.nodes spec.edges = some m ∧
        coversExactly spec.nodes m) ∧
      (∃ m, P11.layoutDirectedGraph spec.nodes spec.edges = some m ∧
        coversExactly spec.nodes m) ∧
      (∃ m, DC.layoutFlowchart spec.nodes spec.edges = some m ∧
        coversExactly spec.nodes m) ∧
      (∃ m, P11.layoutFlowchart spec.nodes spec.edges = some m ∧
        coversExactly spec.nodes m) ∧
      (∃ m, DC.layoutTree spec.nodes spec.edges = some m ∧
        coversExactly spec.nodes m) ∧
      (∃ m, P11.layoutTree spec.nodes spec.edges = some m ∧
        coversExactly spec.nodes m) ∧
      (∃ m, layoutDeployment spec.nodes spec.edges = some m ∧
        coversExactly spec.nodes m)) := by
  refine ⟨calculateLayoutDC_covers spec hnd hval,
    calculateLayoutP11_covers cos sin spec hnd hval, ?_,
    layoutSequenceC_keys 150 300 400 250 spec.nodes spec.edges hval,
    layoutSequenceC_keys 200 350 750 450 spec.nodes spec.edges hval,
    layoutTimeline_keys spec.nodes spec.edges,
    layoutStateMachine_keys cos sin spec.nodes spec.edges,
    layoutGridC_keys 300 200 600 400 spec.nodes spec.edges,
    layoutGridC_keys 300 200 500 350 spec.nodes spec.edges,
    layoutNetwork_keys cos sin spec.nodes spec.edges, ?_⟩
  · intro hnil
    constructor
    · unfold DC.calculateLayout
      rw [if_pos (by rw [hnil]; rfl)]
    · unfold P11.calculateLayout
      rw [if_pos (by rw [hnil]; rfl)]
  · intro hne
    obtain ⟨m1, hm1, h11, h12⟩ := layoutDirectedGraphC_keys 600 400 450 280
      spec.nodes spec.edges hne hval
    obtain ⟨m2, hm2, h21, h22⟩ := layoutDirectedGraphC_keys 700 450 600 380
      spec.nodes spec.edges hne hval
    obtain ⟨m3, hm3, h31, h32⟩ := layoutFlowchartC_keys 600 100 250 400
      spec.nodes spec.edges hne hval
    obtain ⟨m4, hm4, h41, h42⟩ := layoutFlowchartC_keys 700 150 350 550
      spec.nodes spec.edges hne hval
    obtain ⟨m5, hm5, h51, h52⟩ := layoutTreeC_keys 600 400 450 280 400 100 250 350
      spec.nodes spec.edges hne hnd hval
    obtain ⟨m6, hm6, h61, h62⟩ := layoutTreeC_keys 700 450 600 380 500 150 350 500
      spec.nodes spec.edges hne hnd hval
    obtain ⟨m7, hm7, h71, h72⟩ := layoutDeployment_keys spec.nodes spec.edges hne
    exact ⟨⟨m1, hm1, h11, h12⟩, ⟨m2, hm2, h21, h22⟩, ⟨m3, hm3, h31, h32⟩,
      ⟨m4, hm4, h41, h42⟩, ⟨m5, hm5, h51, h52⟩, ⟨m6, hm6, h61, h62⟩,
      ⟨m7, hm7, h71, h72⟩⟩

/-- Witness for `calculateLayout_coverage` on the two-node flowchart
spec. -/
theorem calculateLayout_coverage_witness :
    coversExactly specAB.nodes (DC.calculateLayout specAB) ∧
    coversExactly specAB.nodes (P11.calculateLayout (fun _ => 0) (fun _ => 0) specAB) ∧
    (specAB.nodes = [] →
      DC.calculateLayout specAB = [] ∧
      P11.calculateLayout (fun _ => 0) (fun _ => 0) specAB = []) ∧
    coversExactly specAB.nodes (DC.layoutSequence specAB.nodes specAB.edges) ∧
    coversExactly specAB.nodes (P11.layoutSequence specAB.nodes specAB.edges) ∧
    coversExactly specAB.nodes (layoutTimeline specAB.nodes specAB.edges) ∧
    coversExactly specAB.nodes
      (layoutStateMachine (fun _ => 0) (fun _ => 0) specAB.nodes specAB.edges) ∧
    coversExactly specAB.nodes (P11.layoutEntityRelationship specAB.nodes specAB.edges) ∧
    coversExactly specAB.nodes (P11.layoutClassDiagram specAB.nodes specAB.edges) ∧
    coversExactly specAB.nodes
      (layoutNetwork (fun _ => 0) (fun _ => 0) specAB.nodes specAB.edges) ∧
    (specAB.nodes ≠ [] →
      (∃ m, DC.layoutDirectedGraph specAB.nodes specAB.edges = some m ∧
        coversExactly specAB.nodes m) ∧
      (∃ m, P11.layoutDirectedGraph specAB.nodes specAB.edges = some m ∧
        coversExactly specAB.nodes m) ∧
      (∃ m, DC.layoutFlowchart specAB.nodes specAB.edges = some m ∧
        coversExactly specAB.nodes m) ∧
      (∃ m, P11.layoutFlowchart specAB.nodes specAB.edges = some m ∧
        coversExactly specAB.nodes m) ∧
      (∃ m, DC.layoutTree specAB.nodes specAB.edges = some m ∧
        coversExactly specAB.nodes m) ∧
      (∃ m, P11.layoutTree specAB.nodes specAB.edges = some m ∧
        coversExactly specAB.nodes m) ∧
      (∃ m, layoutDeployment specAB.nodes specAB.edges = some m ∧
        coversExactly specAB.nodes m)) :=
  calculateLayout_coverage specAB (fun _ => 0) (fun _ => 0) (by decide) (by decide)

/-- Tree fixture: root `A` with child `B`; `C` and `D` form a cycle
unreachable from the root. -/
def treeNodes4 : List DiagramNode := [exNode "A", exNode "B", exNode "C", exNode "D"]

def treeEdges4 : List DiagramEdge := [exEdge "A" "B", exEdge "C" "D", exEdge "D" "C"]

/-- C10: in `layoutTree` (diagramConverter.ts), when at least one root
exists and node ids are unique, the ids the DFS visits are exactly those
reachable from some root; every node still receives a position; and the
k-th node unreachable from every root (in input order) is appended on its
own new level below the `L` DFS levels, horizontally centred as a
single-node row at `x = startX - nodeWidth/2 = 225` and
`y = startY + (L + k) * levelHeight = 100 + (L + k) * 250` — a vertical
column beneath the tree. -/
theorem layoutTree_unreachable_column (nodes : List DiagramNode) (edges : List DiagramEdge)
    (hnd : (nodes.map (·.id)).Nodup) (hroots : rootNodes nodes edges ≠ []) :
    (∀ y, y ∈ (treeDfsState nodes edges).1 ↔ TreeReachable nodes edges y) ∧
    ∃ m, DC.layoutTree nodes edges = some m ∧
      (∀ n ∈ nodes, n.id ∈ mapKeys m) ∧
      ∀ (k : ℕ) (hk : k < (nodes.filter
          (fun n => decide (n.id ∉ (treeDfsState nodes edges).1))).length),
        mapGet m ((nodes.filter
            (fun n => decide (n.id ∉ (treeDfsState nodes edges).1))).get ⟨k, hk⟩).id =
          some (225, 100 + (((treeDfsState nodes edges).2.length + k : ℕ) : ℚ) * 250) := by
  refine ⟨treeDfsState_visited_iff nodes edges, ?_⟩
  simp only [DC.layoutTree, layoutTreeC]
  have hr : ¬((rootNodes nodes edges).length = 0) := by
    intro hc
    exact hroots (List.length_eq_zero.mp hc)
  rw [if_neg hr]
  set st1 := treeDfsState nodes edges with hst1
  set unreach := nodes.filter (fun n => decide (n.id ∉ st1.1)) with hur
  set levels' := treeLevels nodes edges with hlv
  have hlv' : levels' = st1.2 ++ unreach.map (fun n => [n]) := by
    rw [hlv]
    simp only [treeLevels]
    rw [← hst1, treeFill_eq st1.1 nodes st1.2, ← hur]
  have hids := treeDfs_ids nodes edges
  rw [← hst1] at hids
  have hmembers : (∀ n ∈ st1.2.flatten, n ∈ nodes) ∧
      (∀ n ∈ nodes, n.id ∈ st1.1 → n ∈ st1.2.flatten) := by
    rw [hst1]
    simp only [treeDfsState]
    refine foldl_pres
      (fun st : List String × List (List DiagramNode) =>
        (∀ n ∈ st.2.flatten, n ∈ nodes) ∧ (∀ n ∈ nodes, n.id ∈ st.1 → n ∈ st.2.flatten))
      _ (rootNodes nodes edges) _
      ⟨(by intro n hn; cases hn), (by intro n _ hv; cases hv)⟩ ?_
    intro st r hP _
    exact treeDfs_members nodes edges hnd (dfsFuel nodes edges) r.id 0 st hP
  have hUnd : (unreach.map (·.id)).Nodup := by
    rw [hur]
    exact List.Nodup.sublist (List.Sublist.map _ (List.filter_sublist nodes)) hnd
  have hndflat : (levels'.flatten.map (·.id)).Nodup := by
    rw [hlv', List.flatten_append, flatten_singleton_map, List.map_append, List.nodup_append]
    refine ⟨hids.2, hUnd, fun a ha hb => ?_⟩
    rcases List.mem_map.mp ha with ⟨n, hn, rfl⟩
    rcases List.mem_map.mp hb with ⟨n1, hn1, he⟩
    rw [hur, List.mem_filter] at hn1
    have h2 : n1.id ∉ st1.1 := by simpa using hn1.2
    rw [he] at h2
    exact h2 (hids.1 n hn)
  refine ⟨_, rfl, ?_, ?_⟩
  · intro n hn
    rw [nestedFold_mem_keys _ levels'.enum [] n.id]
    refine Or.inr ?_
    rw [exists_enum_iff levels' (fun lvl => n.id ∈ lvl.map (·.id))]
    have hnf : n ∈ levels'.flatten := by
      rw [hlv', List.flatten_append, flatten_singleton_map, List.mem_append]
      by_cases hv : n.id ∈ st1.1
      · exact Or.inl (hmembers.2 n hn hv)
      · refine Or.inr ?_
        rw [hur, List.mem_filter]
        exact ⟨hn, by simpa using hv⟩
    obtain ⟨lvl, hlvl, hnl⟩ := List.mem_flatten.mp hnf
    exact ⟨lvl, hlvl, List.mem_map.mpr ⟨n, hnl, rfl⟩⟩
  · intro k hk
    have hsub : st1.2.length + k - st1.2.length = k := by omega
    have hgetq : levels'[st1.2.length + k]? = some [unreach.get ⟨k, hk⟩] := by
      rw [hlv', List.getElem?_append_right (by omega), hsub, List.getElem?_map,
        List.getElem?_eq_getElem hk]
      rfl
    have hgmem : (st1.2.length + k, [unreach.get ⟨k, hk⟩]) ∈ levels'.enum := by
      rw [List.mk_mem_enum_iff_getElem?]
      exact hgetq
    have hmemnp : ((0 : ℕ), unreach.get ⟨k, hk⟩) ∈
        ([unreach.get ⟨k, hk⟩] : List DiagramNode).enum :=
      List.mem_singleton.mpr rfl
    have hndall : ((levels'.enum.map Prod.snd).flatten.map (·.id)).Nodup := by
      rw [List.enum_eq_enumFrom, List.enumFrom_map_snd]
      exact hndflat
    have hget := nestedFold_get_of_nodup
      (fun (g : ℕ × List DiagramNode) (np : ℕ × DiagramNode) =>
        ((400 : ℚ) - (g.2.length : ℚ) * 350 / 2 + (np.1 : ℚ) * 350,
         (100 : ℚ) + (g.1 : ℚ) * 250))
      levels'.enum [] hndall (st1.2.length + k, [unreach.get ⟨k, hk⟩]) hgmem
      (0, unreach.get ⟨k, hk⟩) hmemnp
    refine Eq.trans hget ?_
    norm_num

/-- Witness for `layoutTree_unreachable_column`: four nodes where `C`
and `D` form a cycle unreachable from the single root `A`. -/
theorem layoutTree_unreachable_column_witness :
    ((treeNodes4.map (·.id)).Nodup ∧ rootNodes treeNodes4 treeEdges4 ≠ []) ∧
    ((∀ y, y ∈ (treeDfsState treeNodes4 treeEdges4).1 ↔
        TreeReachable treeNodes4 treeEdges4 y) ∧
     ∃ m, DC.layoutTree treeNodes4 treeEdges4 = some m ∧
       (∀ n ∈ treeNodes4, n.id ∈ mapKeys m) ∧
       ∀ (k : ℕ) (hk : k < (treeNodes4.filter
           (fun n => decide (n.id ∉ (treeDfsState treeNodes4 treeEdges4).1))).length),
         mapGet m ((treeNodes4.filter
             (fun n => decide (n.id ∉ (treeDfsState treeNodes4 treeEdges4).1))).get
               ⟨k, hk⟩).id =
           some (225, 100 +
             (((treeDfsState treeNodes4 treeEdges4).2.length + k : ℕ) : ℚ) * 250)) :=
  ⟨⟨by decide, by decide⟩,
   layoutTree_unreachable_column treeNodes4 treeEdges4 (by decide) (by decide)⟩

/-! ## `assignLayers` on forests: layer monotonicity -/

/-- Reachability from one of the true roots at a recorded depth. -/
def RootedD (nodes : List DiagramNode) (edges : List DiagramEdge)
    (y : String) (n : ℕ) : Prop :=
  ∃ r ∈ rootNodes nodes edges, ReachD (graphChildren edges) r.id y n

theorem mem_graphChildren (edges : List DiagramEdge) (p y : String) :
    y ∈ graphChildren edges p ↔ ∃ e ∈ edges, e.efrom = p ∧ e.eto = y := by
  simp only [graphChildren, List.mem_map, List.mem_filter, decide_eq_true_eq]
  constructor
  · rintro ⟨e, ⟨he, hf⟩, rfl⟩
    exact ⟨e, he, hf, rfl⟩
  · rintro ⟨e, he, hf, rfl⟩
    exact ⟨e, ⟨he, hf⟩, rfl⟩

theorem reachD_last_inv {children : String → List String} {s y : String} {n : ℕ}
    (h : ReachD children s y (n + 1)) :
    ∃ p, ReachD children s p n ∧ y ∈ children p := by
  cases h with
  | step h1 h2 => exact ⟨_, h1, h2⟩

theorem rootedD_mem_universe (nodes : List DiagramNode) (edges : List DiagramEdge)
    {x : String} {d : ℕ} (h : RootedD nodes edges x d) : x ∈ idUniverse nodes edges := by
  obtain ⟨r, hr, hd⟩ := h
  rcases reach_target edges r.id x ⟨d, hd⟩ with rfl | hx
  · exact node_mem_universe nodes edges r ((mem_rootNodes nodes edges r).mp hr).1
  · simp only [idUniverse, Finset.mem_union, List.mem_toFinset]
    exact Or.inr hx

/-- In a graph whose edge targets are pairwise distinct, the depth at
which an id is reachable from the root set is unique. -/
theorem rootedD_unique (nodes : List DiagramNode) (edges : List DiagramEdge)
    (HU : (edges.map (·.eto)).Nodup) :
    ∀ (n m : ℕ) (y : String), RootedD nodes edges y n → RootedD nodes edges y m →
      n = m := by
  intro n
  induction n using Nat.strong_induction_on with
  | _ n IH =>
    intro m y h1 h2
    obtain ⟨r1, hr1, hd1⟩ := h1
    obtain ⟨r2, hr2, hd2⟩ := h2
    cases n with
    | zero =>
      have hy1 : y = r1.id := reachD_zero_inv hd1
      cases m with
      | zero => rfl
      | succ m1 =>
        exfalso
        obtain ⟨p, _, hc⟩ := reachD_last_inv hd2
        rcases (mem_graphChildren edges p y).mp hc with ⟨e, he, _, hey⟩
        have hni : r1.id ∉ incomingIds edges := ((mem_rootNodes nodes edges r1).mp hr1).2
        refine hni ?_
        rw [← hy1]
        exact List.mem_map.mpr ⟨e, he, hey⟩
    | succ n1 =>
      cases m with
      | zero =>
        exfalso
        have hy2 : y = r2.id := reachD_zero_inv hd2
        obtain ⟨p, _, hc⟩ := reachD_last_inv hd1
        rcases (mem_graphChildren edges p y).mp hc with ⟨e, he, _, hey⟩
        have hni : r2.id ∉ incomingIds edges := ((mem_rootNodes nodes edges r2).mp hr2).2
        refine hni ?_
        rw [← hy2]
        exact List.mem_map.mpr ⟨e, he, hey⟩
      | succ m1 =>
        obtain ⟨p1, hp1, hc1⟩ := reachD_last_inv hd1
        obtain ⟨p2, hp2, hc2⟩ := reachD_last_inv hd2
        rcases (mem_graphChildren edges p1 y).mp hc1 with ⟨e1, he1, hf1, ht1⟩
        rcases (mem_graphChildren edges p2 y).mp hc2 with ⟨e2, he2, hf2, ht2⟩
        have he : e1 = e2 := List.inj_on_of_nodup_map HU he1 he2 (by rw [ht1, ht2])
        have hpq : p1 = p2 := by rw [← hf1, ← hf2, he]
        have hn : n1 = m1 := by
          refine IH n1 (by omega) m1 p1 ⟨r1, hr1, hp1⟩ ?_
          rw [hpq]
          exact ⟨r2, hr2, hp2⟩
        omega

/-- On a forest (pairwise-distinct edge targets), the layers DFS stores
each reachable id's unique root-depth and never raises it: every visited
id that is root-reachable holds exactly its depth. -/
theorem layers_forest_inv (nodes : List DiagramNode) (edges : List DiagramEdge)
    (HU : (edges.map (·.eto)).Nodup) :
    ∀ (k : ℕ), ∀ (f : ℕ) (x : String) (d : ℕ) (vis : List String) (m : JsMap String ℕ),
      visCard (idUniverse nodes edges) vis ≤ k → k < f →
      RootedD nodes edges x d →
      (∀ y ∈ vis, ∀ n, RootedD nodes edges y n → mapGet m y = some n) →
      (∀ y ∈ vis, ∃ n, RootedD nodes edges y n) →
      (∀ y ∈ (dfsA (graphChildren edges) layerRaise layerEnter f x d (vis, m)).1,
        ∀ n, RootedD nodes edges y n →
          mapGet (dfsA (graphChildren edges) layerRaise layerEnter f x d (vis, m)).2 y
            = some n) ∧
      (∀ y ∈ (dfsA (graphChildren edges) layerRaise layerEnter f x d (vis, m)).1,
        ∃ n, RootedD nodes edges y n) := by
  intro k
  induction k using Nat.strong_induction_on with
  | _ k IH =>
    intro f x d vis m hk hf hx hInv hR
    obtain ⟨g, rfl⟩ : ∃ g, f = g + 1 := ⟨f - 1, by omega⟩
    rw [dfsA_succ]
    by_cases hxv : x ∈ vis
    · rw [if_pos hxv]
      have hget : mapGet m x = some d := hInv x hxv d hx
      have hcur : (mapGet m x).getD 0 = d := by rw [hget]; rfl
      have hLR : layerRaise x d m = m := by
        simp only [layerRaise]
        rw [hcur, if_neg (lt_irrefl d)]
      rw [hLR]
      exact ⟨hInv, hR⟩
    · rw [if_neg hxv]
      have hInv1 : ∀ y ∈ x :: vis, ∀ n, RootedD nodes edges y n →
          mapGet (mapSet m x d) y = some n := by
        intro y hy n hn
        rcases List.mem_cons.mp hy with rfl | hy0
        · have hnd2 : n = d := rootedD_unique nodes edges HU n d y hn hx
          rw [hnd2, mapGet_mapSet_self]
        · have hne : y ≠ x := fun hc => hxv (hc ▸ hy0)
          rw [mapGet_mapSet_ne _ _ _ _ hne]
          exact hInv y hy0 n hn
      have hR1 : ∀ y ∈ x :: vis, ∃ n, RootedD nodes edges y n := by
        intro y hy
        rcases List.mem_cons.mp hy with rfl | hy0
        · exact ⟨d, hx⟩
        · exact hR y hy0
      have hxU : x ∈ idUniverse nodes edges := rootedD_mem_universe nodes edges hx
      have hklt : visCard (idUniverse nodes edges) (x :: vis) < k :=
        lt_of_lt_of_le (visCard_lt (idUniverse nodes edges) hxU hxv) hk
      have hmain := foldl_pres
        (fun st : List String × JsMap String ℕ =>
          (x :: vis) ⊆ st.1 ∧
          (∀ y ∈ st.1, ∀ n, RootedD nodes edges y n → mapGet st.2 y = some n) ∧
          (∀ y ∈ st.1, ∃ n, RootedD nodes edges y n))
        (fun st c => dfsA (graphChildren edges) layerRaise layerEnter g c (d + 1) st)
        (graphChildren edges x) (x :: vis, layerEnter x d (x :: vis) m)
        ⟨fun a ha => ha, hInv1, hR1⟩
        (by
          intro st c hP hcmem
          obtain ⟨vis1, m1⟩ := st
          obtain ⟨hsubst, hInv2, hR2⟩ := hP
          have hmeas : visCard (idUniverse nodes edges) vis1 < k :=
            lt_of_le_of_lt (visCard_mono (idUniverse nodes edges) hsubst) hklt
          have hxc : RootedD nodes edges c (d + 1) := by
            obtain ⟨r, hr, hdx⟩ := hx
            exact ⟨r, hr, ReachD.step hdx hcmem⟩
          have hcall := IH (visCard (idUniverse nodes edges) vis1) hmeas g c (d + 1)
            vis1 m1 (le_refl _) (by omega) hxc hInv2 hR2
          refine ⟨?_, hcall.1, hcall.2⟩
          exact fun a ha =>
            dfsA_vis_mono (graphChildren edges) layerRaise layerEnter g c (d + 1)
              (vis1, m1) (hsubst ha))
      exact ⟨hmain.2.1, hmain.2.2⟩

/-- On a forest with at least one root, the layers DFS visits every
root-reachable id and records exactly its unique depth. -/
theorem layersDfsState_forest (nodes : List DiagramNode) (edges : List DiagramEdge)
    (HU : (edges.map (·.eto)).Nodup) (hroots : rootNodes nodes edges ≠ []) :
    ∃ st1, layersDfsState (dfsFuel nodes edges) nodes edges = some st1 ∧
      ∀ y n, RootedD nodes edges y n → y ∈ st1.1 ∧ mapGet st1.2 y = some n := by
  unfold layersDfsState
  have hr : (rootNodes nodes edges).length > 0 := by
    cases h : rootNodes nodes edges with
    | nil => exact absurd h hroots
    | cons a l => simp [h]
  rw [if_pos hr]
  refine ⟨_, rfl, ?_⟩
  have hInvF := foldl_pres
    (fun st : List String × JsMap String ℕ =>
      (∀ y ∈ st.1, ∀ n, RootedD nodes edges y n → mapGet st.2 y = some n) ∧
      (∀ y ∈ st.1, ∃ n, RootedD nodes edges y n))
    (fun st r =>
      dfsA (graphChildren edges) layerRaise layerEnter (dfsFuel nodes edges) r.id 0 st)
    (rootNodes nodes edges) (([], []) : List String × JsMap String ℕ)
    ⟨(by intro y hy; cases hy), (by intro y hy; cases hy)⟩
    (by
      intro st r hP hrmem
      obtain ⟨vis1, m1⟩ := st
      exact layers_forest_inv nodes edges HU
        (visCard (idUniverse nodes edges) vis1) (dfsFuel nodes edges) r.id 0 vis1 m1
        (le_refl _) (visCard_le_fuel nodes edges vis1) ⟨r, hrmem, ReachD.refl⟩
        hP.1 hP.2)
  have hclosed := startFold_closed (graphChildren edges) layerRaise layerEnter
    (idUniverse nodes edges) (graphChildren_mem_universe nodes edges)
    (dfsFuel nodes edges) (visCard_le_fuel nodes edges)
    (rootNodes nodes edges)
    (fun r hr0 => node_mem_universe nodes edges r
      ((mem_rootNodes nodes edges r).mp hr0).1) ([] : JsMap String ℕ)
  intro y n hyn
  obtain ⟨r, hr0, hd⟩ := hyn
  have hroot : r.id ∈ ((rootNodes nodes edges).foldl
      (fun st r =>
        dfsA (graphChildren edges) layerRaise layerEnter (dfsFuel nodes edges) r.id 0 st)
      (([], []) : List String × JsMap String ℕ)).1 :=
    startFold_mem (graphChildren edges) layerRaise layerEnter (dfsFuel nodes edges)
      (by unfold dfsFuel; omega) (rootNodes nodes edges) ([], []) r hr0
  have hymem : y ∈ ((rootNodes nodes edges).foldl
      (fun st r =>
        dfsA (graphChildren edges) layerRaise layerEnter (dfsFuel nodes edges) r.id 0 st)
      (([], []) : List String × JsMap String ℕ)).1 := by
    clear hInvF
    induction hd with
    | refl => exact hroot
    | step h1 h2 ih => exact hclosed _ ih _ h2
  exact ⟨hymem, hInvF.1 y hymem n ⟨r, hr0, hd⟩⟩

/-- Forest fixture: the chain `A → B → C` (pairwise-distinct edge
targets, root `A`). -/
def forestEdges : List DiagramEdge := [exEdge "A" "B", exEdge "B" "C"]

/-- C2 (amended: the original monotonicity claim fails on the spec's own
cycle, see `assignLayers_cycle_not_monotone` — a revisited node has its
layer raised without re-expanding its children).  On a forest — edge
targets pairwise distinct, so every id has at most one incoming edge —
with at least one true root, `assignLayers` succeeds and for every edge
`u → v` with `u` reachable from a root, `layer(u)` and `layer(v)` are
both recorded with `layer(v) = layer(u) + 1` (hence
`layer(v) ≥ layer(u) + 1`). -/
theorem assignLayers_forest_monotone (nodes : List DiagramNode) (edges : List DiagramEdge)
    (HU : (edges.map (·.eto)).Nodup) (hroots : rootNodes nodes edges ≠ []) :
    ∃ layers, assignLayers nodes edges = some layers ∧
      ∀ e ∈ edges, ∀ r ∈ rootNodes nodes edges,
        Reach (graphChildren edges) r.id e.efrom →
        ∃ lu, mapGet layers e.efrom = some lu ∧
          mapGet layers e.eto = some (lu + 1) := by
  obtain ⟨st1, hst1, hforest⟩ := layersDfsState_forest nodes edges HU hroots
  refine ⟨layersFill nodes st1.2, ?_, ?_⟩
  · unfold assignLayers assignLayersFuel
    rw [hst1]
    rfl
  · intro e he r hr hreach
    obtain ⟨n, hd⟩ := hreach
    have hu : RootedD nodes edges e.efrom n := ⟨r, hr, hd⟩
    have hv : RootedD nodes edges e.eto (n + 1) :=
      ⟨r, hr, ReachD.step hd ((mem_graphChildren edges e.efrom e.eto).mpr
        ⟨e, he, rfl, rfl⟩)⟩
    exact ⟨n, layersFill_get_present nodes st1.2 e.efrom n (hforest e.efrom n hu).2,
      layersFill_get_present nodes st1.2 e.eto (n + 1) (hforest e.eto (n + 1) hv).2⟩

/-- Witness for `assignLayers_forest_monotone` on the chain `A → B → C`. -/
theorem assignLayers_forest_monotone_witness :
    ((forestEdges.map (·.eto)).Nodup ∧ rootNodes cycNodes forestEdges ≠ []) ∧
    (∃ layers, assignLayers cycNodes forestEdges = some layers ∧
      ∀ e ∈ forestEdges, ∀ r ∈ rootNodes cycNodes forestEdges,
        Reach (graphChildren forestEdges) r.id e.efrom →
        ∃ lu, mapGet layers e.efrom = some lu ∧
          mapGet layers e.eto = some (lu + 1)) :=
  ⟨⟨by decide, by decide⟩,
   assignLayers_forest_monotone cycNodes forestEdges (by decide) (by decide)⟩

/-! ## `layoutNetwork`: degree ranking and the two rings -/

theorem getD_bump2 (m : JsMap String ℕ) (p q i : String) :
    (mapGet (mapSet (mapSet m p ((mapGet m p).getD 0 + 1)) q
        ((mapGet (mapSet m p ((mapGet m p).getD 0 + 1)) q).getD 0 + 1)) i).getD 0 =
      (mapGet m i).getD 0 + ((if p = i then 1 else 0) + (if q = i then 1 else 0)) := by
  by_cases hq : q = i
  · subst hq
    rw [mapGet_mapSet_self]
    by_cases hp : p = q
    · subst hp
      rw [mapGet_mapSet_self]
      simp
    · rw [mapGet_mapSet_ne _ _ _ _ (fun h => hp h.symm)]
      simp [hp]
  · rw [mapGet_mapSet_ne _ _ _ _ (fun h => hq h.symm)]
    by_cases hp : p = i
    · subst hp
      rw [mapGet_mapSet_self]
      simp [hq]
    · rw [mapGet_mapSet_ne _ _ _ _ (fun h => hp h.symm)]
      simp [hp, hq]

/-- `networkDegree` is the total degree: in-degree plus out-degree over
all edges (a self-loop contributing to both). -/
theorem networkDegree_eq (edges : List DiagramEdge) (i : String) :
    networkDegree edges i =
      (edges.filter (fun e => decide (e.efrom = i))).length +
      (edges.filter (fun e => decide (e.eto = i))).length := by
  have key : ∀ (l : List DiagramEdge) (m : JsMap String ℕ),
      (mapGet (l.foldl (fun m e =>
          mapSet (mapSet m e.efrom ((mapGet m e.efrom).getD 0 + 1)) e.eto
            ((mapGet (mapSet m e.efrom ((mapGet m e.efrom).getD 0 + 1)) e.eto).getD 0
              + 1)) m) i).getD 0 =
      (mapGet m i).getD 0 + ((l.filter (fun e => decide (e.efrom = i))).length +
        (l.filter (fun e => decide (e.eto = i))).length) := by
    intro l
    induction l with
    | nil => intro m; simp
    | cons e l ih =>
      intro m
      rw [List.foldl_cons, ih, getD_bump2 m e.efrom e.eto i]
      rw [List.filter_cons, List.filter_cons]
      by_cases hfrom : e.efrom = i <;> by_cases hto : e.eto = i <;>
        simp [hfrom, hto] <;> omega
  simp only [networkDegree, connectionCount]
  rw [key edges []]
  simp [mapGet]

theorem networkSorted_perm (nodes : List DiagramNode) (edges : List DiagramEdge) :
    (networkSorted nodes edges).Perm nodes :=
  List.perm_insertionSort _ nodes

theorem networkSorted_sorted (nodes : List DiagramNode) (edges : List DiagramEdge) :
    List.Sorted (fun a b => networkDegree edges b.id ≤ networkDegree edges a.id)
      (networkSorted nodes edges) := by
  haveI h1 : IsTotal DiagramNode
      (fun a b => networkDegree edges b.id ≤ networkDegree edges a.id) :=
    ⟨fun a b => le_total _ _⟩
  haveI h2 : IsTrans DiagramNode
      (fun a b => networkDegree edges b.id ≤ networkDegree edges a.id) :=
    ⟨fun a b c hab hbc => le_trans hbc hab⟩
  exact List.sorted_insertionSort _ nodes

/-- Every node of the hub prefix has degree at least that of every node
of the peripheral suffix. -/
theorem networkSorted_hub_ge (nodes : List DiagramNode) (edges : List DiagramEdge)
    (c : ℕ) :
    ∀ a ∈ (networkSorted nodes edges).take c,
      ∀ b ∈ (networkSorted nodes edges).drop c,
        networkDegree edges b.id ≤ networkDegree edges a.id := by
  have hs := networkSorted_sorted nodes edges
  have hp : List.Pairwise (fun a b => networkDegree edges b.id ≤ networkDegree edges a.id)
      ((networkSorted nodes edges).take c ++ (networkSorted nodes edges).drop c) := by
    rw [List.take_append_drop]
    exact hs
  exact (List.pairwise_append.mp hp).2.2

/-- Star fixture for the network layout: `A` of degree 3, `B`, `C`, `D`
of degree 1 each (four nodes, hub count `min 3 (12/10) = 1`). -/
def netEdges4 : List DiagramEdge := [exEdge "A" "B", exEdge "A" "C", exEdge "A" "D"]

/-- C7 (amended: the inner ring holds `min(3, floor(0.3 n))` nodes —
capped at three and *empty* for `n ≤ 3`, see
`layoutNetwork_small_has_no_inner_ring` — not "top ~30%, at minimum
enough to form an inner ring").  For every node and edge list with
unique node ids: `networkDegree` is the total degree (in plus out);
the sort is a degree-descending permutation of the nodes; every inner
node's degree dominates every outer node's; the first
`networkHubCount nodes = min 3 (3n/10)` sorted nodes sit on the inner
circle (radius 250, centre (600, 400)), evenly spaced by angle
`(k / hubCount) * 2π`; the remaining nodes sit on the outer circle
(radius 500), evenly spaced by angle `(k / remaining) * 2π`. -/
theorem layoutNetwork_rings (cos sin : ℚ → ℚ) (nodes : List DiagramNode)
    (edges : List DiagramEdge) (hnd : (nodes.map (·.id)).Nodup) :
    (∀ i, networkDegree edges i =
      (edges.filter (fun e => decide (e.efrom = i))).length +
      (edges.filter (fun e => decide (e.eto = i))).length) ∧
    (networkSorted nodes edges).Perm nodes ∧
    List.Sorted (fun a b => networkDegree edges b.id ≤ networkDegree edges a.id)
      (networkSorted nodes edges) ∧
    networkHubCount nodes = min 3 (nodes.length * 3 / 10) ∧
    (∀ a ∈ (networkSorted nodes edges).take (networkHubCount nodes),
      ∀ b ∈ (networkSorted nodes edges).drop (networkHubCount nodes),
        networkDegree edges b.id ≤ networkDegree edges a.id) ∧
    (∀ (k : ℕ)
        (hk : k < ((networkSorted nodes edges).take (networkHubCount nodes)).length),
      mapGet (layoutNetwork cos sin nodes edges)
          (((networkSorted nodes edges).take (networkHubCount nodes)).get ⟨k, hk⟩).id =
        some (600 + 250 * cos (((k : ℚ) / (networkHubCount nodes : ℚ)) * 2 * mathPI),
              400 + 250 * sin (((k : ℚ) / (networkHubCount nodes : ℚ)) * 2 * mathPI))) ∧
    (∀ (k : ℕ)
        (hk : k < ((networkSorted nodes edges).drop (networkHubCount nodes)).length),
      mapGet (layoutNetwork cos sin nodes edges)
          (((networkSorted nodes edges).drop (networkHubCount nodes)).get ⟨k, hk⟩).id =
        some (600 + 500 * cos (((k : ℚ) /
              ((((networkSorted nodes edges).drop (networkHubCount nodes)).length : ℚ)))
              * 2 * mathPI),
              400 + 500 * sin (((k : ℚ) /
              ((((networkSorted nodes edges).drop (networkHubCount nodes)).length : ℚ)))
              * 2 * mathPI))) := by
  have hnds : ((networkSorted nodes edges).map (·.id)).Nodup :=
    ((networkSorted_perm nodes edges).map (·.id)).nodup_iff.mpr hnd
  have hsplit : (((networkSorted nodes edges).take (networkHubCount nodes)).map (·.id) ++
      ((networkSorted nodes edges).drop (networkHubCount nodes)).map (·.id)).Nodup := by
    rw [← List.map_append, List.take_append_drop]
    exact hnds
  rw [List.nodup_append] at hsplit
  obtain ⟨hh, hp2, hdisj⟩ := hsplit
  refine ⟨fun i => networkDegree_eq edges i, networkSorted_perm nodes edges,
    networkSorted_sorted nodes edges, rfl,
    networkSorted_hub_ge nodes edges (networkHubCount nodes), ?_, ?_⟩
  · intro k hk
    simp only [layoutNetwork]
    have hu : (((networkSorted nodes edges).take (networkHubCount nodes)).get ⟨k, hk⟩).id ∉
        ((networkSorted nodes edges).drop (networkHubCount nodes)).enum.map
          (fun p : ℕ × DiagramNode => p.2.id) := by
      rw [enum_map_key]
      refine fun hc => hdisj ?_ hc
      exact List.mem_map.mpr ⟨_, List.get_mem _ _ hk, rfl⟩
    rw [foldl_mapSet_get_not_mem (fun p : ℕ × DiagramNode => p.2.id) _
      ((networkSorted nodes edges).drop (networkHubCount nodes)).enum _ _ hu]
    have hq : (k, ((networkSorted nodes edges).take (networkHubCount nodes)).get ⟨k, hk⟩) ∈
        ((networkSorted nodes edges).take (networkHubCount nodes)).enum :=
      mem_enum_of_lt _ k hk
    have hndk : (((networkSorted nodes edges).take (networkHubCount nodes)).enum.map
        (fun p : ℕ × DiagramNode => p.2.id)).Nodup := by
      rw [enum_map_key]
      exact hh
    exact foldl_mapSet_get_of_nodup (fun p : ℕ × DiagramNode => p.2.id)
      (fun p => (600 + 250 * cos (((p.1 : ℚ) / (networkHubCount nodes : ℚ)) * 2 * mathPI),
                 400 + 250 * sin (((p.1 : ℚ) / (networkHubCount nodes : ℚ)) * 2 * mathPI)))
      ((networkSorted nodes edges).take (networkHubCount nodes)).enum []
      (k, ((networkSorted nodes edges).take (networkHubCount nodes)).get ⟨k, hk⟩) hndk hq
  · intro k hk
    simp only [layoutNetwork]
    have hq : (k, ((networkSorted nodes edges).drop (networkHubCount nodes)).get ⟨k, hk⟩) ∈
        ((networkSorted nodes edges).drop (networkHubCount nodes)).enum :=
      mem_enum_of_lt _ k hk
    have hndk : (((networkSorted nodes edges).drop (networkHubCount nodes)).enum.map
        (fun p : ℕ × DiagramNode => p.2.id)).Nodup := by
      rw [enum_map_key]
      exact hp2
    exact foldl_mapSet_get_of_nodup (fun p : ℕ × DiagramNode => p.2.id)
      (fun p => (600 + 500 * cos (((p.1 : ℚ) /
            ((((networkSorted nodes edges).drop (networkHubCount nodes)).length : ℚ)))
            * 2 * mathPI),
          400 + 500 * sin (((p.1 : ℚ) /
            ((((networkSorted nodes edges).drop (networkHubCount nodes)).length : ℚ)))
            * 2 * mathPI)))
      ((networkSorted nodes edges).drop (networkHubCount nodes)).enum _
      (k, ((networkSorted nodes edges).drop (networkHubCount nodes)).get ⟨k, hk⟩) hndk hq

/-- Witness for `layoutNetwork_rings` on the star `A → B, A → C, A → D`:
one hub (`A`, degree 3) on the inner circle, three spokes outside. -/
theorem layoutNetwork_rings_witness :
    ((treeNodes4.map (·.id)).Nodup ∧ networkHubCount treeNodes4 = 1) ∧
    ((∀ i, networkDegree netEdges4 i =
      (netEdges4.filter (fun e => decide (e.efrom = i))).length +
      (netEdges4.filter (fun e => decide (e.eto = i))).length) ∧
    (networkSorted treeNodes4 netEdges4).Perm treeNodes4 ∧
    List.Sorted (fun a b => networkDegree netEdges4 b.id ≤ networkDegree netEdges4 a.id)
      (networkSorted treeNodes4 netEdges4) ∧
    networkHubCount treeNodes4 = min 3 (treeNodes4.length * 3 / 10) ∧
    (∀ a ∈ (networkSorted treeNodes4 netEdges4).take (networkHubCount treeNodes4),
      ∀ b ∈ (networkSorted treeNodes4 netEdges4).drop (networkHubCount treeNodes4),
        networkDegree netEdges4 b.id ≤ networkDegree netEdges4 a.id) ∧
    (∀ (k : ℕ)
        (hk : k < ((networkSorted treeNodes4 netEdges4).take
          (networkHubCount treeNodes4)).length),
      mapGet (layoutNetwork (fun _ => 1) (fun _ => 0) treeNodes4 netEdges4)
          (((networkSorted treeNodes4 netEdges4).take
            (networkHubCount treeNodes4)).get ⟨k, hk⟩).id =
        some (600 + 250 * 1, 400 + 250 * 0)) ∧
    (∀ (k : ℕ)
        (hk : k < ((networkSorted treeNodes4 netEdges4).drop
          (networkHubCount treeNodes4)).length),
      mapGet (layoutNetwork (fun _ => 1) (fun _ => 0) treeNodes4 netEdges4)
          (((networkSorted treeNodes4 netEdges4).drop
            (networkHubCount treeNodes4)).get ⟨k, hk⟩).id =
        some (600 + 500 * 1, 400 + 500 * 0))) :=
  ⟨⟨by decide, by decide⟩,
   layoutNetwork_rings (fun _ => 1) (fun _ => 0) treeNodes4 netEdges4 (by decide)⟩
